import Mathlib

/-!
# trie-cxx: a radix-trie keyed value store

A shallow embedding of `include/trie-cxx/trie-core.hh` (classes `trie::node`
and `trie::trie_t`) and theorems about it.

Conventions of the embedding.

* `std::string` and `char const *` are `List Char`; a `char const *` that may be
  null is `Option (List Char)`.  `p + n` on a C string and `s.substr(n)` are
  `List.drop n`, `s.substr(0, n)` is `List.take n`.
* The tree owns its nodes through `std::shared_ptr`; a node is identified by
  its position, the list of child indices leading from the root to it.  A
  `weak_node_ptr` is an `Option` of such a position (`none` is the null
  pointer), `lock()` is `node.lock`.
* Mutating member functions return the new tree next to their result.
* `std::size_t` values are `Nat`.  The only subtractions in the code are
  `fragment_length - partial_matched_size` (the second never exceeds the
  first) and `full_path.length() - minus`, which is embedded by `substr_head`.
-/

namespace trie

/-! ## Data model -/

/-- The type `errno_t` of the source (`using errno_t = int`). -/
abbrev errno_t := Int

/-- The `errno` value EACCES of `<cerrno>` (Linux numbering). -/
def EACCES : errno_t := 13
/-- The `errno` value EISDIR of `<cerrno>` (Linux numbering). -/
def EISDIR : errno_t := 21
/-- The `errno` value ENAMETOOLONG of `<cerrno>` (Linux numbering). -/
def ENAMETOOLONG : errno_t := 36
/-- The `errno` value EOWNERDEAD of `<cerrno>` (Linux numbering). -/
def EOWNERDEAD : errno_t := 130

/-- The value collaborator `ValueT`: `default` is the default-constructed
(empty) value `value_t{}`, and `moved_from x` is the state in which a value
`x` is left after it has been moved out of with `std::move`. -/
class ValueT (V : Type) extends Inhabited V where
  moved_from : V → V

/-- Scalars are left unchanged by a move. -/
instance : ValueT Nat := ⟨id⟩

/-- The enum `node::NodeType`. -/
inductive NodeType where
  | NODE_NONE
  | NODE_LEAF
  | NODE_BRANCH
deriving DecidableEq

/-- A `node_ptr` / non-null pointer to a node: the position of the node, as the
list of child indices from the root. -/
abbrev node_ptr := List Nat

/-- A `weak_node_ptr`: `none` is the empty (null) weak pointer. -/
abbrev weak_node_ptr := Option node_ptr

/-- The class `node`: `_type`, `_path`, `_fragment`, `_value`, `_children`.
The member `_fragment_length` is always the length of `_fragment` (the
constructors and the setter `fragment(s)` keep them equal), so it is not
stored. -/
inductive node (V : Type) where
  | mk (type : NodeType) (path : List Char) (fragment : List Char) (value : V)
      (children : List (node V))

namespace node

variable {V : Type}

/-- The accessor `type()`. -/
def type : node V → NodeType
  | mk t _ _ _ _ => t

/-- The accessor `path()`: full path from the root to this node. -/
def path : node V → List Char
  | mk _ p _ _ _ => p

/-- The accessor `fragment()`. -/
def fragment : node V → List Char
  | mk _ _ f _ _ => f

/-- The accessor `fragment_length()`. -/
def fragment_length (n : node V) : Nat := n.fragment.length

/-- The accessor `value()`. -/
def value : node V → V
  | mk _ _ _ v _ => v

/-- The member `_children`. -/
def children : node V → List (node V)
  | mk _ _ _ _ cs => cs

/-- The accessor `children_count()`. -/
def children_count (n : node V) : Nat := n.children.length

/-- The default-constructed node `node()`: type NODE_NONE, empty path, fragment,
value and children. -/
def empty [ValueT V] : node V := mk NodeType.NODE_NONE [] [] default []

/-- The node at a position below `root`, if the position is valid. -/
def get_at : node V → node_ptr → Option (node V)
  | n, [] => some n
  | mk _ _ _ _ cs, i :: p =>
    match cs[i]? with
    | some c => get_at c p
    | none => none

/-- The call `wp.lock()`: the node a weak pointer refers to, `none` if the pointer is
null or does not refer to a node of the tree. -/
def lock (root : node V) : weak_node_ptr → Option (node V)
  | none => none
  | some p => root.get_at p

/-- Apply `f` to the node at position `p` below the given node (the effect of
calling a mutating member through a `node_ptr`). -/
def modify_at (f : node V → node V) : node_ptr → node V → node V
  | [], n => f n
  | i :: p, mk t pa fr v cs => mk t pa fr v (List.modify (modify_at f p) i cs)

/-- The setter `path(s)`. -/
def set_path (s : List Char) : node V → node V
  | mk t _ fr v cs => mk t s fr v cs

/-- The setter `fragment(s)` (it also refreshes `_fragment_length`). -/
def set_fragment (s : List Char) : node V → node V
  | mk t pa _ v cs => mk t pa s v cs

/-- The setter `type(t)`. -/
def set_type (t : NodeType) : node V → node V
  | mk _ pa fr v cs => mk t pa fr v cs

/-- The state change of `set_value(val)`: `_value` becomes `val`.  The function
returns the previous `_value`, which is `value` of the node before the call. -/
def set_value (val : V) : node V → node V
  | mk t pa fr _ cs => mk t pa fr val cs

/-- The member `add(child)`: `_children.push_back(child)`. -/
def add (child : node V) : node V → node V
  | mk t pa fr v cs => mk t pa fr v (cs ++ [child])

/-- The member `del(it)` called on the node at position `self`: `find_if` looks
for the first child that is the same object as `it` and erases it. -/
def del (self it : node_ptr) : node V → node V
  | mk t pa fr v cs =>
    match (List.range cs.length).find? (fun i => decide (self ++ [i] = it)) with
    | some i => mk t pa fr v (cs.eraseIdx i)
    | none => mk t pa fr v cs

end node

/-- The expression `s.substr(0, s.length() - minus)` in `std::size_t` arithmetic: when `minus`
exceeds the length the difference wraps around to a count larger than the
string and `substr` returns the whole string. -/
def substr_head (s : List Char) (minus : Nat) : List Char :=
  if minus ≤ s.length then s.take (s.length - minus) else s

/-- The loop of `common_prefix`: the value `pos` reaches, given the characters
still to compare and the number `min_size - pos` of iterations still allowed. -/
def common_prefix_loop : List Char → List Char → Nat → Nat
  | a :: s1, b :: s2, n + 1 => if a = b then common_prefix_loop s1 s2 n + 1 else 0
  | _, _, _ => 0

/-- The free function `common_prefix(s1, s1_len, s2, s2_len)`: the loop runs
while `pos < min_size` (the smaller of the two lengths) and the characters
agree. -/
def common_prefix (s1 : List Char) (s1_len : Nat) (s2 : List Char) (s2_len : Nat) : Nat :=
  common_prefix_loop s1 s2 (if s1_len < s2_len then s1_len else s2_len)

/-- The struct `return_s`. -/
structure return_s (V : Type) [ValueT V] where
  ok : Bool := false
  en : errno_t := 0
  old : V := default

/-- The struct `find_return_s` (and its const twin `const_find_return_s`). -/
structure find_return_s where
  partial_matched_size : Nat := 0
  ptr : weak_node_ptr := none
  en : errno_t := 0
  matched : Bool := false
deriving DecidableEq

/-- The struct `locate_return_s`: a `find_return_s` with the vector `parents`
(`none` is the null pointer). -/
structure locate_return_s extends find_return_s where
  parents : Option (List weak_node_ptr) := none
deriving DecidableEq

namespace node

variable {V : Type}

/-! ## Lookup -/

mutual
/-- The member `fast_find_internal(ctx, path, path_len)`, called on the node at
position `self`.  The context `ctx` is updated in place by the source; here the
updated context is returned next to the boolean result. -/
def fast_find_internal :
    node V → node_ptr → find_return_s → List Char → Nat → Bool × find_return_s
  | mk _ _ frag _ cs, self, ctx, path, path_len =>
    if frag.length = 0 then
      if cs.length > 0 then
        -- for root node only
        match fast_find_children cs self 0 ctx path path_len with
        | (some ret1, ctx) => (ret1, ctx)
        | (none, ctx) => (ctx.matched, ctx)
      else (ctx.matched, ctx)
    else
      let cp := common_prefix frag frag.length path path_len
      if cp = 0 then (ctx.matched, ctx)
      else if frag.length = cp then
        if frag.length = path_len then
          (true, { ctx with ptr := some self, matched := true })
        else if frag.length < path_len then
          let rest := path.drop frag.length
          let rest_len := path_len - frag.length
          match fast_find_children cs self 0 ctx rest rest_len with
          | (some ret1, ctx) => (ret1, ctx)
          | (none, ctx) => (false, { ctx with partial_matched_size := cp, ptr := some self })
        else
          (true, { ctx with partial_matched_size := path_len, ptr := some self, matched := true })
      else if cp < frag.length then
        if path_len < frag.length then
          (false, { ctx with partial_matched_size := cp, ptr := some self })
        else
          let rest := path.drop cp
          let rest_len := path_len - cp
          match fast_find_children cs self 0 ctx rest rest_len with
          | (some ret1, ctx) => (ret1, ctx)
          | (none, ctx) => (false, { ctx with partial_matched_size := cp, ptr := some self })
      else (ctx.matched, ctx)
/-- The loop `for (auto const &ch : _children)` of `fast_find_internal`, from
the child of index `idx` on: `some ret1` when the loop returns `ret1`, `none`
when it runs to its end. -/
def fast_find_children :
    List (node V) → node_ptr → Nat → find_return_s → List Char → Nat →
      Option Bool × find_return_s
  | [], _, _, ctx, _, _ => (none, ctx)
  | ch :: rest, self, idx, ctx, path, path_len =>
    match fast_find_internal ch (self ++ [idx]) ctx path path_len with
    | (ret1, ctx) =>
      if ret1 || decide (ctx.partial_matched_size > 0) then (some ret1, ctx)
      else fast_find_children rest self (idx + 1) ctx path path_len
end

/-- The member `fast_find(path)` (both overloads), called on the root. -/
def fast_find (self : node V) (path : Option (List Char)) : find_return_s :=
  match path with
  | none => {}
  | some path => (self.fast_find_internal [] {} path path.length).2

mutual
/-- The member `locate_internal(path, parent)`, called on the node at position
`self`. -/
def locate_internal :
    node V → node_ptr → Option (List Char) → weak_node_ptr → locate_return_s
  | mk _ _ frag _ cs, self, path, parent =>
    match path with
    | none => {}
    | some path =>
      let frag_len := frag.length
      if frag_len = 0 then
        -- for root node only
        let wp_this : weak_node_ptr := some self
        match locate_children cs self 0 path wp_this [wp_this] with
        | some ret1 => ret1
        | none => {}
      else
        let path_len := path.length
        let cp := common_prefix frag frag_len path path_len
        if cp = 0 then {}
        else if cp = frag_len then
          let wp_this : weak_node_ptr := some self
          if path_len = frag_len then
            { partial_matched_size := 0, ptr := wp_this, en := 0, matched := true,
              parents := some [parent] }
          else if path_len > frag_len then
            let rest := path.drop frag_len
            match locate_children cs self 0 rest wp_this [parent, wp_this] with
            | some ret1 => ret1
            | none =>
              { partial_matched_size := cp, ptr := wp_this, en := 0, matched := false,
                parents := some [parent] }
          else
            { partial_matched_size := path_len, ptr := wp_this, en := 0, matched := true,
              parents := some [parent] }
        else if cp < frag_len then
          let wp_this : weak_node_ptr := some self
          if path_len < frag_len then
            { partial_matched_size := cp, ptr := wp_this, en := 0, matched := false,
              parents := some [parent] }
          else
            let rest := path.drop cp
            match locate_children cs self 0 rest wp_this [parent, wp_this] with
            | some ret1 => ret1
            | none =>
              { partial_matched_size := cp, ptr := wp_this, en := 0, matched := false,
                parents := some [parent] }
        else {}
/-- The loop `for (auto const &ch : _children)` of `locate_internal`, from the
child of index `idx` on; `pv` is the vector given to `ret1.parents` when that
is null.  `some ret1` when the loop returns `ret1`, `none` when it runs to its
end. -/
def locate_children :
    List (node V) → node_ptr → Nat → List Char → weak_node_ptr → List weak_node_ptr →
      Option locate_return_s
  | [], _, _, _, _, _ => none
  | ch :: rest, self, idx, path, wp_this, pv =>
    let ret1 := locate_internal ch (self ++ [idx]) (some path) wp_this
    if ret1.matched || decide (ret1.partial_matched_size > 0) then
      some (if ret1.parents.isNone then { ret1 with parents := some pv } else ret1)
    else locate_children rest self (idx + 1) path wp_this pv
end

/-- The member `locate(path)`, called on the root. -/
def locate (self : node V) (path : Option (List Char)) : locate_return_s :=
  self.locate_internal [] path none

/-- The member `find(path)`, called on the root: the result of `locate`
converted to `const_find_return_s`. -/
def find (self : node V) (path : Option (List Char)) : find_return_s :=
  (self.locate path).tofind_return_s

/-- The member `search(path)` with the template parameter `delimiter`, called
on the root.  In the source `auto pos = ret.partial_matched_size > 0` is a
`bool`, and `static_cast<std::size_t>(pos)` is 1 inside the `if`. -/
def search (delimiter : Char) (self : node V) (path : Option (List Char)) : locate_return_s :=
  let ret := self.locate_internal [] path none
  if ret.matched = false then
    let pos : Bool := decide (ret.partial_matched_size > 0)
    if pos then
      match self.lock ret.ptr with
      | some sp =>
        let frag := sp.fragment
        let size := sp.fragment_length
        if (if pos then 1 else 0) + 1 = size ∧ frag[size - 1]? = some delimiter then
          { ret with matched := true }
        else ret
      | none => ret
    else ret
  else ret

/-! ## Insertion -/

/-- The member `insert(char const *path, value_t &&value)`, called on the root
(`this` is the node at position `[]`).  `path + n` is `path.drop n`; the source
computes it by pointer arithmetic, which is defined only when `n` does not
exceed the length of `path`.  The branch taken when the lookup matched with a
non-zero `partial_matched_size` is embedded as written (`substr(pos)` as
`drop`). -/
def insert [ValueT V] (self : node V) (path : Option (List Char)) (value : V) :
    return_s V × node V :=
  match path with
  | none => ({}, self)
  | some path =>
    match self.fast_find_internal [] {} path path.length with
    | (true, fr) =>
      -- matched
      if fr.partial_matched_size = 0 then
        -- matched a node completely, replace it with new value
        match fr.ptr, self.lock fr.ptr with
        | some p, some sp =>
          ({ ok := true, old := sp.value }, modify_at (set_value value) p self)
        | _, _ => ({}, self)
      else
        match fr.ptr, self.lock fr.ptr with
        | some p, some sp =>
          let frag := sp.fragment
          let minus := sp.fragment_length - fr.partial_matched_size
          if minus = 0 then
            -- insert as child simply
            let new_path := path
            let title := new_path.drop sp.path.length
            let new_leaf := mk NodeType.NODE_LEAF new_path title value []
            ({ ok := true }, modify_at (add new_leaf) p self)
          else
            let full_path := sp.path
            let old := sp.value
            let child := mk NodeType.NODE_LEAF (full_path.drop (full_path.length - minus - 1))
              (frag.drop fr.partial_matched_size) old []
            let new_path := path
            let title := new_path.drop (new_path.length - minus - 1)
            let new_leaf := mk NodeType.NODE_LEAF new_path title value []
            ({ ok := true, old := ValueT.moved_from old },
              modify_at (fun sp => add new_leaf (add child (set_type NodeType.NODE_BRANCH
                (set_fragment (frag.take fr.partial_matched_size)
                  (set_path (substr_head full_path minus) (set_value default sp)))))) p self)
        | _, _ => ({}, self)
    | (false, fr) =>
      if fr.partial_matched_size > 0 then
        match fr.ptr, self.lock fr.ptr with
        | some p, some sp =>
          let frag := sp.fragment
          let minus := sp.fragment_length - fr.partial_matched_size
          if minus = 0 then
            -- add child directly
            let rest_title := path.drop sp.path.length
            let new_leaf := mk NodeType.NODE_LEAF path rest_title value []
            ({ ok := true }, modify_at (add new_leaf) p self)
          else
            -- split the node pointed by sp
            let dad_title := frag.take fr.partial_matched_size
            let full_path := sp.path
            let old := sp.value
            let new_sp_path := substr_head full_path minus
            let child_title := frag.drop fr.partial_matched_size
            let child := mk NodeType.NODE_LEAF full_path child_title old []
            let rest_title := path.drop new_sp_path.length
            let new_leaf := mk NodeType.NODE_LEAF path rest_title value []
            ({ ok := true, old := ValueT.moved_from old },
              modify_at (fun sp => add new_leaf (add child (set_type NodeType.NODE_BRANCH
                (set_fragment dad_title (set_path new_sp_path (set_value default sp)))))) p self)
        | _, _ => ({}, self)
      else
        -- insert full
        let old := self.value
        let new_path := path
        let new_leaf := mk NodeType.NODE_LEAF new_path new_path value []
        ({ ok := true, old := old },
          set_type NodeType.NODE_BRANCH (add new_leaf (set_value default self)))

/-- The member `set(path, value)`: an alias of `insert`. -/
def set [ValueT V] (self : node V) (path : Option (List Char)) (value : V) :
    return_s V × node V :=
  self.insert path value

/-! ## Removal -/

/-- The member `removed_fully(ret, path, include_children, nd_ptr, parents, en)`
(`path` is unused by the source); `root` is the tree the pointers refer to.
`parents->back()` of an empty vector is treated like a pointer that cannot be
locked. -/
def removed_fully [ValueT V] (root : node V) (ret : return_s V) (include_children : Bool)
    (nd_ptr : weak_node_ptr) (parents : Option (List weak_node_ptr)) (en : errno_t) :
    return_s V × node V :=
  match nd_ptr, root.lock nd_ptr with
  | some p, some sp =>
    -- ret.old = sp->set_value(std::move(ret.old))
    let root1 := modify_at (set_value ret.old) p root
    let ret := { ret with old := sp.value }
    if include_children then
      match parents with
      | some pv =>
        match pv.getLast? with
        | some (some d) =>
          match root1.get_at d with
          | some _ => ({ ret with en := en, ok := true }, modify_at (del d p) d root1)
          | none => ({ ret with en := EACCES }, root1)
        | _ => ({ ret with en := EACCES }, root1)
      | none => ({ ret with en := EOWNERDEAD }, root1)
    else
      ({ ret with en := EISDIR }, root1)
  | _, _ => ({ ret with en := EACCES }, root)

/-- The member `remove(char const *path, bool include_children)` with the
template parameter `delimiter`, called on the root. -/
def remove [ValueT V] (delimiter : Char) (self : node V) (path : Option (List Char))
    (include_children : Bool) : return_s V × node V :=
  let fr := self.locate_internal [] path none
  let ret : return_s V := { en := fr.en }
  if fr.matched && fr.partial_matched_size == 0 then
    -- fully matched
    removed_fully self ret include_children fr.ptr fr.parents fr.en
  else if fr.partial_matched_size > 0 then
    -- partial matched, ...
    match self.lock fr.ptr with
    | some sp =>
      let frag := sp.fragment
      let size := frag.length
      if size = fr.partial_matched_size + 1 ∧ frag[size - 1]? = some delimiter then
        removed_fully self ret include_children fr.ptr fr.parents fr.en
      else ({ ret with en := ENAMETOOLONG }, self)
    | none => ({ ret with en := ENAMETOOLONG }, self)
  else (ret, self)

/-! ## Store interface -/

/-- The member `get_node_with_info(path)`, called on the root. -/
def get_node_with_info (delimiter : Char) (self : node V) (path : Option (List Char)) :
    find_return_s :=
  let ret := self.fast_find path
  if ret.matched then ret
  else if ret.partial_matched_size > 0 then
    match self.lock ret.ptr with
    | some sp =>
      let frag := sp.fragment
      let size := sp.fragment_length
      if size = ret.partial_matched_size + 1 ∧ frag[size - 1]? = some delimiter then
        -- for a node like "app.logging."
        { ret with matched := true }
      else ret
    | none => ret
  else ret

/-- The member `get(path)`, called on the root. -/
def get (delimiter : Char) (self : node V) (path : Option (List Char)) : V :=
  let ret := self.fast_find path
  if ret.matched then
    match self.lock ret.ptr with
    | some sp => sp.value
    | none => self.value
  else if ret.partial_matched_size > 0 then
    match self.lock ret.ptr with
    | some sp =>
      let frag := sp.fragment
      let size := sp.fragment_length
      if size = ret.partial_matched_size + 1 ∧ frag[size - 1]? = some delimiter then
        -- for a node like "app.logging."
        sp.value
      else self.value
    | none => self.value
  else self.value

/-- The member `get(path, default_val)`, called on the root. -/
def get_or (delimiter : Char) (self : node V) (path : Option (List Char)) (default_val : V) : V :=
  let ret := self.fast_find path
  if ret.matched then
    match self.lock ret.ptr with
    | some sp => sp.value
    | none => default_val
  else if ret.partial_matched_size > 0 then
    match self.lock ret.ptr with
    | some sp =>
      let frag := sp.fragment
      let size := sp.fragment_length
      if size = ret.partial_matched_size + 1 ∧ frag[size - 1]? = some delimiter then
        sp.value
      else default_val
    | none => default_val
  else default_val

/-- The member `has(path, partial_match)`, called on the root. -/
def has (delimiter : Char) (self : node V) (path : Option (List Char))
    (partial_match : Bool) : Bool :=
  let ret := self.fast_find path
  if ret.matched then true
  else if ret.partial_matched_size > 0 then
    match self.lock ret.ptr with
    | some sp =>
      let frag := sp.fragment
      let size := sp.fragment_length
      if size = ret.partial_matched_size + 1 ∧ frag[size - 1]? = some delimiter then true
      else partial_match
    | none => false
  else false

/-! ## Traversal -/

/-- One invocation of a `walk_cb` callback: `cb(type, ptr, index, level)`. -/
structure walk_call where
  type : NodeType
  ptr : node_ptr
  index : Nat
  level : Nat
deriving DecidableEq

mutual
/-- The member `walk_internal(cb, index, level)`, called on the node at
position `self`: the list of the callback invocations it makes, in order. -/
def walk_internal : node V → node_ptr → Nat → Nat → List walk_call
  | mk t _ _ _ cs, self, index, level =>
    (if t ≠ NodeType.NODE_NONE then [⟨t, self, index, level⟩] else [])
      ++ walk_children cs self 0 (level + 1)
/-- The loop `for (auto const &ch : _children) ch->walk_internal(cb, idx++, level + 1)`
from the child of index `idx` on; `level` is the level of the children. -/
def walk_children : List (node V) → node_ptr → Nat → Nat → List walk_call
  | [], _, _, _ => []
  | ch :: rest, self, idx, level =>
    walk_internal ch (self ++ [idx]) idx level ++ walk_children rest self (idx + 1) level
end

/-- The member `walk(cb)`, called on the root: the callback invocations. -/
def walk (self : node V) : List walk_call :=
  self.walk_internal [] 0 0

end node

/-! ## The class `trie_t` -/

/-- The class `trie_t<ValueT, delimiter>`: the owner of the root node.  The
member `_empty` is a null pointer throughout and is not stored. -/
structure trie_t (V : Type) (delimiter : Char) where
  root : node V

namespace trie_t

variable {V : Type} {delimiter : Char}

/-- The constructor `trie_t()`: `ensure_root` creates a default node. -/
def new [ValueT V] : trie_t V delimiter := ⟨node.empty⟩

/-- The member `insert(path, value)`. -/
def insert [ValueT V] (t : trie_t V delimiter) (path : Option (List Char)) (value : V) :
    return_s V × trie_t V delimiter :=
  match t.root.insert path value with
  | (ret, root) => (ret, ⟨root⟩)

/-- The member `set(path, value)`. -/
def set [ValueT V] (t : trie_t V delimiter) (path : Option (List Char)) (value : V) :
    return_s V × trie_t V delimiter :=
  match t.root.set path value with
  | (ret, root) => (ret, ⟨root⟩)

/-- The member `remove(path, include_children)`. -/
def remove [ValueT V] (t : trie_t V delimiter) (path : Option (List Char))
    (include_children : Bool) : return_s V × trie_t V delimiter :=
  match t.root.remove delimiter path include_children with
  | (ret, root) => (ret, ⟨root⟩)

/-- The member `find(path)`. -/
def find (t : trie_t V delimiter) (path : Option (List Char)) : find_return_s :=
  t.root.find path

/-- The member `locate(path)`. -/
def locate (t : trie_t V delimiter) (path : Option (List Char)) : locate_return_s :=
  t.root.locate path

/-- The member `fast_find(path)`. -/
def fast_find (t : trie_t V delimiter) (path : Option (List Char)) : find_return_s :=
  t.root.fast_find path

/-- The member `has(path, partial_match)`. -/
def has (t : trie_t V delimiter) (path : Option (List Char)) (partial_match : Bool) : Bool :=
  t.root.has delimiter path partial_match

/-- The member template `get<T>(path)`: the value `_root->get(path)`. -/
def get (t : trie_t V delimiter) (path : Option (List Char)) : V :=
  t.root.get delimiter path

/-- The member template `get<T>(path, default_val)`. -/
def get_or (t : trie_t V delimiter) (path : Option (List Char)) (default_val : V) : V :=
  t.root.get_or delimiter path default_val

/-- The member `search(path)`. -/
def search (t : trie_t V delimiter) (path : Option (List Char)) : locate_return_s :=
  t.root.search delimiter path

/-- The member `get(path) -> weak_node_ptr`: the node found by `search`, or
the null pointer `_empty`. -/
def get_node (t : trie_t V delimiter) (path : Option (List Char)) : weak_node_ptr :=
  let ret := t.root.search delimiter path
  if ret.matched then ret.ptr else none

/-- The member `walk(cb)`: the callback invocations. -/
def walk (t : trie_t V delimiter) : List node.walk_call :=
  t.root.walk

/-- The member `size()`: the number of callback invocations of `walk` whose
type is NODE_LEAF. -/
def size (t : trie_t V delimiter) : Nat :=
  (t.walk.filter (fun c => decide (c.type = NodeType.NODE_LEAF))).length

end trie_t

/-- A C string literal as a non-null `char const *`. -/
def c_str (s : String) : Option (List Char) := some s.data

/-! ## Auxiliary definitions

The relations `Miss` and `Hit` describe the traversal of `locate_internal` and
`fast_find_internal`; the invariants `paths_ok` and `frags_ok` are the
full-path invariant and the radix compaction invariant of the data model. -/

variable {V : Type}

/-- The value `common_prefix` returns for a fragment and a query, each passed with
its length. -/
def cpl (frag q : List Char) : Nat := common_prefix frag frag.length q q.length

/-- The length of the longest common prefix of two strings. -/
def lcp : List Char → List Char → Nat
  | a :: s, b :: t => if a = b then lcp s t + 1 else 0
  | _, _ => 0

/-- The lookup of `q` below a node leaves the result untouched. -/
inductive Miss : node V → List Char → Prop
  | no_match (t p frag v cs q) : frag ≠ [] → cpl frag q = 0 → Miss (node.mk t p frag v cs) q
  | hollow (t p v cs q) : (∀ c ∈ cs, Miss c q) → Miss (node.mk t p [] v cs) q

/-- The lookup of `q` below a node stops at the relative position `s` with
the given `partial_matched_size` and `matched` flag. -/
inductive Hit : node V → List Char → List Nat → Nat → Bool → Prop
  | exact (t p frag v cs) : frag ≠ [] → Hit (node.mk t p frag v cs) frag [] 0 true
  | stop_short (t p frag v cs q) : 0 < cpl frag q → q.length < frag.length →
      Hit (node.mk t p frag v cs) q [] (cpl frag q) false
  | stop_long (t p frag v cs q) : 0 < cpl frag q → frag.length ≤ q.length →
      (cpl frag q = frag.length → frag.length < q.length) →
      (∀ c ∈ cs, Miss c (q.drop (cpl frag q))) →
      Hit (node.mk t p frag v cs) q [] (cpl frag q) false
  | descend (t p frag v pre c post q s pms m) :
      (frag = [] ∨ (0 < cpl frag q ∧ frag.length ≤ q.length ∧
        (cpl frag q = frag.length → frag.length < q.length))) →
      (∀ x ∈ pre, Miss x (q.drop (cpl frag q))) →
      Hit c (q.drop (cpl frag q)) s pms m →
      Hit (node.mk t p frag v (pre ++ c :: post)) q (pre.length :: s) pms m

/-- The parent pointer recorded for a node found at relative position `s`. -/
def parent_of (self : node_ptr) (parent : weak_node_ptr) (s : List Nat) : weak_node_ptr :=
  if s = [] then parent else some (self ++ s.dropLast)

/-- The result `locate_internal` returns for a hit. -/
def hit_result (self : node_ptr) (parent : weak_node_ptr) (s : List Nat) (pms : Nat) (m : Bool) :
    locate_return_s :=
  { partial_matched_size := pms, ptr := some (self ++ s), en := 0, matched := m,
    parents := some [parent_of self parent s] }

/-- The result `fast_find_internal` leaves in a fresh context for a hit. -/
def hit_ctx (self : node_ptr) (s : List Nat) (pms : Nat) (m : Bool) : find_return_s :=
  { partial_matched_size := pms, ptr := some (self ++ s), en := 0, matched := m }

/-- The node with its child list replaced. -/
def node.with_children (cs : List (node V)) : node V → node V
  | .mk t p f v _ => .mk t p f v cs

/-- The position, after the child of index `i` of the node at position `pp`
has been erased, of the node that was at position `s`. -/
def shift_ptr : List Nat → Nat → List Nat → List Nat
  | [], i, j :: s => if i < j then (j - 1) :: s else j :: s
  | a :: pp, i, j :: s => if a = j then j :: shift_ptr pp i s else j :: s
  | _, _, [] => []

/-- The node with the child of index `i` erased. -/
def node.erase_child (i : Nat) (n : node V) : node V :=
  n.with_children (n.children.eraseIdx i)

/-- The concatenation of the fragments of the nodes passed on the way from a
node (included) to the node at the relative position `s` (excluded). -/
def route_frags : node V → List Nat → List Char
  | _, [] => []
  | .mk _ _ f _ cs, j :: s =>
    f ++ (match cs[j]? with
      | some c => route_frags c s
      | none => [])

mutual
/-- The full-path invariant below a node: its `path` is `pre` followed by its
fragment, and so on for its children with the node's own path as `pre`. -/
def node.paths_ok : List Char → node V → Bool
  | pre, .mk _ p f _ cs => decide (p = pre ++ f) && node.children_paths_ok p cs
/-- The full-path invariant for a list of children of a node of path `p`. -/
def node.children_paths_ok : List Char → List (node V) → Bool
  | _, [] => true
  | p, c :: cs => node.paths_ok p c && node.children_paths_ok p cs
end

mutual
/-- The radix compaction invariant below a node: the fragments of the children
of every node are non-empty and start with pairwise different characters. -/
def node.frags_ok : node V → Bool
  | .mk _ _ _ _ cs =>
    decide ((cs.map (fun c => c.fragment.head?)).Nodup) && node.children_frags_ok cs
/-- The radix compaction invariant for the nodes of a list of children. -/
def node.children_frags_ok : List (node V) → Bool
  | [] => true
  | c :: cs => decide (c.fragment ≠ []) && node.frags_ok c && node.children_frags_ok cs
end

/-- A sequence of `insert` calls on a store, in the order of the list. -/
def trie_t.insert_all {d : Char} [ValueT V] : trie_t V d → List (String × V) → trie_t V d
  | t, [] => t
  | t, (k, v) :: kvs =>
    match t.insert (c_str k) v with
    | (_, t) => trie_t.insert_all t kvs

/-- The sample store of the tests (`build_minimal_trie`), with arbitrary values. -/
def sample_trie [ValueT V] (v1 v2 v3 v4 v5 v6 v7 v8 : V) : trie_t V '.' :=
  trie_t.new.insert_all [("app.debug", v1), ("app.verbose", v2), ("app.dump", v3),
    ("app.logging.file", v4), ("app.server.start", v5), ("app.logging.rotate", v6),
    ("app.logging.words", v7), ("app.server.sites", v8)]

/-- The tree of the sample store, as the source documents it for `trie_t`. -/
def sample_tree [ValueT V] (v1 v2 v3 v4 v5 v6 v7 v8 : V) : node V :=
  node.mk NodeType.NODE_BRANCH [] [] default [
    node.mk NodeType.NODE_BRANCH "app.".data "app.".data default [
      node.mk NodeType.NODE_BRANCH "app.d".data "d".data default [
        node.mk NodeType.NODE_LEAF "app.debug".data "ebug".data v1 [],
        node.mk NodeType.NODE_LEAF "app.dump".data "ump".data v3 []],
      node.mk NodeType.NODE_LEAF "app.verbose".data "verbose".data v2 [],
      node.mk NodeType.NODE_BRANCH "app.logging.".data "logging.".data default [
        node.mk NodeType.NODE_LEAF "app.logging.file".data "file".data v4 [],
        node.mk NodeType.NODE_LEAF "app.logging.rotate".data "rotate".data v6 [],
        node.mk NodeType.NODE_LEAF "app.logging.words".data "words".data v7 []],
      node.mk NodeType.NODE_BRANCH "app.server.s".data "server.s".data default [
        node.mk NodeType.NODE_LEAF "app.server.start".data "tart".data v5 [],
        node.mk NodeType.NODE_LEAF "app.server.sites".data "ites".data v8 []]]]

/-- The tree of the sample store after `remove("app.logging")`. -/
def sample_tree_removed [ValueT V] (v1 v2 v3 v5 v8 : V) : node V :=
  node.mk NodeType.NODE_BRANCH [] [] default [
    node.mk NodeType.NODE_BRANCH "app.".data "app.".data default [
      node.mk NodeType.NODE_BRANCH "app.d".data "d".data default [
        node.mk NodeType.NODE_LEAF "app.debug".data "ebug".data v1 [],
        node.mk NodeType.NODE_LEAF "app.dump".data "ump".data v3 []],
      node.mk NodeType.NODE_LEAF "app.verbose".data "verbose".data v2 [],
      node.mk NodeType.NODE_BRANCH "app.server.s".data "server.s".data default [
        node.mk NodeType.NODE_LEAF "app.server.start".data "tart".data v5 [],
        node.mk NodeType.NODE_LEAF "app.server.sites".data "ites".data v8 []]]]

/-- The sample store with the values 1 to 8. -/
def sample_nat : trie_t Nat '.' := sample_trie 1 2 3 4 5 6 7 8

/-- The node of fragment `logging.` of the sample store with the values 1 to 8. -/
def sample_logging : node Nat :=
  node.mk NodeType.NODE_BRANCH "app.logging.".data "logging.".data 0 [
    node.mk NodeType.NODE_LEAF "app.logging.file".data "file".data 4 [],
    node.mk NodeType.NODE_LEAF "app.logging.rotate".data "rotate".data 6 [],
    node.mk NodeType.NODE_LEAF "app.logging.words".data "words".data 7 []]

/-- The sample store with the values 1 to 8 after `remove("app.logging.words")`. -/
def sample_removed : trie_t Nat '.' := (sample_nat.remove (c_str "app.logging.words") true).2

/-- The node of fragment `logging.` of `sample_removed`. -/
def sample_removed_logging : node Nat :=
  node.mk NodeType.NODE_BRANCH "app.logging.".data "logging.".data 0 [
    node.mk NodeType.NODE_LEAF "app.logging.file".data "file".data 4 [],
    node.mk NodeType.NODE_LEAF "app.logging.rotate".data "rotate".data 6 []]

/-- The store holding the two keys `app.logging.file` and `app.logging.rotate`. -/
def logging_store : trie_t Nat '.' :=
  trie_t.new.insert_all [("app.logging.file", 1), ("app.logging.rotate", 2)]

/-- The store holding the two keys `ab.x` and `ab.y`. -/
def abxy_store : trie_t Nat '.' :=
  trie_t.new.insert_all [("ab.x", 1), ("ab.y", 2)]

/-- The store holding the key `abc`. -/
def abc_store : trie_t Nat '.' :=
  trie_t.new.insert_all [("abc", 3)]

/-- The empty store. -/
def empty_store : trie_t Nat '.' := trie_t.new

/-- The store with delimiter `/` holding the keys `app/home/ops` and
`app/home/admin`, as in the tests. -/
def slash_store : trie_t Nat '/' :=
  trie_t.new.insert_all [("app/home/ops", 1), ("app/home/admin", 0)]

/-- The node of fragment `app/home/` of `slash_store`. -/
def slash_home : node Nat :=
  node.mk NodeType.NODE_BRANCH "app/home/".data "app/home/".data 0 [
    node.mk NodeType.NODE_LEAF "app/home/ops".data "ops".data 1 [],
    node.mk NodeType.NODE_LEAF "app/home/admin".data "admin".data 0 []]

/-- The tries the operations produce: the empty trie `trie_t()` and what
`insert` and `remove` make of such a trie. -/
inductive reachable [ValueT V] {d : Char} : trie_t V d → Prop
  | new : reachable trie_t.new
  | insert (t : trie_t V d) (path : Option (List Char)) (v : V) :
      reachable t → reachable (t.insert path v).2
  | remove (t : trie_t V d) (path : Option (List Char)) (ic : Bool) :
      reachable t → reachable (t.remove path ic).2

/-- The trie holding `herz` and `hers`, inserted in this order. -/
def herz_trie [ValueT V] {d : Char} (v1 v2 : V) : trie_t V d :=
  trie_t.new.insert_all [("herz", v1), ("hers", v2)]

/-- The tree the split of `herz` by `hers` is expected to give. -/
def herz_tree [ValueT V] (v1 v2 : V) : node V :=
  node.mk NodeType.NODE_BRANCH [] [] default [
    node.mk NodeType.NODE_BRANCH "her".data "her".data default [
      node.mk NodeType.NODE_LEAF "herz".data "z".data v1 [],
      node.mk NodeType.NODE_LEAF "hers".data "s".data v2 []]]

/-- The store holding the key `herz` with the value 1. -/
def herz_store : trie_t Nat '.' := trie_t.new.insert_all [("herz", 1)]

mutual
/-- The number of nodes of the tree below a node, the node itself included,
whose kind is NODE_LEAF. -/
def node.count_leaves : node V → Nat
  | .mk t _ _ _ cs => (if t = NodeType.NODE_LEAF then 1 else 0) + node.children_count_leaves cs
/-- The number of nodes of kind NODE_LEAF in the trees below a list of children. -/
def node.children_count_leaves : List (node V) → Nat
  | [] => 0
  | c :: cs => node.count_leaves c + node.children_count_leaves cs
end

/-- The condition under which `insert(k, v)` keeps the invariants of the data
model: `k` is not empty and its lookup is matched, or finds no node, or stops
unmatched at a node `N` such that the part of the full path of `N` that the
lookup matched is a proper prefix of `k` and `N` has no children when the
lookup stopped inside its fragment. -/
def trie_t.insert_clean {d : Char} (t : trie_t V d) (k : List Char) : Bool :=
  decide (k ≠ []) &&
    ((t.fast_find (some k)).matched ||
      match t.root.lock (t.fast_find (some k)).ptr with
      | none => true
      | some N =>
        decide (substr_head N.path (N.fragment.length - (t.fast_find (some k)).partial_matched_size)
            <+: k) &&
          decide ((substr_head N.path
            (N.fragment.length - (t.fast_find (some k)).partial_matched_size)).length
              < k.length) &&
          (decide (N.fragment.length ≤ (t.fast_find (some k)).partial_matched_size) ||
            decide (N.children_count = 0)))

/-- The tries made from the empty trie by inserts that satisfy `insert_clean`. -/
inductive clean_built [ValueT V] {d : Char} : trie_t V d → Prop
  | new : clean_built trie_t.new
  | insert (t : trie_t V d) (k : List Char) (v : V) :
      clean_built t → t.insert_clean k = true → clean_built (t.insert (some k) v).2

/-- Every insert of a sequence satisfies `insert_clean` when it is made. -/
def trie_t.insert_all_clean {d : Char} [ValueT V] : trie_t V d → List (String × V) → Bool
  | _, [] => true
  | t, (k, v) :: kvs =>
    t.insert_clean k.data && trie_t.insert_all_clean (t.insert (c_str k) v).2 kvs

/-- The store made by the inserts of `abb`, `abc` and `aq`, in this order. -/
def abq_store : trie_t Nat '.' :=
  trie_t.new.insert_all [("abb", 1), ("abc", 2), ("aq", 3)]

/-- The leaf node of fragment `abc`, as the insert of `abc` into an empty trie makes it. -/
def abc_leaf : node Nat := node.mk NodeType.NODE_LEAF "abc".data "abc".data 3 []

/-- One line written by `dump_r`: the level that sets the indentation, the
fragment, the kind shown as `[B]`, `[L]` or `[ ]`, and for a leaf the full path
and the value written after it.  The padding (`std::setw`) is not modelled. -/
structure dump_line (V : Type) where
  level : Nat
  fragment : List Char
  type : NodeType
  leaf : Option (List Char × V)

mutual
/-- The member `dump_r(os, ss, level)`: the lines it writes to `ss`, in order.  A
node writes a line when its fragment is not empty, then its children are dumped
at `level + 1`. -/
def node.dump_r : node V → Nat → List (dump_line V)
  | .mk t p f v cs, level =>
    (if f.length > 0 then
      [⟨level, f, t, if t = NodeType.NODE_LEAF then some (p, v) else none⟩]
    else []) ++ node.dump_children cs (level + 1)
/-- The loop `for (auto const &ch : _children) ch->dump_r(os, ss, level + 1)`;
`level` is the level of the children. -/
def node.dump_children : List (node V) → Nat → List (dump_line V)
  | [], _ => []
  | ch :: rest, level => node.dump_r ch level ++ node.dump_children rest level
end

/-- The lines written by `trie_t::dump` after the line `<root>`. -/
def trie_t.dump {d : Char} (t : trie_t V d) : List (dump_line V) :=
  t.root.dump_r 0

/-- The store holding the two keys `abb` and `abc`. -/
def abbc_store : trie_t Nat '.' :=
  trie_t.new.insert_all [("abb", 1), ("abc", 2)]

mutual
/-- The full paths of the nodes of the tree below a node, the node included, in
pre-order. -/
def node.all_paths : node V → List (List Char)
  | .mk _ p _ _ cs => p :: node.children_all_paths cs
/-- The full paths of the nodes of the trees below a list of children. -/
def node.children_all_paths : List (node V) → List (List Char)
  | [] => []
  | c :: cs => node.all_paths c ++ node.children_all_paths cs
end

/-- What `insert` must leave alone when it overwrites a value: the kind, the
full path, the fragment and the number of children of a node. -/
def node.label (n : node V) : NodeType × List Char × List Char × Nat :=
  (n.type, n.path, n.fragment, n.children_count)

/-- The tries made from the empty trie by inserts alone. -/
inductive built [ValueT V] {d : Char} : trie_t V d → Prop
  | new : built trie_t.new
  | insert (t : trie_t V d) (path : Option (List Char)) (v : V) :
      built t → built (t.insert path v).2

/-- The kind of a node other than the root is in order: it is not NODE_NONE,
and, when `strict` is set, a node of kind NODE_BRANCH has at least one child. -/
def node.kind_ok (strict : Bool) (c : node V) : Bool :=
  decide (c.type ≠ NodeType.NODE_NONE) &&
    (!strict || decide (c.type = NodeType.NODE_BRANCH → c.children_count ≠ 0))

mutual
/-- The kinds of all nodes below a node (the node itself excluded) are in order. -/
def node.kinds_ok (strict : Bool) : node V → Bool
  | .mk _ _ _ _ cs => node.children_kinds_ok strict cs
/-- The kinds of the nodes of a list of children and of all nodes below them are
in order. -/
def node.children_kinds_ok (strict : Bool) : List (node V) → Bool
  | [] => true
  | c :: cs =>
    node.kind_ok strict c && node.kinds_ok strict c && node.children_kinds_ok strict cs
end

/-- The store holding the keys `ab` and `abc`, inserted in this order. -/
def ab_abc_store : trie_t Nat '.' :=
  trie_t.new.insert_all [("ab", 1), ("abc", 2)]

/-- The store made by the inserts of `a.b` and `a.c` followed by the removal of
both keys. -/
def emptied_store : trie_t Nat '.' :=
  (((trie_t.new : trie_t Nat '.').insert_all [("a.b", 1), ("a.c", 2)]).remove
    (c_str "a.b") true).2.remove (c_str "a.c") true |>.2

/-- The store made by the inserts of `ab.xyz` and `ab.w`, in this order. -/
def abxyz_store : trie_t Nat '.' :=
  trie_t.new.insert_all [("ab.xyz", 1), ("ab.w", 2)]

/-- The fields of a node without its children. -/
def node.fields (n : node V) : NodeType × List Char × List Char × V :=
  (n.type, n.path, n.fragment, n.value)

/-- The offset that `insert` adds to `path` to make the fragment of the new leaf
(`path + sp->path().length()`), when the lookup is not matched and stopped at a
node `sp`: the length of the full path of `sp`, after the split shortened it
when the lookup stopped inside the fragment.  The result is `none` when `insert`
computes no offset.  The pointer arithmetic of the source is defined only when
the offset does not exceed the length of `path`. -/
def node.insert_offset (self : node V) (path : List Char) : Option Nat :=
  match self.fast_find_internal [] {} path path.length with
  | (true, _) => none
  | (false, fr) =>
    if fr.partial_matched_size > 0 then
      match self.lock fr.ptr with
      | some sp =>
        let minus := sp.fragment_length - fr.partial_matched_size
        if minus = 0 then some sp.path.length
        else some (substr_head sp.path minus).length
      | none => none
    else none

/-- Whether the offset that `insert` adds to `path` stays within `path`, so that
`path + sp->path().length()` is defined. -/
def node.insert_in_range (self : node V) (path : List Char) : Bool :=
  match self.insert_offset path with
  | some n => decide (n ≤ path.length)
  | none => true

/-! ## Lemmas -/

theorem loop_eq_lcp (a b : List Char) (n : Nat) (h : min a.length b.length ≤ n) :
    common_prefix_loop a b n = lcp a b := by
  induction a generalizing b n with
  | nil => cases b <;> cases n <;> simp [common_prefix_loop, lcp]
  | cons x a ih =>
    cases b with
    | nil => cases n <;> simp [common_prefix_loop, lcp]
    | cons y b =>
      cases n with
      | zero => simp at h
      | succ n =>
        simp only [common_prefix_loop, lcp]
        split
        · rw [ih b n (by simp at h ⊢; omega)]
        · rfl

theorem cpl_eq_lcp (a b : List Char) : cpl a b = lcp a b := by
  unfold cpl common_prefix
  apply loop_eq_lcp
  split <;> omega

theorem lcp_le_left (a b : List Char) : lcp a b ≤ a.length := by
  induction a generalizing b with
  | nil => simp [lcp]
  | cons x a ih =>
    cases b with
    | nil => simp [lcp]
    | cons y b => simp only [lcp]; split <;> simp [ih b]

theorem lcp_le_right (a b : List Char) : lcp a b ≤ b.length := by
  induction a generalizing b with
  | nil => simp [lcp]
  | cons x a ih =>
    cases b with
    | nil => simp [lcp]
    | cons y b => simp only [lcp]; split <;> simp [ih b]

theorem lcp_take (a b : List Char) : a.take (lcp a b) = b.take (lcp a b) := by
  induction a generalizing b with
  | nil => simp [lcp]
  | cons x a ih =>
    cases b with
    | nil => simp [lcp]
    | cons y b =>
      simp only [lcp]; split
      · rename_i h; subst h; simp [ih b]
      · simp

theorem lcp_self (a : List Char) : lcp a a = a.length := by
  induction a with
  | nil => simp [lcp]
  | cons x a ih => simp [lcp, ih]

theorem lcp_append_right (a b : List Char) : lcp a (a ++ b) = a.length := by
  induction a with
  | nil => simp [lcp]
  | cons x a ih => simp [lcp, ih]

theorem lcp_nil_left (b : List Char) : lcp [] b = 0 := by simp [lcp]

theorem lcp_eq_length_left (a b : List Char) (h : lcp a b = a.length) :
    b = a ++ b.drop a.length := by
  have := lcp_take a b
  rw [h] at this
  simp at this
  conv_lhs => rw [← List.take_append_drop a.length b]
  rw [← this]

theorem lcp_get_ne (a b : List Char) (h1 : lcp a b < a.length) (h2 : lcp a b < b.length) :
    a[lcp a b]? ≠ b[lcp a b]? := by
  induction a generalizing b with
  | nil => simp at h1
  | cons x a ih =>
    cases b with
    | nil => simp at h2
    | cons y b =>
      simp only [lcp] at h1 h2 ⊢
      split
      · rename_i h
        rw [if_pos h] at h1 h2
        simp at h1 h2
        simpa using ih b h1 h2
      · rename_i h; simpa using h

theorem lcp_pos_iff (a b : List Char) :
    0 < lcp a b ↔ ∃ x a1 b1, a = x :: a1 ∧ b = x :: b1 := by
  cases a with
  | nil => simp [lcp]
  | cons x a =>
    cases b with
    | nil => simp [lcp]
    | cons y b =>
      simp only [lcp]
      constructor
      · intro h
        split at h
        · rename_i e; subst e; exact ⟨x, a, b, rfl, rfl⟩
        · simp at h
      · rintro ⟨z, a1, b1, h1, h2⟩
        simp at h1 h2
        rw [if_pos (by rw [h1.1, h2.1])]
        simp

theorem lcp_eq_zero_of_head_ne (x y : Char) (a b : List Char) (h : x ≠ y) :
    lcp (x :: a) (y :: b) = 0 := by simp [lcp, h]

theorem cpl_nil_left (q : List Char) : cpl [] q = 0 := by rw [cpl_eq_lcp]; simp [lcp]

theorem cpl_le_left (a b : List Char) : cpl a b ≤ a.length := by
  rw [cpl_eq_lcp]; exact lcp_le_left a b

theorem cpl_le_right (a b : List Char) : cpl a b ≤ b.length := by
  rw [cpl_eq_lcp]; exact lcp_le_right a b

theorem cpl_self (a : List Char) : cpl a a = a.length := by
  rw [cpl_eq_lcp]; exact lcp_self a

theorem eq_of_cpl_eq_length (a b : List Char) (h : cpl a b = a.length) (h2 : b.length = a.length) :
    b = a := by
  rw [cpl_eq_lcp] at h
  have := lcp_eq_length_left a b h
  rw [this]
  have : b.drop a.length = [] := by simp [h2]
  simp [this]

mutual
theorem total_node : ∀ (n : node V) (q : List Char), Miss n q ∨ ∃ s pms m, Hit n q s pms m
  | node.mk t p frag v cs, q => by
    by_cases hf : frag = []
    · subst hf
      rcases total_children cs q with h | ⟨pre, c, post, s, pms, m, e, hp, hh⟩
      · exact Or.inl (Miss.hollow t p v cs q h)
      · right
        subst e
        refine ⟨pre.length :: s, pms, m, Hit.descend t p [] v pre c post q s pms m (Or.inl rfl) ?_ ?_⟩
        · simpa [cpl_nil_left] using hp
        · simpa [cpl_nil_left] using hh
    · by_cases h0 : cpl frag q = 0
      · exact Or.inl (Miss.no_match t p frag v cs q hf h0)
      · right
        have hpos : 0 < cpl frag q := Nat.pos_of_ne_zero h0
        by_cases hs : q.length < frag.length
        · exact ⟨[], _, false, Hit.stop_short t p frag v cs q hpos hs⟩
        · have hle : frag.length ≤ q.length := Nat.le_of_not_lt hs
          by_cases he : cpl frag q = frag.length ∧ q.length = frag.length
          · have := eq_of_cpl_eq_length frag q he.1 he.2
            subst this
            exact ⟨[], 0, true, Hit.exact t p q v cs hf⟩
          · have hc : cpl frag q = frag.length → frag.length < q.length := by
              intro h; by_contra hn; exact he ⟨h, by omega⟩
            rcases total_children cs (q.drop (cpl frag q)) with
              h | ⟨pre, c, post, s, pms, m, e, hp, hh⟩
            · exact ⟨[], _, false, Hit.stop_long t p frag v cs q hpos hle hc h⟩
            · subst e
              exact ⟨pre.length :: s, pms, m,
                Hit.descend t p frag v pre c post q s pms m (Or.inr ⟨hpos, hle, hc⟩) hp hh⟩
theorem total_children : ∀ (cs : List (node V)) (q : List Char),
    (∀ c ∈ cs, Miss c q) ∨ ∃ pre c post s pms m, cs = pre ++ c :: post ∧
      (∀ x ∈ pre, Miss x q) ∧ Hit c q s pms m
  | [], q => Or.inl (by simp)
  | c :: cs, q => by
    rcases total_node c q with h | ⟨s, pms, m, h⟩
    · rcases total_children cs q with h2 | ⟨pre, c2, post, s, pms, m, e, hp, hh⟩
      · left; intro x hx; simp at hx; rcases hx with rfl | hx; exact h; exact h2 x hx
      · right; refine ⟨c :: pre, c2, post, s, pms, m, by simp [e], ?_, hh⟩
        intro x hx; simp at hx; rcases hx with rfl | hx; exact h; exact hp x hx
    · right; exact ⟨[], c, cs, s, pms, m, rfl, by simp, h⟩
end

theorem hit_touched {n : node V} {q s pms m} (h : Hit n q s pms m) :
    (m = true ∧ pms = 0) ∨ (m = false ∧ 0 < pms) := by
  induction h with
  | exact => simp
  | stop_short _ _ _ _ _ _ h => exact Or.inr ⟨rfl, h⟩
  | stop_long _ _ _ _ _ _ h => exact Or.inr ⟨rfl, h⟩
  | descend _ _ _ _ _ _ _ _ _ _ _ _ _ _ ih => exact ih

/-- The loop of `locate_internal` over children that all miss runs to its end. -/
theorem locate_children_miss (cs : List (node V)) (q : List Char)
    (h : ∀ c ∈ cs, ∀ self parent, node.locate_internal c self (some q) parent = {})
    (self : node_ptr) (idx : Nat) (wp : weak_node_ptr) (pv : List weak_node_ptr) :
    node.locate_children cs self idx q wp pv = none := by
  induction cs generalizing idx with
  | nil => simp [node.locate_children]
  | cons c cs ih =>
    simp only [node.locate_children]
    rw [h c (by simp)]
    simp
    exact ih (fun x hx => h x (by simp [hx])) _

theorem miss_locate {n : node V} {q} (h : Miss n q) :
    ∀ self parent, node.locate_internal n self (some q) parent = {} := by
  induction h with
  | no_match t p frag v cs q hf h0 =>
    intro self parent
    have : frag.length ≠ 0 := by simpa using hf
    unfold cpl at h0
    simp [node.locate_internal, this, h0]
  | hollow t p v cs q _ ih =>
    intro self parent
    simp [node.locate_internal, locate_children_miss cs q ih]

/-- The loop of `locate_internal` returns the result of the first child that
does not miss. -/
theorem locate_children_hit (pre : List (node V)) (c : node V) (post : List (node V))
    (q : List Char) (hp : ∀ x ∈ pre, Miss x q)
    (self : node_ptr) (idx : Nat) (wp : weak_node_ptr) (pv : List weak_node_ptr)
    (r : locate_return_s)
    (hr : node.locate_internal c (self ++ [idx + pre.length]) (some q) wp = r)
    (ht : r.matched = true ∨ 0 < r.partial_matched_size) (hpar : r.parents.isNone = false) :
    node.locate_children (pre ++ c :: post) self idx q wp pv = some r := by
  induction pre generalizing idx with
  | nil =>
    simp only [List.nil_append, node.locate_children]
    simp at hr
    rw [hr]
    have : (r.matched || decide (r.partial_matched_size > 0)) = true := by
      rcases ht with h | h <;> simp [h]
    simp [this, hpar]
  | cons x pre ih =>
    simp only [List.cons_append, node.locate_children]
    rw [miss_locate (hp x (by simp))]
    simp
    apply ih (fun y hy => hp y (by simp [hy]))
    rw [← hr]
    congr 2
    simp; omega

theorem parent_of_cons (self : node_ptr) (parent : weak_node_ptr) (j : Nat) (s : List Nat) :
    parent_of (self ++ [j]) (some self) s = parent_of self parent (j :: s) := by
  unfold parent_of
  cases s with
  | nil => simp
  | cons a s => simp [List.dropLast]

theorem hit_locate {n : node V} {q s pms m} (h : Hit n q s pms m) :
    ∀ self parent, node.locate_internal n self (some q) parent = hit_result self parent s pms m := by
  induction h with
  | exact t p frag v cs hf =>
    intro self parent
    have : frag.length ≠ 0 := by simpa using hf
    have h0 : common_prefix frag frag.length frag frag.length = frag.length := cpl_self frag
    simp [node.locate_internal, this, h0, hit_result, parent_of]
  | stop_short t p frag v cs q hpos hlt =>
    intro self parent
    have hf : frag.length ≠ 0 := by omega
    have hle := cpl_le_right frag q
    unfold cpl at hpos hle
    have h1 : common_prefix frag frag.length q q.length ≠ 0 := by omega
    have h2 : common_prefix frag frag.length q q.length ≠ frag.length := by omega
    have h3 : common_prefix frag frag.length q q.length < frag.length := by omega
    simp [node.locate_internal, hf, h1, h2, h3, hlt, hit_result, parent_of, cpl]
  | stop_long t p frag v cs q hpos hle hc hmiss =>
    intro self parent
    have hcl := cpl_le_left frag q
    have hf : frag.length ≠ 0 := by omega
    have hl := locate_children_miss cs _ (fun c hc => miss_locate (hmiss c hc))
    unfold cpl at hpos hcl hc hl
    have h1 : common_prefix frag frag.length q q.length ≠ 0 := by omega
    simp only [node.locate_internal, hf, h1, if_false]
    by_cases he : common_prefix frag frag.length q q.length = frag.length
    · have := hc he
      have h4 : q.length ≠ frag.length := by omega
      rw [he] at hl
      simp [he, h4, this, hl, hit_result, parent_of, cpl]
    · have h3 : common_prefix frag frag.length q q.length < frag.length := by omega
      have h4 : ¬ q.length < frag.length := by omega
      simp [he, h3, h4, hl, hit_result, parent_of, cpl]
  | descend t p frag v pre c post q s pms m hd hp hh ih =>
    intro self parent
    have key : ∀ pv, node.locate_children (pre ++ c :: post) self 0 (q.drop (cpl frag q))
        (some self) pv = some (hit_result self parent (pre.length :: s) pms m) := by
      intro pv
      apply locate_children_hit pre c post _ hp self 0 (some self) pv
      · rw [ih (self ++ [0 + pre.length]) (some self)]
        simp [hit_result, parent_of_cons self parent]
      · rcases (hit_touched hh) with h | h <;> simp [hit_result, h]
      · simp [hit_result]
    rcases hd with hf | ⟨hpos, hle, hc⟩
    · subst hf
      have := key [some self]
      simp only [cpl_nil_left, List.drop_zero] at this
      simp [node.locate_internal, this]
    · have hcl := cpl_le_left frag q
      have hf : frag.length ≠ 0 := by omega
      unfold cpl at hpos hcl hc key
      have h1 : common_prefix frag frag.length q q.length ≠ 0 := by omega
      simp only [node.locate_internal, hf, h1, if_false]
      by_cases he : common_prefix frag frag.length q q.length = frag.length
      · have := hc he
        have h4 : q.length ≠ frag.length := by omega
        have k := key [parent, some self]
        rw [he] at k
        simp [he, h4, this, k]
      · have h3 : common_prefix frag frag.length q q.length < frag.length := by omega
        have h4 : ¬ q.length < frag.length := by omega
        simp [he, h3, h4, key]

theorem locate_spec (n : node V) (q : List Char) (self : node_ptr) (parent : weak_node_ptr) :
    (Miss n q ∧ node.locate_internal n self (some q) parent = {}) ∨
    (∃ s pms m, Hit n q s pms m ∧
      node.locate_internal n self (some q) parent = hit_result self parent s pms m) := by
  rcases total_node n q with h | ⟨s, pms, m, h⟩
  · exact Or.inl ⟨h, miss_locate h self parent⟩
  · exact Or.inr ⟨s, pms, m, h, hit_locate h self parent⟩

theorem fast_find_children_miss (cs : List (node V)) (q : List Char)
    (h : ∀ c ∈ cs, ∀ self, node.fast_find_internal c self {} q q.length = (false, {}))
    (self : node_ptr) (idx : Nat) :
    node.fast_find_children cs self idx {} q q.length = (none, {}) := by
  induction cs generalizing idx with
  | nil => simp [node.fast_find_children]
  | cons c cs ih =>
    simp only [node.fast_find_children]
    rw [h c (by simp)]
    simp
    exact ih (fun x hx => h x (by simp [hx])) _

theorem miss_fast_find {n : node V} {q} (h : Miss n q) :
    ∀ self, node.fast_find_internal n self {} q q.length = (false, {}) := by
  induction h with
  | no_match t p frag v cs q hf h0 =>
    intro self
    have : frag.length ≠ 0 := by simpa using hf
    unfold cpl at h0
    simp [node.fast_find_internal, this, h0]
  | hollow t p v cs q _ ih =>
    intro self
    simp [node.fast_find_internal, fast_find_children_miss cs q ih]

theorem fast_find_children_hit (pre : List (node V)) (c : node V) (post : List (node V))
    (q : List Char) (hp : ∀ x ∈ pre, Miss x q)
    (self : node_ptr) (idx : Nat) (b : Bool) (ctx : find_return_s)
    (hr : node.fast_find_internal c (self ++ [idx + pre.length]) {} q q.length = (b, ctx))
    (ht : b = true ∨ 0 < ctx.partial_matched_size) :
    node.fast_find_children (pre ++ c :: post) self idx {} q q.length = (some b, ctx) := by
  induction pre generalizing idx with
  | nil =>
    simp only [List.nil_append, node.fast_find_children]
    simp at hr
    rw [hr]
    have : (b || decide (ctx.partial_matched_size > 0)) = true := by
      rcases ht with h | h <;> simp [h]
    simp [this]
  | cons x pre ih =>
    simp only [List.cons_append, node.fast_find_children]
    rw [miss_fast_find (hp x (by simp))]
    simp
    apply ih (fun y hy => hp y (by simp [hy]))
    rw [← hr]
    congr 2
    simp; omega

theorem hit_fast_find {n : node V} {q s pms m} (h : Hit n q s pms m) :
    ∀ self, node.fast_find_internal n self {} q q.length = (m, hit_ctx self s pms m) := by
  induction h with
  | exact t p frag v cs hf =>
    intro self
    have : frag.length ≠ 0 := by simpa using hf
    have h0 : common_prefix frag frag.length frag frag.length = frag.length := cpl_self frag
    simp [node.fast_find_internal, this, h0, hit_ctx]
  | stop_short t p frag v cs q hpos hlt =>
    intro self
    have hf : frag.length ≠ 0 := by omega
    have hle := cpl_le_right frag q
    unfold cpl at hpos hle
    have h1 : common_prefix frag frag.length q q.length ≠ 0 := by omega
    have h2 : frag.length ≠ common_prefix frag frag.length q q.length := by omega
    have h3 : common_prefix frag frag.length q q.length < frag.length := by omega
    simp [node.fast_find_internal, hf, h1, h2, h3, hlt, hit_ctx, cpl]
  | stop_long t p frag v cs q hpos hle hc hmiss =>
    intro self
    have hcl := cpl_le_left frag q
    have hf : frag.length ≠ 0 := by omega
    have hl := fast_find_children_miss cs _ (fun c hc => miss_fast_find (hmiss c hc)) self 0
    rw [List.length_drop] at hl
    unfold cpl at hpos hcl hc hl
    have h1 : common_prefix frag frag.length q q.length ≠ 0 := by omega
    simp only [node.fast_find_internal, hf, h1, if_false]
    by_cases he : common_prefix frag frag.length q q.length = frag.length
    · have := hc he
      have h4 : frag.length ≠ q.length := by omega
      rw [he] at hl
      simp [he, h4, this, hl, hit_ctx, cpl]
    · have h3 : common_prefix frag frag.length q q.length < frag.length := by omega
      have h4 : ¬ q.length < frag.length := by omega
      have h5 : frag.length ≠ common_prefix frag frag.length q q.length := fun h => he h.symm
      simp [h5, h3, h4, hl, hit_ctx, cpl]
  | descend t p frag v pre c post q s pms m hd hp hh ih =>
    intro self
    have key : node.fast_find_children (pre ++ c :: post) self 0 {} (q.drop (cpl frag q))
        (q.length - cpl frag q) = (some m, hit_ctx self (pre.length :: s) pms m) := by
      rw [← List.length_drop]
      apply fast_find_children_hit pre c post _ hp self 0
      · rw [ih (self ++ [0 + pre.length])]
        simp [hit_ctx]
      · rcases (hit_touched hh) with h | h <;> simp [hit_ctx, h]
    rcases hd with hf | ⟨hpos, hle, hc⟩
    · subst hf
      simp only [cpl_nil_left, List.drop_zero, Nat.sub_zero] at key
      have hne : 0 < (pre ++ c :: post).length := by simp
      simp [node.fast_find_internal, key, hne]
    · have hcl := cpl_le_left frag q
      have hf : frag.length ≠ 0 := by omega
      unfold cpl at hpos hcl hc key
      have h1 : common_prefix frag frag.length q q.length ≠ 0 := by omega
      simp only [node.fast_find_internal, hf, h1, if_false]
      by_cases he : common_prefix frag frag.length q q.length = frag.length
      · have := hc he
        have h4 : frag.length ≠ q.length := by omega
        rw [he] at key
        simp [he, h4, this, key]
      · have h3 : common_prefix frag frag.length q q.length < frag.length := by omega
        have h4 : ¬ q.length < frag.length := by omega
        have h5 : frag.length ≠ common_prefix frag frag.length q q.length := fun h => he h.symm
        simp [h5, h3, h4, key]

/-- The functions `fast_find_internal`, on a fresh context, and `locate_internal`
are the same traversal. -/
theorem fast_find_internal_eq_locate (n : node V) (q : List Char) (self : node_ptr)
    (parent : weak_node_ptr) :
    node.fast_find_internal n self {} q q.length =
      ((node.locate_internal n self (some q) parent).matched,
        (node.locate_internal n self (some q) parent).tofind_return_s) := by
  rcases total_node n q with h | ⟨s, pms, m, h⟩
  · rw [miss_fast_find h, miss_locate h]
  · rw [hit_fast_find h, hit_locate h]; rfl

theorem fast_find_eq_find (n : node V) (q : Option (List Char)) :
    n.fast_find q = n.find q := by
  cases q with
  | none => cases n; simp [node.fast_find, node.find, node.locate, node.locate_internal]
  | some q =>
    simp [node.fast_find, node.find, node.locate, fast_find_internal_eq_locate n q [] none]

theorem hit_get_at {n : node V} {q s pms m} (h : Hit n q s pms m) :
    ∃ N, n.get_at s = some N ∧ N.fragment ≠ [] ∧ pms ≤ N.fragment.length := by
  induction h with
  | exact t p frag v cs hf => exact ⟨_, rfl, hf, by simp⟩
  | stop_short t p frag v cs q hpos hlt =>
    refine ⟨_, rfl, ?_, cpl_le_left frag q⟩
    intro h; simp [node.fragment] at h; subst h; simp at hlt
  | stop_long t p frag v cs q hpos hle hc hmiss =>
    refine ⟨_, rfl, ?_, cpl_le_left frag q⟩
    intro h; simp [node.fragment] at h; subst h; simp [cpl_nil_left] at hpos
  | descend t p frag v pre c post q s pms m hd hp hh ih =>
    obtain ⟨N, h1, h2, h3⟩ := ih
    have e : (pre ++ c :: post)[pre.length]? = some c := by
      rw [List.getElem?_append_right (Nat.le_refl _)]; simp
    exact ⟨N, by simp only [node.get_at, e, h1], h2, h3⟩

theorem get_at_append (n : node V) (p q : List Nat) :
    n.get_at (p ++ q) = (n.get_at p).bind (fun c => c.get_at q) := by
  induction p generalizing n with
  | nil => simp [node.get_at]
  | cons i p ih =>
    cases n with
    | mk t pa fr v cs =>
      simp only [List.cons_append, node.get_at]
      cases cs[i]? with
      | none => simp
      | some c => simp [ih c]

theorem modify_at_append (f : node V → node V) (p q : List Nat) (n : node V) :
    node.modify_at f (p ++ q) n = node.modify_at (node.modify_at f q) p n := by
  induction p generalizing n with
  | nil => simp [node.modify_at]
  | cons i p ih =>
    cases n with
    | mk t pa fr v cs =>
      simp only [List.cons_append, node.modify_at]
      congr 1
      congr 1
      funext c
      exact ih c

theorem list_modify_modify {α : Type} (f g : α → α) (i : Nat) (l : List α) :
    List.modify g i (List.modify f i l) = List.modify (g ∘ f) i l := by
  induction l generalizing i with
  | nil => simp
  | cons a l ih =>
    cases i with
    | zero => simp
    | succ i => simp [ih]

theorem modify_at_modify_at (f g : node V → node V) (p : List Nat) (n : node V) :
    node.modify_at g p (node.modify_at f p n) = node.modify_at (g ∘ f) p n := by
  induction p generalizing n with
  | nil => simp [node.modify_at]
  | cons i p ih =>
    cases n with
    | mk t pa fr v cs =>
      simp only [node.modify_at, list_modify_modify]
      congr 1
      congr 1
      funext c
      exact ih c

theorem list_modify_congr {α : Type} (f g : α → α) (i : Nat) (l : List α)
    (h : ∀ a, l[i]? = some a → f a = g a) : List.modify f i l = List.modify g i l := by
  induction l generalizing i with
  | nil => simp
  | cons a l ih =>
    cases i with
    | zero => simp; exact h a (by simp)
    | succ i => simp; exact ih i (fun a ha => h a (by simpa using ha))

theorem modify_at_congr (f g : node V → node V) (p : List Nat) (n N : node V)
    (hN : n.get_at p = some N) (h : f N = g N) :
    node.modify_at f p n = node.modify_at g p n := by
  induction p generalizing n with
  | nil => simp [node.get_at] at hN; subst hN; simpa [node.modify_at] using h
  | cons i p ih =>
    cases n with
    | mk t pa fr v cs =>
      simp only [node.modify_at]
      congr 1
      apply list_modify_congr
      intro c hc
      simp only [node.get_at, hc] at hN
      exact ih c hN

theorem list_getElem?_modify_self {α : Type} (f : α → α) (i : Nat) (l : List α) :
    (List.modify f i l)[i]? = l[i]?.map f := by
  simp

theorem get_at_modify_at (f : node V → node V) (p : List Nat) (n N : node V)
    (hN : n.get_at p = some N) : (node.modify_at f p n).get_at p = some (f N) := by
  induction p generalizing n with
  | nil => simp [node.get_at] at hN; subst hN; simp [node.modify_at, node.get_at]
  | cons i p ih =>
    cases n with
    | mk t pa fr v cs =>
      simp only [node.modify_at, node.get_at, list_getElem?_modify_self]
      cases hc : cs[i]? with
      | none => simp [node.get_at, hc] at hN
      | some c =>
        simp only [node.get_at, hc] at hN
        simpa using ih c hN

theorem find?_range_eq (n i : Nat) (h : i < n) :
    (List.range n).find? (fun j => decide (j = i)) = some i := by
  induction n with
  | zero => omega
  | succ n ih =>
    rw [List.range_succ, List.find?_append]
    by_cases hi : i < n
    · simp [ih hi]
    · have : i = n := by omega
      subst this
      have : (List.range i).find? (fun j => decide (j = i)) = none := by
        simp [List.find?_eq_none]
        intro x hx; omega
      simp [this]

theorem list_eraseIdx_modify {α : Type} (f : α → α) (i : Nat) (l : List α) :
    (List.modify f i l).eraseIdx i = l.eraseIdx i := by
  induction l generalizing i with
  | nil => simp
  | cons a l ih =>
    cases i with
    | zero => simp
    | succ i => simp [ih]

/-- The effect of `del` on the parent after a change to the child to erase. -/
theorem del_modify_child (f : node V → node V) (pp : List Nat) (i : Nat) (P : node V)
    (hi : i < P.children.length) :
    node.del pp (pp ++ [i]) (node.modify_at f [i] P) = P.with_children (P.children.eraseIdx i) := by
  cases P with
  | mk t pa fr v cs =>
    simp only [node.children] at hi
    simp only [node.modify_at, node.del, node.with_children, node.children]
    have hl : (List.modify (fun n => f n) i cs).length = cs.length := by simp
    have : (fun j => decide (pp ++ [j] = pp ++ [i])) = (fun j => decide (j = i)) := by
      funext j; simp
    simp only [node.modify_at, hl, this, find?_range_eq _ _ hi]
    rw [list_eraseIdx_modify]

theorem get_at_snoc (n : node V) (pp : List Nat) (i : Nat) (N : node V)
    (h : n.get_at (pp ++ [i]) = some N) :
    ∃ P, n.get_at pp = some P ∧ P.children[i]? = some N := by
  rw [get_at_append] at h
  cases hP : n.get_at pp with
  | none => simp [hP] at h
  | some P =>
    refine ⟨P, rfl, ?_⟩
    simp [hP] at h
    cases P with
    | mk t pa fr v cs =>
      simp only [node.get_at] at h
      simp only [node.children]
      cases hc : cs[i]? with
      | none => simp [hc] at h
      | some c => simp [hc, node.get_at] at h; simp [h]

theorem get_at_of_snoc (n : node V) (pp : List Nat) (i : Nat) (P N : node V)
    (hP : n.get_at pp = some P) (hN : P.children[i]? = some N) :
    n.get_at (pp ++ [i]) = some N := by
  rw [get_at_append, hP]
  cases P with
  | mk t pa fr v cs =>
    simp only [node.children] at hN
    simp [node.get_at, hN]

/-- The result of `removed_fully` with `include_children = true`, for a node and
its parent. -/
theorem removed_fully_ok [ValueT V] (root : node V) (ret : return_s V) (pp : List Nat) (i : Nat)
    (P N : node V) (en : errno_t) (hP : root.get_at pp = some P)
    (hN : P.children[i]? = some N) :
    node.removed_fully root ret true (some (pp ++ [i])) (some [some pp]) en =
      ({ ok := true, en := en, old := N.value },
        node.modify_at (fun P => P.with_children (P.children.eraseIdx i)) pp root) := by
  have hg := get_at_of_snoc root pp i P N hP hN
  have hi : i < P.children.length := by
    rcases List.getElem?_eq_some_iff.mp hN with ⟨h, _⟩; exact h
  have h1 : node.modify_at (node.set_value ret.old) (pp ++ [i]) root =
      node.modify_at (node.modify_at (node.set_value ret.old) [i]) pp root :=
    modify_at_append _ _ _ _
  have h2 := get_at_modify_at (node.modify_at (node.set_value ret.old) [i]) pp root P hP
  simp only [node.removed_fully, node.lock, hg, h1, h2, List.getLast?_singleton, if_true]
  rw [modify_at_modify_at]
  congr 1
  apply modify_at_congr _ _ pp root P hP
  simp only [Function.comp]
  exact del_modify_child _ pp i P hi

theorem hit_ne_nil_of_root {n : node V} {q s pms m} (h : Hit n q s pms m)
    (hroot : n.fragment = []) : s ≠ [] := by
  intro hs
  subst hs
  obtain ⟨N, hN, hf, _⟩ := hit_get_at h
  simp [node.get_at] at hN
  subst hN
  exact hf hroot

theorem parent_of_snoc (parent : weak_node_ptr) (pp : List Nat) (i : Nat) :
    parent_of [] parent (pp ++ [i]) = some pp := by
  simp [parent_of]

/-- A successful lookup from the root of a trie returns a child of some node. -/
theorem locate_root_hit (root : node V) (q : List Char) (hroot : root.fragment = [])
    (s : List Nat) (pms : Nat) (m : Bool) (h : Hit root q s pms m) :
    ∃ pp i P N, s = pp ++ [i] ∧ root.get_at pp = some P ∧ P.children[i]? = some N ∧
      root.get_at s = some N ∧ N.fragment ≠ [] ∧ pms ≤ N.fragment.length ∧
      root.locate_internal [] (some q) none =
        { partial_matched_size := pms, ptr := some s, en := 0, matched := m,
          parents := some [some pp] } := by
  have hne := hit_ne_nil_of_root h hroot
  obtain ⟨N, hN, hf, hle⟩ := hit_get_at h
  have hs : s = s.dropLast ++ [s.getLast hne] := (List.dropLast_append_getLast hne).symm
  obtain ⟨P, hP, hc⟩ := get_at_snoc root s.dropLast (s.getLast hne) N (by rw [← hs]; exact hN)
  refine ⟨s.dropLast, s.getLast hne, P, N, hs, hP, hc, hN, hf, hle, ?_⟩
  rw [hit_locate h [] none, hit_result]
  have : parent_of [] none s = some s.dropLast := by
    rw [hs, parent_of_snoc]; simp
  simp [this]

theorem modify_at_mk (f : node V → node V) (hf : ∀ t p fr v cs, ∃ cs2, f (.mk t p fr v cs) = .mk t p fr v cs2)
    (pp : List Nat) (t : NodeType) (p fr : List Char) (v : V) (cs : List (node V)) :
    ∃ cs2, node.modify_at f pp (.mk t p fr v cs) = .mk t p fr v cs2 := by
  cases pp with
  | nil => simpa [node.modify_at] using hf t p fr v cs
  | cons j pp => exact ⟨_, rfl⟩

theorem mem_modify {α : Type} (f : α → α) (i : Nat) (l : List α) (x : α)
    (h : x ∈ List.modify f i l) : x ∈ l ∨ ∃ c ∈ l, x = f c := by
  induction l generalizing i with
  | nil => simp at h
  | cons a l ih =>
    cases i with
    | zero =>
      simp at h
      rcases h with h | h
      · right; exact ⟨a, by simp, h⟩
      · left; simp [h]
    | succ i =>
      simp at h
      rcases h with h | h
      · left; simp [h]
      · rcases ih i h with h | ⟨c, hc, e⟩
        · left; simp [h]
        · right; exact ⟨c, by simp [hc], e⟩

/-- A lookup that misses below a node still misses after a child has been
erased anywhere below it. -/
theorem miss_erase {n : node V} {q} (h : Miss n q) :
    ∀ pp i, Miss (node.modify_at (node.erase_child i) pp n) q := by
  induction h with
  | no_match t p frag v cs q hf h0 =>
    intro pp i
    obtain ⟨cs2, e⟩ := modify_at_mk (node.erase_child i)
      (fun t p fr v cs => ⟨_, rfl⟩) pp t p frag v cs
    rw [e]
    exact Miss.no_match t p frag v cs2 q hf h0
  | hollow t p v cs q hm ih =>
    intro pp i
    cases pp with
    | nil =>
      simp only [node.modify_at, node.erase_child, node.with_children, node.children]
      apply Miss.hollow
      intro c hc
      exact hm c (List.mem_of_mem_eraseIdx hc)
    | cons j pp =>
      simp only [node.modify_at]
      apply Miss.hollow
      intro c hc
      rcases mem_modify _ _ _ _ hc with h | ⟨c2, hc2, e⟩
      · exact hm c h
      · rw [e]; exact ih c2 hc2 pp i

theorem all_miss_erase {cs : List (node V)} {q} (hm : ∀ c ∈ cs, Miss c q) (i : Nat) :
    ∀ c ∈ cs.eraseIdx i, Miss c q :=
  fun c hc => hm c (List.mem_of_mem_eraseIdx hc)

theorem all_miss_modify {cs : List (node V)} {q} (hm : ∀ c ∈ cs, Miss c q) (j : Nat)
    (pp : List Nat) (i : Nat) :
    ∀ c ∈ List.modify (node.modify_at (node.erase_child i) pp) j cs, Miss c q := by
  intro c hc
  rcases mem_modify _ _ _ _ hc with h | ⟨c2, hc2, e⟩
  · exact hm c h
  · rw [e]; exact miss_erase (hm c2 hc2) pp i

theorem eraseIdx_append_lt {α : Type} (pre : List α) (c : α) (post : List α) (i : Nat)
    (h : i < pre.length) :
    (pre ++ c :: post).eraseIdx i = pre.eraseIdx i ++ c :: post := by
  rw [List.eraseIdx_append_of_lt_length h]

theorem eraseIdx_append_gt {α : Type} (pre : List α) (c : α) (post : List α) (i : Nat)
    (h : pre.length < i) :
    (pre ++ c :: post).eraseIdx i = pre ++ c :: post.eraseIdx (i - pre.length - 1) := by
  rw [List.eraseIdx_append_of_length_le (Nat.le_of_lt h)]
  have : i - pre.length = (i - pre.length - 1) + 1 := by omega
  rw [this]
  simp

theorem modify_append_lt {α : Type} (f : α → α) (pre : List α) (c : α) (post : List α) (j : Nat)
    (h : j < pre.length) :
    List.modify f j (pre ++ c :: post) = List.modify f j pre ++ c :: post := by
  induction pre generalizing j with
  | nil => simp at h
  | cons a pre ih =>
    cases j with
    | zero => simp
    | succ j => simp at h ⊢; exact ih j h

theorem modify_append_eq {α : Type} (f : α → α) (pre : List α) (c : α) (post : List α) :
    List.modify f pre.length (pre ++ c :: post) = pre ++ f c :: post := by
  induction pre with
  | nil => simp
  | cons a pre ih => simp [ih]

theorem modify_append_gt {α : Type} (f : α → α) (pre : List α) (c : α) (post : List α) (j : Nat)
    (h : pre.length < j) :
    List.modify f j (pre ++ c :: post) = pre ++ c :: List.modify f (j - pre.length - 1) post := by
  induction pre generalizing j with
  | nil =>
    cases j with
    | zero => simp at h
    | succ j => simp
  | cons a pre ih =>
    cases j with
    | zero => simp at h
    | succ j =>
      simp at h ⊢
      rw [ih j h]

/-- A lookup that stops at a node outside the erased subtree stops at the same
node after the erasure. -/
theorem hit_erase {n : node V} {q s pms m} (h : Hit n q s pms m) :
    ∀ pp i, ¬ (pp ++ [i]) <+: s →
      Hit (node.modify_at (node.erase_child i) pp n) q (shift_ptr pp i s) pms m := by
  induction h with
  | exact t p frag v cs hf =>
    intro pp i _
    obtain ⟨cs2, e⟩ := modify_at_mk (node.erase_child i)
      (fun t p fr v cs => ⟨_, rfl⟩) pp t p frag v cs
    rw [e]
    have : shift_ptr pp i [] = [] := by cases pp <;> rfl
    rw [this]
    exact Hit.exact t p frag v cs2 hf
  | stop_short t p frag v cs q hpos hlt =>
    intro pp i _
    obtain ⟨cs2, e⟩ := modify_at_mk (node.erase_child i)
      (fun t p fr v cs => ⟨_, rfl⟩) pp t p frag v cs
    rw [e]
    have : shift_ptr pp i [] = [] := by cases pp <;> rfl
    rw [this]
    exact Hit.stop_short t p frag v cs2 q hpos hlt
  | stop_long t p frag v cs q hpos hle hc hmiss =>
    intro pp i _
    have : shift_ptr pp i [] = [] := by cases pp <;> rfl
    rw [this]
    cases pp with
    | nil =>
      simp only [node.modify_at, node.erase_child, node.with_children, node.children]
      exact Hit.stop_long t p frag v _ q hpos hle hc (all_miss_erase hmiss i)
    | cons j pp =>
      simp only [node.modify_at]
      exact Hit.stop_long t p frag v _ q hpos hle hc (all_miss_modify hmiss j pp i)
  | descend t p frag v pre c post q s pms m hd hp hh ih =>
    intro pp i hnp
    cases pp with
    | nil =>
      simp only [node.modify_at, node.erase_child, node.with_children, node.children, shift_ptr]
      rcases Nat.lt_trichotomy i pre.length with hlt | heq | hgt
      · rw [eraseIdx_append_lt pre c post i hlt, if_pos hlt]
        have hl : (pre.eraseIdx i).length = pre.length - 1 := by
          rw [List.length_eraseIdx]; simp [hlt]
        rw [← hl]
        exact Hit.descend t p frag v _ c post q s pms m hd (all_miss_erase hp i) hh
      · exfalso; apply hnp; subst heq; simp
      · rw [eraseIdx_append_gt pre c post i hgt, if_neg (by omega)]
        exact Hit.descend t p frag v pre c _ q s pms m hd hp hh
    | cons j pp =>
      simp only [node.modify_at, shift_ptr]
      rcases Nat.lt_trichotomy j pre.length with hlt | heq | hgt
      · rw [modify_append_lt _ pre c post j hlt, if_neg (by omega)]
        have hl : (List.modify (node.modify_at (node.erase_child i) pp) j pre).length = pre.length := by
          simp
        rw [← hl]
        exact Hit.descend t p frag v _ c post q s pms m hd (all_miss_modify hp j pp i) hh
      · subst heq
        rw [modify_append_eq, if_pos rfl]
        have hnp2 : ¬ (pp ++ [i]) <+: s := by
          intro hpre; apply hnp
          simpa using hpre
        exact Hit.descend t p frag v pre _ post q _ pms m hd hp (ih pp i hnp2)
      · rw [modify_append_gt _ pre c post j hgt, if_neg (by omega)]
        exact Hit.descend t p frag v pre c _ q s pms m hd hp hh

/-- The node at a position outside the erased subtree keeps its own fields. -/
theorem get_at_erase (n : node V) (s : List Nat) (M : node V) (hM : n.get_at s = some M) :
    ∀ pp i, ¬ (pp ++ [i]) <+: s →
      ∃ M2, (node.modify_at (node.erase_child i) pp n).get_at (shift_ptr pp i s) = some M2 ∧
        M2.type = M.type ∧ M2.path = M.path ∧ M2.fragment = M.fragment ∧ M2.value = M.value := by
  induction s generalizing n with
  | nil =>
    intro pp i _
    simp [node.get_at] at hM
    subst hM
    have : shift_ptr pp i [] = [] := by cases pp <;> rfl
    rw [this]
    cases n with
    | mk t p fr v cs =>
      obtain ⟨cs2, e⟩ := modify_at_mk (node.erase_child i)
        (fun t p fr v cs => ⟨_, rfl⟩) pp t p fr v cs
      rw [e]
      exact ⟨_, rfl, rfl, rfl, rfl, rfl⟩
  | cons j s ih =>
    intro pp i hnp
    cases n with
    | mk t p fr v cs =>
      simp only [node.get_at] at hM
      cases hc : cs[j]? with
      | none => simp [hc] at hM
      | some c =>
        simp only [hc] at hM
        cases pp with
        | nil =>
          simp only [node.modify_at, node.erase_child, node.with_children, node.children,
            shift_ptr]
          by_cases hlt : i < j
          · rw [if_pos hlt]
            have : (cs.eraseIdx i)[j - 1]? = some c := by
              rw [List.getElem?_eraseIdx, if_neg (by omega)]
              have : j - 1 + 1 = j := by omega
              rw [this]; exact hc
            refine ⟨M, ?_, rfl, rfl, rfl, rfl⟩
            simp only [node.get_at, this, hM]
          · rw [if_neg hlt]
            have hne : i ≠ j := by
              intro e; apply hnp; subst e; simp
            have : (cs.eraseIdx i)[j]? = some c := by
              rw [List.getElem?_eraseIdx, if_pos (by omega)]; exact hc
            refine ⟨M, ?_, rfl, rfl, rfl, rfl⟩
            simp only [node.get_at, this, hM]
        | cons a pp =>
          simp only [node.modify_at, shift_ptr]
          by_cases hae : a = j
          · subst hae
            rw [if_pos rfl]
            have hnp2 : ¬ (pp ++ [i]) <+: s := by
              intro hpre; apply hnp; simpa using hpre
            obtain ⟨M2, h1, h2⟩ := ih c hM pp i hnp2
            refine ⟨M2, ?_, h2⟩
            simp only [node.get_at, List.getElem?_modify_eq, hc, Option.map_eq_map, Option.map_some', h1]
          · rw [if_neg hae]
            refine ⟨M, ?_, rfl, rfl, rfl, rfl⟩
            simp only [node.get_at, List.getElem?_modify_ne _ _ hae, hc, hM]

/-- The tree left by `remove` with `include_children = true`: unchanged when
the call fails, and with the located node erased from its parent otherwise. -/
theorem remove_tree [ValueT V] (root : node V) (d : Char) (path : List Char)
    (hroot : root.fragment = []) :
    ((root.remove d (some path) true).1.ok = false ∧ (root.remove d (some path) true).2 = root) ∨
    ∃ pp i, (root.locate_internal [] (some path) none).ptr = some (pp ++ [i]) ∧
      (root.remove d (some path) true).1.ok = true ∧
      (root.remove d (some path) true).2 = node.modify_at (node.erase_child i) pp root := by
  rcases locate_spec root path [] none with ⟨_, hl⟩ | ⟨s, pms, m, hH, _⟩
  · left
    simp [node.remove, hl]
  · obtain ⟨pp, i, P, N, hs, hP, hc, hN, hf, hle, hl⟩ := locate_root_hit root path hroot s pms m hH
    subst hs
    have hrf := removed_fully_ok root ({ en := 0 } : return_s V) pp i P N 0 hP hc
    rcases (hit_touched hH) with ⟨hm1, hp1⟩ | ⟨hm1, hp1⟩
    · right
      subst hm1 hp1
      refine ⟨pp, i, by simp [hl], ?_, ?_⟩
      · simp [node.remove, hl, hrf]
      · simp [node.remove, hl, hrf]; rfl
    · subst hm1
      have hp2 : pms ≠ 0 := by omega
      have hgt : pms > 0 := hp1
      by_cases hdel : N.fragment.length = pms + 1 ∧ N.fragment[N.fragment.length - 1]? = some d
      · right
        have e : root.remove d (some path) true = ({ ok := true, en := 0, old := N.value },
            node.modify_at (fun P => P.with_children (P.children.eraseIdx i)) pp root) := by
          simp only [node.remove, hl, node.lock, hN]
          rw [if_neg (by simp), if_pos hgt, if_pos hdel, hrf]
        refine ⟨pp, i, by simp [hl], ?_, ?_⟩
        · rw [e]
        · rw [e]; rfl
      · left
        have e : root.remove d (some path) true =
            ({ ok := false, en := ENAMETOOLONG, old := default }, root) := by
          simp only [node.remove, hl, node.lock, hN]
          rw [if_neg (by simp), if_pos hgt, if_neg hdel]
        rw [e]; exact ⟨rfl, rfl⟩

theorem get_of_matched (d : Char) (root : node V) (q : List Char) (p : node_ptr) (M : node V)
    (hm : (root.find (some q)).matched = true) (hp : (root.find (some q)).ptr = some p)
    (hM : root.get_at p = some M) : root.get d (some q) = M.value := by
  simp only [node.get, fast_find_eq_find, hm, hp, node.lock, hM, if_true]

theorem find_of_hit (root : node V) (q : List Char) (s : List Nat) (pms : Nat) (m : Bool)
    (h : Hit root q s pms m) :
    root.find (some q) = { partial_matched_size := pms, ptr := some s, en := 0, matched := m } := by
  simp [node.find, node.locate, hit_locate h [] none, hit_result]

theorem find_of_miss (root : node V) (q : List Char) (h : Miss root q) :
    root.find (some q) = {} := by
  simp [node.find, node.locate, miss_locate h [] none]

theorem children_paths_ok_get (p : List Char) (cs : List (node V)) (j : Nat) (c : node V)
    (h : node.children_paths_ok p cs = true) (hc : cs[j]? = some c) : node.paths_ok p c = true := by
  induction cs generalizing j with
  | nil => simp at hc
  | cons a cs ih =>
    simp only [node.children_paths_ok, Bool.and_eq_true] at h
    cases j with
    | zero => simp at hc; subst hc; exact h.1
    | succ j => simp at hc; exact ih j h.2 hc

theorem path_of_get_at (n : node V) (s : List Nat) (N : node V) (pre : List Char)
    (h : node.paths_ok pre n = true) (hN : n.get_at s = some N) :
    N.path = pre ++ route_frags n s ++ N.fragment := by
  induction s generalizing n pre with
  | nil =>
    simp [node.get_at] at hN
    subst hN
    cases n with
    | mk t p f v cs =>
      simp only [node.paths_ok, Bool.and_eq_true, decide_eq_true_eq] at h
      simp [route_frags, node.path, node.fragment, h.1]
  | cons j s ih =>
    cases n with
    | mk t p f v cs =>
      simp only [node.paths_ok, Bool.and_eq_true, decide_eq_true_eq] at h
      simp only [node.get_at] at hN
      cases hc : cs[j]? with
      | none => simp [hc] at hN
      | some c =>
        simp only [hc] at hN
        have := ih c p (children_paths_ok_get p cs j c h.2 hc) hN
        rw [this, h.1]
        simp [route_frags, hc]

theorem cpl_eq_length_of_pre (a b : List Char) (h : a <+: b) : cpl a b = a.length := by
  obtain ⟨x, rfl⟩ := h
  rw [cpl_eq_lcp]; exact lcp_append_right a x

theorem take_cpl_of_pre (a b : List Char) (h : a <+: b) : b.take (cpl a b) = a := by
  rw [cpl_eq_length_of_pre a b h]
  obtain ⟨x, rfl⟩ := h
  simp

theorem getElem?_append_length {α : Type} (pre : List α) (c : α) (post : List α) :
    (pre ++ c :: post)[pre.length]? = some c := by
  rw [List.getElem?_append_right (Nat.le_refl _)]; simp

/-- A lookup that stops at the node `N` at position `s` factors through `N`:
the part `c` of the query consumed above `N`, the rest `qN` looked up at `N`,
and the lookup of the same query after a change to `N`. -/
theorem hit_route {n : node V} {q s pms m} (h : Hit n q s pms m) :
    ∃ N qN c, n.get_at s = some N ∧ Hit N qN [] pms m ∧ q = c ++ qN ∧
      (∀ X, (route_frags n s ++ X) <+: q → c = route_frags n s) ∧
      (∀ (f : node V → node V) s2 pms2 m2, Hit (f N) qN s2 pms2 m2 →
        Hit (node.modify_at f s n) q (s ++ s2) pms2 m2) := by
  induction h with
  | exact t p frag v cs hf =>
    exact ⟨_, frag, [], rfl, Hit.exact t p frag v cs hf, rfl, fun _ _ => rfl,
      fun f s2 pms2 m2 h => by simpa [node.modify_at] using h⟩
  | stop_short t p frag v cs q hpos hlt =>
    exact ⟨_, q, [], rfl, Hit.stop_short t p frag v cs q hpos hlt, rfl, fun _ _ => rfl,
      fun f s2 pms2 m2 h => by simpa [node.modify_at] using h⟩
  | stop_long t p frag v cs q hpos hle hc hmiss =>
    exact ⟨_, q, [], rfl, Hit.stop_long t p frag v cs q hpos hle hc hmiss, rfl, fun _ _ => rfl,
      fun f s2 pms2 m2 h => by simpa [node.modify_at] using h⟩
  | descend t p frag v pre c post q s pms m hd hp hh ih =>
    obtain ⟨N, qN, c2, hN, hHN, hq, hpre, hmod⟩ := ih
    have hget := getElem?_append_length pre c post
    refine ⟨N, qN, q.take (cpl frag q) ++ c2, ?_, hHN, ?_, ?_, ?_⟩
    · simp only [node.get_at, hget, hN]
    · rw [List.append_assoc, ← hq, List.take_append_drop]
    · intro X hX
      simp only [route_frags, hget] at hX ⊢
      have hfq : frag <+: q := by
        obtain ⟨Y, hY⟩ := hX
        exact ⟨route_frags c s ++ X ++ Y, by rw [← hY]; simp⟩
      have hcp := cpl_eq_length_of_pre frag q hfq
      have htk := take_cpl_of_pre frag q hfq
      rw [htk]
      congr 1
      apply hpre X
      obtain ⟨Y, hY⟩ := hX
      refine ⟨Y, ?_⟩
      rw [hcp, ← hY]
      simp
    · intro f s2 pms2 m2 h2
      have := hmod f s2 pms2 m2 h2
      simp only [node.modify_at, modify_append_eq, List.cons_append]
      exact Hit.descend t p frag v pre _ post q _ pms2 m2 hd hp this

theorem fast_find_internal_of_hit (root : node V) (q : List Char) (s : List Nat) (pms : Nat)
    (m : Bool) (h : Hit root q s pms m) :
    root.fast_find_internal [] {} q q.length =
      (m, { partial_matched_size := pms, ptr := some s, en := 0, matched := m }) := by
  rw [hit_fast_find h []]; simp [hit_ctx]

/-- The result of `insert` for a key the lookup finds nothing for: a new leaf under the root. -/
theorem insert_of_miss [ValueT V] (t : NodeType) (p : List Char) (v : V) (cs : List (node V))
    (k : List Char) (val : V) (h : Miss (node.mk t p [] v cs) k) :
    (node.mk t p [] v cs).insert (some k) val =
      ({ ok := true, old := v },
        node.mk NodeType.NODE_BRANCH p [] default (cs ++ [node.mk NodeType.NODE_LEAF k k val []])) := by
  simp [node.insert, miss_fast_find h [], node.value, node.set_value, node.add, node.set_type]

/-- The result of `insert` for a key the lookup matches: the value of the node is replaced. -/
theorem insert_of_matched [ValueT V] (root : node V) (k : List Char) (val : V) (s : List Nat)
    (N : node V) (h : Hit root k s 0 true) (hN : root.get_at s = some N) :
    root.insert (some k) val =
      ({ ok := true, old := N.value }, node.modify_at (node.set_value val) s root) := by
  simp [node.insert, fast_find_internal_of_hit root k s 0 true h, node.lock, hN]

/-- The result of `insert` for a key whose lookup stops unmatched at the end of the fragment
of a node: a new leaf under that node. -/
theorem insert_of_stop_end [ValueT V] (root : node V) (k : List Char) (val : V) (s : List Nat)
    (pms : Nat) (N : node V) (h : Hit root k s pms false) (hN : root.get_at s = some N)
    (hend : N.fragment.length - pms = 0) :
    root.insert (some k) val =
      ({ ok := true },
        node.modify_at (node.add (node.mk NodeType.NODE_LEAF k (k.drop N.path.length) val [])) s
          root) := by
  have hpos : 0 < pms := by rcases (hit_touched h) with ⟨h1, _⟩ | ⟨_, h2⟩; simp at h1; exact h2
  have hpos2 : pms > 0 := hpos
  simp only [node.insert, fast_find_internal_of_hit root k s pms false h, node.lock, hN,
    node.fragment_length]
  rw [if_pos hpos2, if_pos hend]

/-- The result of `insert` for a key whose lookup stops unmatched inside the fragment of a
node: the node is split. -/
theorem insert_of_stop_inside [ValueT V] (root : node V) (k : List Char) (val : V) (s : List Nat)
    (pms : Nat) (N : node V) (h : Hit root k s pms false) (hN : root.get_at s = some N)
    (hin : N.fragment.length - pms ≠ 0) :
    root.insert (some k) val =
      ({ ok := true, old := ValueT.moved_from N.value },
        node.modify_at (fun sp =>
          node.add (node.mk NodeType.NODE_LEAF k
              (k.drop (substr_head N.path (N.fragment.length - pms)).length) val [])
            (node.add (node.mk NodeType.NODE_LEAF N.path (N.fragment.drop pms) N.value [])
              (node.set_type NodeType.NODE_BRANCH
                (node.set_fragment (N.fragment.take pms)
                  (node.set_path (substr_head N.path (N.fragment.length - pms))
                    (node.set_value default sp)))))) s root) := by
  have hpos : 0 < pms := by rcases (hit_touched h) with ⟨h1, _⟩ | ⟨_, h2⟩; simp at h1; exact h2
  have hpos2 : pms > 0 := hpos
  simp only [node.insert, fast_find_internal_of_hit root k s pms false h, node.lock, hN,
    node.fragment_length]
  rw [if_pos hpos2, if_neg hin]

theorem lcp_drop_zero (a b : List Char) (h1 : lcp a b < a.length) (h2 : lcp a b < b.length) :
    lcp (a.drop (lcp a b)) (b.drop (lcp a b)) = 0 := by
  by_contra hne
  have hpos : 0 < lcp (a.drop (lcp a b)) (b.drop (lcp a b)) := Nat.pos_of_ne_zero hne
  obtain ⟨x, a1, b1, ha, hb⟩ := (lcp_pos_iff _ _).mp hpos
  have e1 : a[lcp a b]? = some x := by
    have := congrArg (fun l => l[0]?) ha
    simpa using this
  have e2 : b[lcp a b]? = some x := by
    have := congrArg (fun l => l[0]?) hb
    simpa using this
  exact lcp_get_ne a b h1 h2 (by rw [e1, e2])

theorem hit_nil_false_inv {N : node V} {qN pms} (h : Hit N qN [] pms false) :
    ∃ t p frag v cs, N = node.mk t p frag v cs ∧ pms = cpl frag qN ∧ 0 < pms ∧
      (qN.length < frag.length ∨
        (frag.length ≤ qN.length ∧ (cpl frag qN = frag.length → frag.length < qN.length) ∧
          ∀ c ∈ cs, Miss c (qN.drop (cpl frag qN)))) := by
  cases h with
  | stop_short t p frag v cs q hpos hlt =>
    exact ⟨t, p, frag, v, cs, rfl, rfl, hpos, Or.inl hlt⟩
  | stop_long t p frag v cs q hpos hle hc hmiss =>
    exact ⟨t, p, frag, v, cs, rfl, rfl, hpos, Or.inr ⟨hle, hc, hmiss⟩⟩

theorem hit_set_value {N : node V} {qN pms} (val : V) (h : Hit N qN [] pms true) :
    Hit (node.set_value val N) qN [] 0 true := by
  cases h
  exact Hit.exact _ _ _ val _ (by assumption)

/-- The lookup at a node that has consumed its whole fragment finds the leaf
added for the rest of the query. -/
theorem hit_add_leaf (t : NodeType) (p frag : List Char) (v : V) (cs : List (node V))
    (qN : List Char) (lp : List Char) (val : V)
    (hpos : 0 < cpl frag qN) (hfull : cpl frag qN = frag.length) (hlt : frag.length < qN.length)
    (hmiss : ∀ c ∈ cs, Miss c (qN.drop (cpl frag qN))) :
    Hit (node.add (node.mk NodeType.NODE_LEAF lp (qN.drop frag.length) val [])
      (node.mk t p frag v cs)) qN [cs.length] 0 true := by
  simp only [node.add]
  have hne : qN.drop frag.length ≠ [] := by
    intro h
    have := congrArg List.length h
    simp at this; omega
  have hleaf : Hit (node.mk NodeType.NODE_LEAF lp (qN.drop frag.length) val [])
      (qN.drop (cpl frag qN)) [] 0 true := by
    rw [hfull]
    exact Hit.exact _ _ _ _ _ hne
  exact Hit.descend t p frag v cs _ [] qN [] 0 true
    (Or.inr ⟨hpos, Nat.le_of_lt hlt, fun _ => hlt⟩) hmiss hleaf

/-- The lookup at a node split inside its fragment finds the leaf added for the
rest of the query. -/
theorem hit_split (t : NodeType) (p frag : List Char) (v : V) (cs : List (node V))
    (qN : List Char) (np lp cp2 : List Char) (val dv : V)
    (hpos : 0 < cpl frag qN) (hin : cpl frag qN < frag.length) (hlt : cpl frag qN < qN.length)
    (hmiss : ∀ c ∈ cs, Miss c (qN.drop (cpl frag qN))) :
    Hit (node.add (node.mk NodeType.NODE_LEAF lp (qN.drop (cpl frag qN)) val [])
      (node.add (node.mk NodeType.NODE_LEAF cp2 (frag.drop (cpl frag qN)) v [])
        (node.set_type NodeType.NODE_BRANCH
          (node.set_fragment (frag.take (cpl frag qN))
            (node.set_path np (node.set_value dv (node.mk t p frag v cs)))))))
      qN [cs.length + 1] 0 true := by
  simp only [node.add, node.set_type, node.set_fragment, node.set_path, node.set_value]
  have hl := cpl_eq_lcp frag qN
  have hpre : frag.take (cpl frag qN) <+: qN := by
    rw [hl, lcp_take frag qN]
    exact List.take_prefix _ _
  have hlen : (frag.take (cpl frag qN)).length = cpl frag qN := by
    simp; omega
  have hcp : cpl (frag.take (cpl frag qN)) qN = cpl frag qN := by
    rw [cpl_eq_length_of_pre _ _ hpre, hlen]
  have hne : qN.drop (cpl frag qN) ≠ [] := by
    intro h
    have := congrArg List.length h
    simp at this; omega
  have hleaf : Hit (node.mk NodeType.NODE_LEAF lp (qN.drop (cpl frag qN)) val [])
      (qN.drop (cpl (frag.take (cpl frag qN)) qN)) [] 0 true := by
    rw [hcp]
    exact Hit.exact _ _ _ _ _ hne
  have hchild : Miss (node.mk NodeType.NODE_LEAF cp2 (frag.drop (cpl frag qN)) v [])
      (qN.drop (cpl frag qN)) := by
    apply Miss.no_match
    · intro h
      have := congrArg List.length h
      simp at this; omega
    · rw [cpl_eq_lcp, hl]
      rw [hl] at hin hlt
      exact lcp_drop_zero frag qN hin hlt
  have hpre2 : ∀ x ∈ cs ++ [node.mk NodeType.NODE_LEAF cp2 (frag.drop (cpl frag qN)) v []],
      Miss x (qN.drop (cpl (frag.take (cpl frag qN)) qN)) := by
    rw [hcp]
    intro x hx
    simp at hx
    rcases hx with hx | hx
    · exact hmiss x hx
    · rw [hx]; exact hchild
  have := Hit.descend NodeType.NODE_BRANCH np (frag.take (cpl frag qN)) dv
    (cs ++ [node.mk NodeType.NODE_LEAF cp2 (frag.drop (cpl frag qN)) v []])
    (node.mk NodeType.NODE_LEAF lp (qN.drop (cpl frag qN)) val []) [] qN [] 0 true
    (Or.inr ⟨by rw [hcp]; exact hpos, by rw [hlen]; omega, fun _ => by rw [hlen]; exact hlt⟩)
    hpre2 hleaf
  simpa using this

theorem substr_head_path (route frag : List Char) (pms : Nat) (h : pms ≤ frag.length) :
    substr_head (route ++ frag) (frag.length - pms) = route ++ frag.take pms := by
  unfold substr_head
  rw [if_pos (by simp; omega)]
  have : (route ++ frag).length - (frag.length - pms) = route.length + pms := by
    simp; omega
  rw [this, List.take_append]

theorem fast_find_of_hit (root : node V) (q : List Char) (s : List Nat) (pms : Nat) (m : Bool)
    (h : Hit root q s pms m) :
    root.fast_find (some q) =
      { partial_matched_size := pms, ptr := some s, en := 0, matched := m } := by
  rw [fast_find_eq_find, find_of_hit root q s pms m h]

theorem get_at_modify_child (f : node V → node V) (s : List Nat) (j : Nat) (root N : node V)
    (hN : root.get_at s = some N) :
    (node.modify_at f s root).get_at (s ++ [j]) = (f N).children[j]? := by
  rw [get_at_append, get_at_modify_at f s root N hN]
  cases f N with
  | mk t p fr v cs =>
    simp only [Option.bind, node.get_at, node.children]
    cases cs[j]? <;> rfl

/-- After `insert(k, v)` the lookup of `k` stops, matched, at a node holding `v`. -/
theorem insert_exists_hit [ValueT V] (root : node V) (k : List Char) (val : V)
    (hroot : root.fragment = []) (hpaths : node.paths_ok [] root = true) (hk : k ≠ [])
    (hclean : ∀ s pms N, Hit root k s pms false → root.get_at s = some N →
      substr_head N.path (N.fragment.length - pms) <+: k ∧
      (substr_head N.path (N.fragment.length - pms)).length < k.length ∧
      (k.length < N.path.length → N.children = [])) :
    ∃ s2 N2, Hit (root.insert (some k) val).2 k s2 0 true ∧
      (root.insert (some k) val).2.get_at s2 = some N2 ∧ N2.value = val := by
  rcases total_node root k with hM | ⟨s, pms, m, hH⟩
  · cases root with
    | mk t p frag v cs =>
      simp only [node.fragment] at hroot
      subst hroot
      rw [insert_of_miss t p v cs k val hM]
      have hcs : ∀ c ∈ cs, Miss c k := by
        cases hM with
        | no_match _ _ _ _ _ _ hf _ => exact absurd rfl hf
        | hollow _ _ _ _ _ h => exact h
      refine ⟨[cs.length], node.mk NodeType.NODE_LEAF k k val [], ?_, ?_, rfl⟩
      · apply Hit.descend _ _ [] _ cs _ [] k [] 0 true (Or.inl rfl)
        · simpa [cpl_nil_left] using hcs
        · simpa [cpl_nil_left] using Hit.exact NodeType.NODE_LEAF k k val [] hk
      · simp [node.get_at]
  · obtain ⟨N, qN, c, hN, hHN, hq, hpre, hmod⟩ := hit_route hH
    cases m with
    | true =>
      have hp0 : pms = 0 := by
        rcases (hit_touched hH) with ⟨_, h⟩ | ⟨h, _⟩
        · exact h
        · simp at h
      subst hp0
      rw [insert_of_matched root k val s N hH hN]
      refine ⟨s ++ [], node.set_value val N, hmod _ [] 0 true (hit_set_value val hHN), ?_, ?_⟩
      · simpa using get_at_modify_at (node.set_value val) s root N hN
      · cases N; rfl
    | false =>
      obtain ⟨hsh, hshlt, hch⟩ := hclean s pms N hH hN
      have hpath := path_of_get_at root s N [] hpaths hN
      simp only [List.nil_append] at hpath
      obtain ⟨tN, pN, fN, vN, csN, hNe, hpms, hpos, hcase⟩ := hit_nil_false_inv hHN
      subst hNe
      simp only [node.path, node.fragment, node.children] at hsh hshlt hch hpath
      have hle : pms ≤ fN.length := by rw [hpms]; exact cpl_le_left fN qN
      have hshe : substr_head pN (fN.length - pms) = route_frags root s ++ fN.take pms := by
        rw [hpath]; exact substr_head_path _ _ _ hle
      rw [hshe] at hsh hshlt
      have hc : c = route_frags root s := hpre _ hsh
      subst hc
      have hklen : k.length = (route_frags root s).length + qN.length := by
        rw [hq]; simp
      have hlt : pms < qN.length := by
        simp at hshlt; omega
      by_cases hend : fN.length - pms = 0
      · have hfull : pms = fN.length := by omega
        rw [insert_of_stop_end root k val s pms _ hH hN (by simpa [node.fragment] using hend)]
        have hdrop : k.drop pN.length = qN.drop fN.length := by
          rw [hq, hpath]
          simp [List.drop_append]
        simp only [node.path, hdrop]
        have hmiss : ∀ c ∈ csN, Miss c (qN.drop (cpl fN qN)) := by
          rcases hcase with h | ⟨_, _, h⟩
          · omega
          · exact h
        have hh := hit_add_leaf tN pN fN vN csN qN k val (by rw [← hpms]; exact hpos)
          (by rw [← hpms]; exact hfull) (by omega) hmiss
        refine ⟨s ++ [csN.length], node.mk NodeType.NODE_LEAF k (qN.drop fN.length) val [],
          hmod _ _ 0 true hh, ?_, rfl⟩
        rw [get_at_modify_child _ s csN.length root _ hN]
        simp [node.add, node.children]
      · have hin : pms < fN.length := by omega
        rw [insert_of_stop_inside root k val s pms _ hH hN (by simpa [node.fragment] using hend)]
        have hdrop : k.drop (route_frags root s ++ fN.take pms).length = qN.drop pms := by
          rw [hq]
          have : (route_frags root s ++ fN.take pms).length = (route_frags root s).length + pms := by
            simp; omega
          rw [this]
          simp [List.drop_append]
        simp only [node.path, node.fragment, node.value, hshe, hdrop]
        have hmiss : ∀ c ∈ csN, Miss c (qN.drop (cpl fN qN)) := by
          rcases hcase with h | ⟨_, _, h⟩
          · have : csN = [] := hch (by rw [hklen, hpath]; simp; omega)
            rw [this]; simp
          · exact h
        have hh := hit_split tN pN fN vN csN qN (route_frags root s ++ fN.take pms) k pN val
          default (by rw [← hpms]; exact hpos) (by rw [← hpms]; exact hin)
          (by rw [← hpms]; exact hlt) hmiss
        rw [← hpms] at hh
        refine ⟨s ++ [csN.length + 1], node.mk NodeType.NODE_LEAF k (qN.drop pms) val [],
          hmod _ _ 0 true hh, ?_, rfl⟩
        rw [get_at_modify_child _ s (csN.length + 1) root _ hN]
        simp only [node.add, node.children, node.set_type, node.set_fragment, node.set_path,
          node.set_value, List.append_assoc, List.singleton_append]
        rw [List.getElem?_append_right (Nat.le_succ _)]
        simp

theorem trie_insert_root [ValueT V] {d : Char} (t : trie_t V d) (path : Option (List Char))
    (v : V) : (t.insert path v).2.root = (t.root.insert path v).2 := by
  simp only [trie_t.insert]

theorem trie_insert_ret [ValueT V] {d : Char} (t : trie_t V d) (path : Option (List Char))
    (v : V) : (t.insert path v).1 = (t.root.insert path v).1 := by
  simp only [trie_t.insert]

theorem clean_of_fast_find (root : node V) (k : List Char)
    (hclean : ∀ N, (root.fast_find (some k)).matched = false →
      root.lock (root.fast_find (some k)).ptr = some N →
      substr_head N.path (N.fragment.length - (root.fast_find (some k)).partial_matched_size)
        <+: k ∧
      (substr_head N.path
        (N.fragment.length - (root.fast_find (some k)).partial_matched_size)).length < k.length ∧
      (k.length < N.path.length → N.children = [])) :
    ∀ s pms N, Hit root k s pms false → root.get_at s = some N →
      substr_head N.path (N.fragment.length - pms) <+: k ∧
      (substr_head N.path (N.fragment.length - pms)).length < k.length ∧
      (k.length < N.path.length → N.children = []) := by
  intro s pms N hH hN
  have := hclean N
  rw [fast_find_of_hit root k s pms false hH] at this
  exact this rfl (by simpa [node.lock] using hN)

theorem children_frags_ok_mem (cs : List (node V)) (c : node V)
    (h : node.children_frags_ok cs = true) (hc : c ∈ cs) :
    c.fragment ≠ [] ∧ node.frags_ok c = true := by
  induction cs with
  | nil => simp at hc
  | cons a cs ih =>
    simp only [node.children_frags_ok, Bool.and_eq_true, decide_eq_true_eq] at h
    simp at hc
    rcases hc with rfl | hc
    · exact ⟨h.1.1, h.1.2⟩
    · exact ih h.2 hc

theorem split_at_index {α : Type} (cs : List α) (j : Nat) (c : α) (h : cs[j]? = some c) :
    ∃ pre post, cs = pre ++ c :: post ∧ pre.length = j := by
  induction cs generalizing j with
  | nil => simp at h
  | cons a cs ih =>
    cases j with
    | zero => simp at h; subst h; exact ⟨[], cs, rfl, rfl⟩
    | succ j =>
      simp at h
      obtain ⟨pre, post, e, hl⟩ := ih j h
      exact ⟨a :: pre, post, by simp [e], by simp [hl]⟩

theorem route_starts_with_fragment (c : node V) (s : List Nat) (N : node V)
    (hN : c.get_at s = some N) : ∃ y, route_frags c s ++ N.fragment = c.fragment ++ y := by
  cases s with
  | nil =>
    simp [node.get_at] at hN
    subst hN
    exact ⟨[], by simp [route_frags]⟩
  | cons j s =>
    cases c with
    | mk t p f v cs =>
      exact ⟨_, by simp only [route_frags, node.fragment, List.append_assoc]; rfl⟩

/-- In a tree that satisfies the radix compaction invariant, the lookup of the
fragments leading to a node stops, matched, at that node. -/
theorem hit_of_get_at (n : node V) (s : List Nat) (N : node V)
    (h : node.frags_ok n = true) (hN : n.get_at s = some N) (hf : N.fragment ≠ []) :
    Hit n (route_frags n s ++ N.fragment) s 0 true := by
  induction s generalizing n with
  | nil =>
    simp [node.get_at] at hN
    subst hN
    cases n with
    | mk t p f v cs =>
      simp only [route_frags, List.nil_append, node.fragment] at hf ⊢
      exact Hit.exact t p f v cs hf
  | cons j s ih =>
    cases n with
    | mk t p f v cs =>
      simp only [node.get_at] at hN
      cases hc : cs[j]? with
      | none => simp [hc] at hN
      | some c =>
        simp only [hc] at hN
        obtain ⟨pre, post, hcs, hlen⟩ := split_at_index cs j c hc
        subst hcs
        subst hlen
        simp only [node.frags_ok, Bool.and_eq_true, decide_eq_true_eq] at h
        obtain ⟨hnd, hch⟩ := h
        obtain ⟨hcf, hcok⟩ := children_frags_ok_mem _ c hch (by simp)
        simp only [route_frags, hc, List.append_assoc]
        have hpre : f <+: f ++ (route_frags c s ++ N.fragment) := List.prefix_append _ _
        have hcp := cpl_eq_length_of_pre _ _ hpre
        have hdrop : (f ++ (route_frags c s ++ N.fragment)).drop
            (cpl f (f ++ (route_frags c s ++ N.fragment))) = route_frags c s ++ N.fragment := by
          rw [hcp]; simp
        obtain ⟨y, hy⟩ := route_starts_with_fragment c s N hN
        have hrest : route_frags c s ++ N.fragment ≠ [] := by
          rw [hy]; simp [hcf]
        have hd : f = [] ∨ (0 < cpl f (f ++ (route_frags c s ++ N.fragment)) ∧
            f.length ≤ (f ++ (route_frags c s ++ N.fragment)).length ∧
            (cpl f (f ++ (route_frags c s ++ N.fragment)) = f.length →
              f.length < (f ++ (route_frags c s ++ N.fragment)).length)) := by
          by_cases hfe : f = []
          · exact Or.inl hfe
          · right
            have : 0 < f.length := List.length_pos.mpr hfe
            have : 0 < (route_frags c s ++ N.fragment).length := List.length_pos.mpr hrest
            refine ⟨by omega, by simp, fun _ => ?_⟩
            rw [List.length_append]; omega
        apply Hit.descend t p f v pre c post _ s 0 true hd
        · rw [hdrop, hy]
          intro x hx
          obtain ⟨hxf, _⟩ := children_frags_ok_mem _ x hch (by simp [hx])
          cases x with
          | mk tx px fx vx csx =>
            simp only [node.fragment] at hxf
            apply Miss.no_match _ _ _ _ _ _ hxf
            rw [cpl_eq_lcp]
            cases hfx : fx with
            | nil => exact absurd hfx hxf
            | cons a fx2 =>
              cases hcfr : c.fragment with
              | nil => exact absurd hcfr hcf
              | cons b cf2 =>
                simp only [List.cons_append]
                apply lcp_eq_zero_of_head_ne
                intro hab
                simp only [List.map_append, List.map_cons] at hnd
                have hdisj := (List.nodup_append.mp hnd).2.2
                have h1 : some a ∈ pre.map (fun c => c.fragment.head?) := by
                  simp only [List.mem_map]
                  exact ⟨_, hx, by simp [node.fragment, hfx]⟩
                have h2 : some a ∈ (c.fragment.head? :: post.map (fun c => c.fragment.head?)) := by
                  simp [hcfr, hab]
                exact hdisj h1 h2
        · rw [hdrop]
          exact ih c hcok hN

theorem fragment_ne_nil_of_get_at (n : node V) (s : List Nat) (N : node V)
    (h : node.frags_ok n = true) (hN : n.get_at s = some N) (hs : s ≠ []) :
    N.fragment ≠ [] := by
  induction s generalizing n with
  | nil => exact absurd rfl hs
  | cons j s ih =>
    cases n with
    | mk t p f v cs =>
      simp only [node.get_at] at hN
      cases hc : cs[j]? with
      | none => simp [hc] at hN
      | some c =>
        simp only [hc] at hN
        simp only [node.frags_ok, Bool.and_eq_true, decide_eq_true_eq] at h
        obtain ⟨hcf, hcok⟩ := children_frags_ok_mem _ c h.2 (List.getElem?_mem hc)
        cases s with
        | nil =>
          simp [node.get_at] at hN
          subst hN; exact hcf
        | cons i s => exact ih c hcok hN (by simp)

theorem fragment_modify_at (f : node V → node V) (hf : ∀ n, (f n).fragment = n.fragment)
    (p : List Nat) (n : node V) : (node.modify_at f p n).fragment = n.fragment := by
  cases p with
  | nil => simpa [node.modify_at] using hf n
  | cons j p => cases n; rfl

theorem fragment_modify_at_cons (f : node V → node V) (s : List Nat) (hs : s ≠ [])
    (n : node V) : (node.modify_at f s n).fragment = n.fragment := by
  cases s with
  | nil => exact absurd rfl hs
  | cons j p => cases n; rfl

theorem fragment_set_value (v : V) (n : node V) : (node.set_value v n).fragment = n.fragment := by
  cases n; rfl

theorem fragment_add (c n : node V) : (node.add c n).fragment = n.fragment := by
  cases n; rfl

theorem fragment_del (a b : node_ptr) (n : node V) : (node.del a b n).fragment = n.fragment := by
  cases n
  simp only [node.del]
  split <;> rfl

/-- The root of a new trie has an empty fragment. -/
theorem root_fragment_new [ValueT V] {d : Char} :
    (trie_t.new : trie_t V d).root.fragment = [] := rfl

/-- The member `removed_fully` leaves the fragment of the root as it is. -/
theorem fragment_removed_fully [ValueT V] (root : node V) (ret : return_s V) (ic : Bool)
    (nd : weak_node_ptr) (parents : Option (List weak_node_ptr)) (en : errno_t) :
    (node.removed_fully root ret ic nd parents en).2.fragment = root.fragment := by
  unfold node.removed_fully
  split
  · have h1 := fun p => fragment_modify_at (node.set_value ret.old) (fragment_set_value ret.old)
      p root
    split
    · split
      · split
        · simp only
          split
          · simp only
            rw [fragment_modify_at _ (fragment_del _ _), h1]
          · exact h1 _
        · exact h1 _
      · exact h1 _
    · exact h1 _
  · rfl

/-- The member `remove` leaves the fragment of the root as it is. -/
theorem root_fragment_remove [ValueT V] {d : Char} (t : trie_t V d)
    (path : Option (List Char)) (ic : Bool) :
    (t.remove path ic).2.root.fragment = t.root.fragment := by
  simp only [trie_t.remove, node.remove]
  split
  · exact fragment_removed_fully _ _ _ _ _ _
  · split
    · split
      · split
        · exact fragment_removed_fully _ _ _ _ _ _
        · rfl
      · rfl
    · rfl

/-- The member `insert` keeps the fragment of the root empty. -/
theorem root_fragment_insert [ValueT V] {d : Char} (t : trie_t V d)
    (path : Option (List Char)) (v : V) (hroot : t.root.fragment = []) :
    (t.insert path v).2.root.fragment = [] := by
  rw [trie_insert_root]
  cases path with
  | none => simpa [node.insert] using hroot
  | some k =>
    rcases total_node t.root k with hM | ⟨s, pms, m, hH⟩
    · rcases ht : t.root with ⟨ty, p, fr, v0, cs⟩
      rw [ht] at hM hroot
      simp only [node.fragment] at hroot
      subst hroot
      rw [insert_of_miss _ _ _ _ _ _ hM]
      rfl
    · have hs := hit_ne_nil_of_root hH hroot
      obtain ⟨N, hN, _, _⟩ := hit_get_at hH
      rcases hit_touched hH with ⟨hm, hp⟩ | ⟨hm, hp⟩
      · subst hm hp
        rw [insert_of_matched _ _ _ _ _ hH hN, fragment_modify_at_cons _ s hs, hroot]
      · subst hm
        by_cases hend : N.fragment.length - pms = 0
        · rw [insert_of_stop_end _ _ _ _ _ _ hH hN hend, fragment_modify_at_cons _ s hs, hroot]
        · rw [insert_of_stop_inside _ _ _ _ _ _ hH hN hend, fragment_modify_at_cons _ s hs,
            hroot]

/-- The member `removed_fully` with `include_children = false`: the value of the node is
swapped out and the call is refused. -/
theorem removed_fully_refused [ValueT V] (root : node V) (ret : return_s V) (p : List Nat)
    (N : node V) (parents : Option (List weak_node_ptr)) (en : errno_t)
    (hN : root.get_at p = some N) :
    node.removed_fully root ret false (some p) parents en =
      ({ ok := ret.ok, en := EISDIR, old := N.value },
        node.modify_at (node.set_value ret.old) p root) := by
  simp [node.removed_fully, node.lock, hN]

/-- The lookup of `locate` on the root, in terms of the traversal relations. -/
theorem locate_cases (root : node V) (q : List Char) :
    (Miss root q ∧ root.locate (some q) = {}) ∨
    ∃ s pms m N, Hit root q s pms m ∧ root.get_at s = some N ∧ N.fragment ≠ [] ∧
      pms ≤ N.fragment.length ∧ ((m = true ∧ pms = 0) ∨ (m = false ∧ 0 < pms)) ∧
      (root.locate (some q)).partial_matched_size = pms ∧
      (root.locate (some q)).ptr = some s ∧
      (root.locate (some q)).en = 0 ∧
      (root.locate (some q)).matched = m ∧
      (root.locate (some q)).parents = some [parent_of [] none s] := by
  rcases locate_spec root q [] none with ⟨hM, hl⟩ | ⟨s, pms, m, hH, hl⟩
  · exact Or.inl ⟨hM, hl⟩
  · obtain ⟨N, hN, hf, hle⟩ := hit_get_at hH
    refine Or.inr ⟨s, pms, m, N, hH, hN, hf, hle, hit_touched hH, ?_⟩
    simp [node.locate, hl, hit_result]

theorem locate_none (root : node V) : root.locate none = {} := by
  cases root; simp [node.locate, node.locate_internal]

/-- The error code of `locate` is always 0. -/
theorem locate_en (root : node V) (path : Option (List Char)) : (root.locate path).en = 0 := by
  cases path with
  | none => rw [locate_none]
  | some q =>
    rcases locate_cases root q with ⟨_, hl⟩ | ⟨s, pms, m, N, _, _, _, _, _, _, _, he, _⟩
    · rw [hl]
    · exact he

theorem get_at_below_modify_at (f : node V → node V) (p q : List Nat) (root N M : node V)
    (hN : root.get_at p = some N) (hf : (f N).children = N.children) (hq : q ≠ [])
    (hM : N.get_at q = some M) : (node.modify_at f p root).get_at (p ++ q) = some M := by
  rw [get_at_append, get_at_modify_at f p root N hN]
  cases q with
  | nil => exact absurd rfl hq
  | cons j q =>
    cases N with
    | mk t pa fr v cs =>
      cases hfn : f (node.mk t pa fr v cs) with
      | mk t2 pa2 fr2 v2 cs2 =>
        rw [hfn] at hf
        simp only [node.children] at hf
        subst hf
        simpa [node.get_at] using hM

/-- The lookup of `fast_find` on the root, in terms of the traversal relations. -/
theorem fast_find_cases (root : node V) (q : List Char) :
    (Miss root q ∧ root.fast_find (some q) = {}) ∨
    ∃ s pms m N, Hit root q s pms m ∧ root.get_at s = some N ∧ N.fragment ≠ [] ∧
      pms ≤ N.fragment.length ∧ ((m = true ∧ pms = 0) ∨ (m = false ∧ 0 < pms)) ∧
      root.fast_find (some q) =
        { partial_matched_size := pms, ptr := some s, en := 0, matched := m } := by
  rcases total_node root q with hM | ⟨s, pms, m, hH⟩
  · exact Or.inl ⟨hM, by rw [fast_find_eq_find, find_of_miss root q hM]⟩
  · obtain ⟨N, hN, hf, hle⟩ := hit_get_at hH
    exact Or.inr ⟨s, pms, m, N, hH, hN, hf, hle, hit_touched hH,
      fast_find_of_hit root q s pms m hH⟩

theorem fast_find_none (root : node V) : root.fast_find none = {} := rfl

theorem value_modify_at_cons (f : node V → node V) (s : List Nat) (hs : s ≠ [])
    (n : node V) : (node.modify_at f s n).value = n.value := by
  cases s with
  | nil => exact absurd rfl hs
  | cons j p => cases n; rfl

theorem value_del (a b : node_ptr) (n : node V) : (node.del a b n).value = n.value := by
  cases n
  simp only [node.del]
  split <;> rfl

theorem value_modify_at (f : node V → node V) (hf : ∀ n, (f n).value = n.value)
    (p : List Nat) (n : node V) : (node.modify_at f p n).value = n.value := by
  cases p with
  | nil => simpa [node.modify_at] using hf n
  | cons j p => cases n; rfl

theorem value_modify_at_set_value (v : V) (p : List Nat) (n : node V) (h : n.value = v) :
    (node.modify_at (node.set_value v) p n).value = v := by
  cases p with
  | nil => cases n; rfl
  | cons j p => cases n; exact h

/-- The member `removed_fully`, called with an empty `ret.old`, leaves an empty value at
the root. -/
theorem value_removed_fully [ValueT V] (root : node V) (ret : return_s V) (ic : Bool)
    (nd : weak_node_ptr) (parents : Option (List weak_node_ptr)) (en : errno_t)
    (hret : ret.old = default) (hv : root.value = default) :
    (node.removed_fully root ret ic nd parents en).2.value = default := by
  unfold node.removed_fully
  split
  · have h1 := fun p => value_modify_at_set_value ret.old p root (by rw [hv, hret])
    simp only [hret] at h1 ⊢
    split
    · split
      · split
        · split
          · simp only
            rw [value_modify_at _ (value_del _ _), h1]
          · exact h1 _
        · exact h1 _
      · exact h1 _
    · exact h1 _
  · exact hv

/-- The member `remove` keeps the value of the root empty. -/
theorem root_value_remove [ValueT V] {d : Char} (t : trie_t V d)
    (path : Option (List Char)) (ic : Bool) (hv : t.root.value = default) :
    (t.remove path ic).2.root.value = default := by
  simp only [trie_t.remove, node.remove]
  split
  · exact value_removed_fully _ _ _ _ _ _ rfl hv
  · split
    · split
      · split
        · exact value_removed_fully _ _ _ _ _ _ rfl hv
        · exact hv
      · exact hv
    · exact hv

/-- The member `insert` keeps the value of the root empty. -/
theorem root_value_insert [ValueT V] {d : Char} (t : trie_t V d)
    (path : Option (List Char)) (v : V) (hroot : t.root.fragment = [])
    (hv : t.root.value = default) :
    (t.insert path v).2.root.value = default := by
  rw [trie_insert_root]
  cases path with
  | none => simpa [node.insert] using hv
  | some k =>
    rcases total_node t.root k with hM | ⟨s, pms, m, hH⟩
    · rcases ht : t.root with ⟨ty, p, fr, v0, cs⟩
      rw [ht] at hM hroot
      simp only [node.fragment] at hroot
      subst hroot
      rw [insert_of_miss _ _ _ _ _ _ hM]
      rfl
    · have hs := hit_ne_nil_of_root hH hroot
      obtain ⟨N, hN, _, _⟩ := hit_get_at hH
      rcases hit_touched hH with ⟨hm, hp⟩ | ⟨hm, hp⟩
      · subst hm hp
        rw [insert_of_matched _ _ _ _ _ hH hN, value_modify_at_cons _ s hs, hv]
      · subst hm
        by_cases hend : N.fragment.length - pms = 0
        · rw [insert_of_stop_end _ _ _ _ _ _ hH hN hend, value_modify_at_cons _ s hs, hv]
        · rw [insert_of_stop_inside _ _ _ _ _ _ hH hN hend, value_modify_at_cons _ s hs, hv]

/-- In a trie the operations produce, the root has an empty fragment and an empty value. -/
theorem root_of_reachable [ValueT V] {d : Char} (t : trie_t V d) (h : reachable t) :
    t.root.fragment = [] ∧ t.root.value = default := by
  induction h with
  | new => exact ⟨rfl, rfl⟩
  | insert t path v _ ih =>
    exact ⟨root_fragment_insert t path v ih.1, root_value_insert t path v ih.1 ih.2⟩
  | remove t path ic _ ih =>
    exact ⟨by rw [root_fragment_remove]; exact ih.1, root_value_remove t path ic ih.2⟩

theorem reachable_insert_all [ValueT V] {d : Char} (t : trie_t V d) (kvs : List (String × V))
    (h : reachable t) : reachable (t.insert_all kvs) := by
  induction kvs generalizing t with
  | nil => simpa [trie_t.insert_all] using h
  | cons kv kvs ih =>
    obtain ⟨k, v⟩ := kv
    rw [trie_t.insert_all]
    exact ih _ (reachable.insert t (c_str k) v h)

theorem reachable_sample_nat : reachable sample_nat :=
  reachable_insert_all _ _ reachable.new

mutual
theorem walk_internal_count_leaves : ∀ (n : node V) (self : node_ptr) (index level : Nat),
    ((node.walk_internal n self index level).filter
      (fun c => decide (c.type = NodeType.NODE_LEAF))).length = node.count_leaves n
  | node.mk t p f v cs, self, index, level => by
    simp only [node.walk_internal, node.count_leaves, List.filter_append, List.length_append]
    rw [walk_children_count_leaves cs self 0 (level + 1)]
    congr 1
    cases t <;> simp
theorem walk_children_count_leaves : ∀ (cs : List (node V)) (self : node_ptr) (idx level : Nat),
    ((node.walk_children cs self idx level).filter
      (fun c => decide (c.type = NodeType.NODE_LEAF))).length = node.children_count_leaves cs
  | [], _, _, _ => by simp [node.walk_children, node.children_count_leaves]
  | c :: cs, self, idx, level => by
    simp only [node.walk_children, node.children_count_leaves, List.filter_append,
      List.length_append]
    rw [walk_internal_count_leaves c (self ++ [idx]) idx level,
      walk_children_count_leaves cs self (idx + 1) level]
end

theorem getLast?_cons_getD (j : Nat) (r : List Nat) (x : Nat) :
    (j :: r).getLast?.getD x = r.getLast?.getD j := by
  cases r with
  | nil => simp
  | cons a r =>
    rw [List.getLast?_cons_cons]
    cases h : (a :: r).getLast? with
    | none => simp at h
    | some y => rfl

mutual
/-- Every callback invocation of `walk_internal` is for a node below the one it is called
on, with the kind of that node, its level and its index. -/
theorem walk_internal_sound : ∀ (n : node V) (self : node_ptr) (index level : Nat)
    (c : node.walk_call), c ∈ node.walk_internal n self index level →
    ∃ r N, c.ptr = self ++ r ∧ n.get_at r = some N ∧ N.type ≠ NodeType.NODE_NONE ∧
      c.type = N.type ∧ c.level = level + r.length ∧ c.index = r.getLast?.getD index
  | node.mk t p f v cs, self, index, level, c, hc => by
    simp only [node.walk_internal, List.mem_append] at hc
    rcases hc with hc | hc
    · by_cases ht : t = NodeType.NODE_NONE
      · simp [ht] at hc
      · simp only [ne_eq, ht, not_false_eq_true, if_true, List.mem_singleton] at hc
        subst hc
        exact ⟨[], _, by simp, rfl, ht, rfl, rfl, rfl⟩
    · obtain ⟨j, ch, r, N, hj, hp, hN, hne, hty, hl, hi⟩ :=
        walk_children_sound cs self 0 (level + 1) c hc
      simp only [Nat.zero_add] at hp hi
      refine ⟨j :: r, N, hp, ?_, hne, hty, ?_, ?_⟩
      · simp [node.get_at, hj, hN]
      · simp [hl]; omega
      · rw [getLast?_cons_getD]; exact hi
theorem walk_children_sound : ∀ (cs : List (node V)) (self : node_ptr) (idx level : Nat)
    (c : node.walk_call), c ∈ node.walk_children cs self idx level →
    ∃ j ch r N, cs[j]? = some ch ∧ c.ptr = self ++ (idx + j) :: r ∧ ch.get_at r = some N ∧
      N.type ≠ NodeType.NODE_NONE ∧ c.type = N.type ∧ c.level = level + r.length ∧
      c.index = r.getLast?.getD (idx + j)
  | [], _, _, _, c, hc => by simp [node.walk_children] at hc
  | ch :: cs, self, idx, level, c, hc => by
    simp only [node.walk_children, List.mem_append] at hc
    rcases hc with hc | hc
    · obtain ⟨r, N, hp, hN, hne, hty, hl, hi⟩ :=
        walk_internal_sound ch (self ++ [idx]) idx level c hc
      exact ⟨0, ch, r, N, by simp, by simp [hp], hN, hne, hty, hl, by simpa using hi⟩
    · obtain ⟨j, ch2, r, N, hj, hp, hN, hne, hty, hl, hi⟩ :=
        walk_children_sound cs self (idx + 1) level c hc
      refine ⟨j + 1, ch2, r, N, by simp [hj], ?_, hN, hne, hty, hl, ?_⟩
      · rw [hp]; congr 2; omega
      · rw [hi]; congr 1; omega
end

mutual
/-- Every node of kind other than NODE_NONE below a node gets a callback invocation of
`walk_internal`. -/
theorem walk_internal_complete : ∀ (n : node V) (self : node_ptr) (index level : Nat)
    (r : List Nat) (N : node V), n.get_at r = some N → N.type ≠ NodeType.NODE_NONE →
    ∃ c ∈ node.walk_internal n self index level, c.ptr = self ++ r
  | node.mk t p f v cs, self, index, level, r, N, hN, hne => by
    cases r with
    | nil =>
      simp only [node.get_at, Option.some.injEq] at hN
      subst hN
      simp only [node.type] at hne
      exact ⟨⟨t, self, index, level⟩, by simp [node.walk_internal, hne], by simp⟩
    | cons j r =>
      simp only [node.get_at] at hN
      cases hj : cs[j]? with
      | none => simp [hj] at hN
      | some ch =>
        simp only [hj] at hN
        obtain ⟨c, hc, hp⟩ := walk_children_complete cs self 0 (level + 1) j ch r N hj hN hne
        exact ⟨c, by simp [node.walk_internal, hc], by simpa using hp⟩
theorem walk_children_complete : ∀ (cs : List (node V)) (self : node_ptr) (idx level : Nat)
    (j : Nat) (ch : node V) (r : List Nat) (N : node V), cs[j]? = some ch →
    ch.get_at r = some N → N.type ≠ NodeType.NODE_NONE →
    ∃ c ∈ node.walk_children cs self idx level, c.ptr = self ++ (idx + j) :: r
  | [], _, _, _, j, ch, r, N, hj, _, _ => by simp at hj
  | c0 :: cs, self, idx, level, j, ch, r, N, hj, hN, hne => by
    cases j with
    | zero =>
      simp only [List.getElem?_cons_zero, Option.some.injEq] at hj
      subst hj
      obtain ⟨c, hc, hp⟩ := walk_internal_complete c0 (self ++ [idx]) idx level r N hN hne
      exact ⟨c, by simp [node.walk_children, hc], by simp [hp]⟩
    | succ j =>
      simp only [List.getElem?_cons_succ] at hj
      obtain ⟨c, hc, hp⟩ := walk_children_complete cs self (idx + 1) level j ch r N hj hN hne
      refine ⟨c, by simp [node.walk_children, hc], ?_⟩
      rw [hp]; congr 2; omega
end

theorem lex_below (self : List Nat) (j : Nat) (r : List Nat) :
    List.Lex (· < ·) self (self ++ j :: r) := by
  have h := List.Lex.append_left (· < ·) (List.Lex.nil : List.Lex (· < ·) [] (j :: r)) self
  simpa using h

theorem lex_siblings (self : List Nat) (i j : Nat) (r r2 : List Nat) (h : i < j) :
    List.Lex (· < ·) (self ++ i :: r) (self ++ j :: r2) :=
  List.Lex.append_left (· < ·) (List.Lex.rel h) self

mutual
/-- The callback invocations of `walk_internal` come in the lexicographic order of the
positions of their nodes. -/
theorem walk_internal_sorted : ∀ (n : node V) (self : node_ptr) (index level : Nat),
    (node.walk_internal n self index level).Pairwise
      (fun a b => List.Lex (· < ·) a.ptr b.ptr)
  | node.mk t p f v cs, self, index, level => by
    simp only [node.walk_internal]
    rw [List.pairwise_append]
    refine ⟨?_, walk_children_sorted cs self 0 (level + 1), ?_⟩
    · by_cases ht : t = NodeType.NODE_NONE <;> simp [ht]
    · intro a ha b hb
      by_cases ht : t = NodeType.NODE_NONE
      · simp [ht] at ha
      · simp only [ne_eq, ht, not_false_eq_true, if_true, List.mem_singleton] at ha
        subst ha
        obtain ⟨j, ch, r, N, _, hp, _⟩ := walk_children_sound cs self 0 (level + 1) b hb
        rw [hp]
        exact lex_below self _ r
theorem walk_children_sorted : ∀ (cs : List (node V)) (self : node_ptr) (idx level : Nat),
    (node.walk_children cs self idx level).Pairwise
      (fun a b => List.Lex (· < ·) a.ptr b.ptr)
  | [], _, _, _ => by simp [node.walk_children]
  | ch :: cs, self, idx, level => by
    simp only [node.walk_children]
    rw [List.pairwise_append]
    refine ⟨walk_internal_sorted ch (self ++ [idx]) idx level,
      walk_children_sorted cs self (idx + 1) level, ?_⟩
    intro a ha b hb
    obtain ⟨r, N, hp, _⟩ := walk_internal_sound ch (self ++ [idx]) idx level a ha
    obtain ⟨j, ch2, r2, N2, _, hp2, _⟩ := walk_children_sound cs self (idx + 1) level b hb
    rw [hp, hp2, List.append_assoc]
    exact lex_siblings self idx (idx + 1 + j) r r2 (by omega)
end

theorem lex_lt_ne (a b : List Nat) (h : List.Lex (· < ·) a b) : a ≠ b :=
  List.Lex.to_ne (List.Lex.imp (fun _ _ h => Nat.ne_of_lt h) a b h)

theorem children_paths_ok_iff (p : List Char) (cs : List (node V)) :
    node.children_paths_ok p cs = true ↔ ∀ c ∈ cs, node.paths_ok p c = true := by
  induction cs with
  | nil => simp [node.children_paths_ok]
  | cons a cs ih => simp [node.children_paths_ok, ih]

theorem children_frags_ok_iff (cs : List (node V)) :
    node.children_frags_ok cs = true ↔
      ∀ c ∈ cs, c.fragment ≠ [] ∧ node.frags_ok c = true := by
  induction cs with
  | nil => simp [node.children_frags_ok]
  | cons a cs ih => simp [node.children_frags_ok, ih, and_assoc]

/-- A change to the node at a position keeps the full-path invariant when it keeps it at
that node. -/
theorem paths_ok_modify_at (f : node V → node V) (s : List Nat) (root N : node V)
    (pre : List Char) (h : node.paths_ok pre root = true) (hN : root.get_at s = some N)
    (hf : ∀ pre2, node.paths_ok pre2 N = true → node.paths_ok pre2 (f N) = true) :
    node.paths_ok pre (node.modify_at f s root) = true := by
  induction s generalizing root pre with
  | nil =>
    simp only [node.get_at, Option.some.injEq] at hN
    subst hN
    exact hf pre h
  | cons j s ih =>
    cases root with
    | mk t p fr v cs =>
      simp only [node.get_at] at hN
      cases hc : cs[j]? with
      | none => simp [hc] at hN
      | some c =>
        simp only [hc] at hN
        obtain ⟨pre1, post, e, hl⟩ := split_at_index cs j c hc
        subst e hl
        simp only [node.paths_ok, Bool.and_eq_true, decide_eq_true_eq] at h
        simp only [node.modify_at, modify_append_eq, node.paths_ok, Bool.and_eq_true,
          decide_eq_true_eq]
        refine ⟨h.1, ?_⟩
        have hall := (children_paths_ok_iff p _).mp h.2
        rw [children_paths_ok_iff]
        intro x hx
        simp only [List.mem_append, List.mem_cons] at hx
        rcases hx with hx | rfl | hx
        · exact hall x (by simp [hx])
        · exact ih c p (hall c (by simp)) hN
        · exact hall x (by simp [hx])

theorem head_modify_at (f : node V → node V) (s : List Nat) (root N : node V)
    (hN : root.get_at s = some N) (hh : (f N).fragment.head? = N.fragment.head?) :
    (node.modify_at f s root).fragment.head? = root.fragment.head? := by
  cases s with
  | nil =>
    simp only [node.get_at, Option.some.injEq] at hN
    subst hN
    exact hh
  | cons j s => cases root; rfl

theorem ne_nil_of_head_eq {a b : List Char} (h : a.head? = b.head?) (hb : b ≠ []) : a ≠ [] := by
  intro ha
  subst ha
  cases b with
  | nil => exact hb rfl
  | cons x b => simp at h

/-- A change to the node at a position keeps the radix compaction invariant when the
changed node satisfies it and its fragment starts as before. -/
theorem frags_ok_modify_at (f : node V → node V) (s : List Nat) (root N : node V)
    (h : node.frags_ok root = true) (hN : root.get_at s = some N)
    (hf : node.frags_ok (f N) = true)
    (hh : (f N).fragment.head? = N.fragment.head?) :
    node.frags_ok (node.modify_at f s root) = true := by
  induction s generalizing root with
  | nil =>
    simp only [node.get_at, Option.some.injEq] at hN
    subst hN
    exact hf
  | cons j s ih =>
    cases root with
    | mk t p fr v cs =>
      simp only [node.get_at] at hN
      cases hc : cs[j]? with
      | none => simp [hc] at hN
      | some c =>
        simp only [hc] at hN
        obtain ⟨pre1, post, e, hl⟩ := split_at_index cs j c hc
        subst e hl
        simp only [node.frags_ok, Bool.and_eq_true, decide_eq_true_eq] at h
        have hhead := head_modify_at f s c N hN hh
        simp only [node.modify_at, modify_append_eq, node.frags_ok, Bool.and_eq_true,
          decide_eq_true_eq]
        constructor
        · have := h.1
          simp only [List.map_append, List.map_cons] at this ⊢
          rw [hhead]
          exact this
        · have hall := (children_frags_ok_iff _).mp h.2
          rw [children_frags_ok_iff]
          intro x hx
          simp only [List.mem_append, List.mem_cons] at hx
          rcases hx with hx | rfl | hx
          · exact hall x (by simp [hx])
          · exact ⟨ne_nil_of_head_eq hhead (hall c (by simp)).1, ih c (hall c (by simp)).2 hN⟩
          · exact hall x (by simp [hx])

/-- A query that misses a node with a non-empty fragment starts with another character. -/
theorem head_ne_of_miss (c : node V) (q : List Char) (h : Miss c q) (hc : c.fragment ≠ [])
    (hq : q ≠ []) : c.fragment.head? ≠ q.head? := by
  cases h with
  | hollow t p v cs q _ => exact absurd rfl hc
  | no_match t p frag v cs q hf h0 =>
    simp only [node.fragment]
    rw [cpl_eq_lcp] at h0
    cases frag with
    | nil => exact absurd rfl hf
    | cons x frag =>
      cases q with
      | nil => exact absurd rfl hq
      | cons y q =>
        simp only [List.head?_cons, ne_eq, Option.some.injEq]
        intro hxy
        subst hxy
        simp [lcp] at h0

/-- The children of a node keep the radix compaction invariant when a leaf is added whose
fragment is the rest of a query that misses all of them. -/
theorem frags_ok_add_leaf (t : NodeType) (p fr : List Char) (v : V) (cs : List (node V))
    (lp lf : List Char) (val : V)
    (h : node.frags_ok (node.mk t p fr v cs) = true) (hlf : lf ≠ [])
    (hmiss : ∀ c ∈ cs, Miss c lf) (t2 : NodeType) (v2 : V) :
    node.frags_ok (node.mk t2 p fr v2 (cs ++ [node.mk NodeType.NODE_LEAF lp lf val []]))
      = true := by
  simp only [node.frags_ok, Bool.and_eq_true, decide_eq_true_eq] at h ⊢
  have hall := (children_frags_ok_iff _).mp h.2
  constructor
  · simp only [List.map_append, List.map_cons, List.map_nil, node.fragment]
    rw [List.nodup_append]
    refine ⟨h.1, by simp, ?_⟩
    intro a ha hb
    simp only [List.mem_singleton] at hb
    subst hb
    simp only [List.mem_map] at ha
    obtain ⟨c, hc, hce⟩ := ha
    exact head_ne_of_miss c lf (hmiss c hc) (hall c hc).1 hlf hce
  · rw [children_frags_ok_iff]
    intro x hx
    simp only [List.mem_append, List.mem_singleton] at hx
    rcases hx with hx | rfl
    · exact hall x hx
    · exact ⟨hlf, by simp [node.frags_ok, node.children_frags_ok]⟩

theorem frags_ok_of_get_at (n : node V) (s : List Nat) (N : node V)
    (h : node.frags_ok n = true) (hN : n.get_at s = some N) : node.frags_ok N = true := by
  induction s generalizing n with
  | nil =>
    simp only [node.get_at, Option.some.injEq] at hN
    subst hN
    exact h
  | cons j s ih =>
    cases n with
    | mk t p f v cs =>
      simp only [node.get_at] at hN
      cases hc : cs[j]? with
      | none => simp [hc] at hN
      | some c =>
        simp only [hc] at hN
        simp only [node.frags_ok, Bool.and_eq_true, decide_eq_true_eq] at h
        exact ih c (children_frags_ok_mem _ c h.2 (List.getElem?_mem hc)).2 hN

/-- The invariants of the data model are kept by an insert that satisfies `insert_clean`:
the root has an empty fragment, every node has its full path, and the fragments of the
children of a node are non-empty and start with different characters. -/
theorem insert_keeps_invariants [ValueT V] (root : node V) (k : List Char) (val : V)
    (hroot : root.fragment = []) (hpaths : node.paths_ok [] root = true)
    (hfrags : node.frags_ok root = true) (hk : k ≠ [])
    (hclean : ∀ s pms N, Hit root k s pms false → root.get_at s = some N →
      substr_head N.path (N.fragment.length - pms) <+: k ∧
      (substr_head N.path (N.fragment.length - pms)).length < k.length ∧
      (pms < N.fragment.length → N.children = [])) :
    node.paths_ok [] (root.insert (some k) val).2 = true ∧
    node.frags_ok (root.insert (some k) val).2 = true := by
  rcases total_node root k with hM | ⟨s, pms, m, hH⟩
  · cases root with
    | mk t p frag v cs =>
      simp only [node.fragment] at hroot
      subst hroot
      rw [insert_of_miss t p v cs k val hM]
      have hcs : ∀ c ∈ cs, Miss c k := by
        cases hM with
        | no_match _ _ _ _ _ _ hf _ => exact absurd rfl hf
        | hollow _ _ _ _ _ h => exact h
      constructor
      · simp only [node.paths_ok, Bool.and_eq_true, decide_eq_true_eq] at hpaths ⊢
        refine ⟨hpaths.1, ?_⟩
        have hall := (children_paths_ok_iff p cs).mp hpaths.2
        rw [children_paths_ok_iff]
        intro x hx
        simp only [List.mem_append, List.mem_singleton] at hx
        rcases hx with hx | rfl
        · exact hall x hx
        · have hp : p = [] := by simpa using hpaths.1
          simp [node.paths_ok, node.children_paths_ok, hp]
      · exact frags_ok_add_leaf t p [] v cs k k val hfrags hk hcs _ _
  · obtain ⟨N, qN, c, hN, hHN, hq, hpre, hmod⟩ := hit_route hH
    cases m with
    | true =>
      have hp0 : pms = 0 := by
        rcases (hit_touched hH) with ⟨_, h⟩ | ⟨h, _⟩
        · exact h
        · simp at h
      subst hp0
      rw [insert_of_matched root k val s N hH hN]
      constructor
      · apply paths_ok_modify_at _ s root N [] hpaths hN
        intro pre2 h2
        cases N
        simpa [node.set_value, node.paths_ok] using h2
      · apply frags_ok_modify_at _ s root N hfrags hN
        · have := hfrags
          cases N
          have h3 := frags_ok_of_get_at root s _ hfrags hN
          simpa [node.set_value, node.frags_ok] using h3
        · cases N; rfl
    | false =>
      obtain ⟨hsh, hshlt, hch⟩ := hclean s pms N hH hN
      have hpath := path_of_get_at root s N [] hpaths hN
      simp only [List.nil_append] at hpath
      have hNok := frags_ok_of_get_at root s N hfrags hN
      obtain ⟨tN, pN, fN, vN, csN, hNe, hpms, hpos, hcase⟩ := hit_nil_false_inv hHN
      subst hNe
      simp only [node.path, node.fragment, node.children] at hsh hshlt hch hpath
      have hle : pms ≤ fN.length := by rw [hpms]; exact cpl_le_left fN qN
      have hshe : substr_head pN (fN.length - pms) = route_frags root s ++ fN.take pms := by
        rw [hpath]; exact substr_head_path _ _ _ hle
      rw [hshe] at hsh hshlt
      have hc : c = route_frags root s := hpre _ hsh
      subst hc
      have hklen : k.length = (route_frags root s).length + qN.length := by
        rw [hq]; simp
      have hlt : pms < qN.length := by
        simp at hshlt; omega
      by_cases hend : fN.length - pms = 0
      · have hfull : pms = fN.length := by omega
        rw [insert_of_stop_end root k val s pms _ hH hN (by simpa [node.fragment] using hend)]
        have hdrop : k.drop pN.length = qN.drop fN.length := by
          rw [hq, hpath]
          simp [List.drop_append]
        simp only [node.path, hdrop]
        have hmiss : ∀ c ∈ csN, Miss c (qN.drop fN.length) := by
          rcases hcase with h | ⟨_, _, h⟩
          · omega
          · rw [← hpms, hfull] at h; exact h
        have hne : qN.drop fN.length ≠ [] := by
          intro h
          have := congrArg List.length h
          simp at this; omega
        constructor
        · apply paths_ok_modify_at _ s root _ [] hpaths hN
          intro pre2 h2
          simp only [node.add, node.paths_ok, Bool.and_eq_true, decide_eq_true_eq] at h2 ⊢
          refine ⟨h2.1, ?_⟩
          have hall := (children_paths_ok_iff pN csN).mp h2.2
          rw [children_paths_ok_iff]
          intro x hx
          simp only [List.mem_append, List.mem_singleton] at hx
          rcases hx with hx | rfl
          · exact hall x hx
          · simp only [node.paths_ok, node.children_paths_ok, Bool.and_true, decide_eq_true_eq]
            rw [← hdrop]
            obtain ⟨Y, hY⟩ : pN <+: k := by
              rw [hfull] at hsh; simpa [hpath] using hsh
            rw [← hY]; simp
        · apply frags_ok_modify_at _ s root _ hfrags hN
          · simp only [node.add]
            exact frags_ok_add_leaf tN pN fN vN csN k _ val hNok hne hmiss _ _
          · rfl
      · have hin : pms < fN.length := by omega
        have hnil : csN = [] := hch hin
        subst hnil
        rw [insert_of_stop_inside root k val s pms _ hH hN (by simpa [node.fragment] using hend)]
        have hdrop : k.drop (route_frags root s ++ fN.take pms).length = qN.drop pms := by
          rw [hq]
          have : (route_frags root s ++ fN.take pms).length =
              (route_frags root s).length + pms := by
            simp; omega
          rw [this]
          simp [List.drop_append]
        simp only [node.path, node.fragment, node.value, hshe, hdrop]
        have hne1 : fN.drop pms ≠ [] := by
          intro h
          have := congrArg List.length h
          simp at this; omega
        have hne2 : qN.drop pms ≠ [] := by
          intro h
          have := congrArg List.length h
          simp at this; omega
        constructor
        · apply paths_ok_modify_at _ s root _ [] hpaths hN
          intro pre2 h2
          simp only [node.paths_ok, Bool.and_eq_true, decide_eq_true_eq] at h2
          have hp2 : pN = pre2 ++ fN := h2.1
          have hpre2 : pre2 = route_frags root s := by
            have := hp2.symm.trans hpath
            exact List.append_cancel_right this
          simp only [node.add, node.set_type, node.set_fragment, node.set_path, node.set_value,
            node.paths_ok, node.children_paths_ok, List.nil_append, List.cons_append,
            Bool.and_true, Bool.and_eq_true, decide_eq_true_eq]
          refine ⟨by rw [hpre2], ?_, ?_⟩
          · rw [hpath, List.append_assoc, List.take_append_drop]
          · rw [← hdrop]
            obtain ⟨Y, hY⟩ := hsh
            rw [← hY]; simp
        · apply frags_ok_modify_at _ s root _ hfrags hN
          · have hd := lcp_get_ne fN qN (by rw [← cpl_eq_lcp, ← hpms]; exact hin)
              (by rw [← cpl_eq_lcp, ← hpms]; exact hlt)
            rw [← cpl_eq_lcp, ← hpms] at hd
            have hd2 : ¬ fN[pms] = qN[pms] := by
              intro h
              apply hd
              rw [List.getElem?_eq_getElem hin, List.getElem?_eq_getElem hlt, h]
            simp [node.add, node.set_type, node.set_fragment, node.set_path, node.set_value,
              node.frags_ok, node.children_frags_ok, node.fragment, hd2, hin, hlt]
          · simp only [node.add, node.set_type, node.set_fragment, node.set_path, node.set_value,
              node.fragment]
            cases fN with
            | nil => simp at hin
            | cons x fN =>
              cases pms with
              | zero => omega
              | succ pms => simp

/-- What `insert_clean` says about the lookup of the key, in terms of the traversal
relation. -/
theorem clean_of_insert_clean {d : Char} (t : trie_t V d) (k : List Char)
    (h : t.insert_clean k = true) :
    k ≠ [] ∧ ∀ s pms N, Hit t.root k s pms false → t.root.get_at s = some N →
      substr_head N.path (N.fragment.length - pms) <+: k ∧
      (substr_head N.path (N.fragment.length - pms)).length < k.length ∧
      (pms < N.fragment.length → N.children = []) := by
  simp only [trie_t.insert_clean, Bool.and_eq_true, decide_eq_true_eq, Bool.or_eq_true] at h
  refine ⟨h.1, ?_⟩
  intro s pms N hH hN
  have hff := fast_find_of_hit t.root k s pms false hH
  simp only [trie_t.fast_find, hff, node.lock, hN, Bool.false_eq_true, false_or,
    Bool.and_eq_true, decide_eq_true_eq, Bool.or_eq_true, node.children_count] at h
  obtain ⟨_, ⟨h1, h2⟩, h3⟩ := h
  refine ⟨h1, h2, ?_⟩
  intro hlt
  rcases h3 with h3 | h3
  · omega
  · exact List.length_eq_zero.mp h3

/-- The tries made by clean inserts satisfy the invariants of the data model. -/
theorem invariants_of_clean_built [ValueT V] {d : Char} (t : trie_t V d) (h : clean_built t) :
    t.root.fragment = [] ∧ node.paths_ok [] t.root = true ∧ node.frags_ok t.root = true := by
  induction h with
  | new =>
    refine ⟨rfl, ?_, ?_⟩
    · simp [trie_t.new, node.empty, node.paths_ok, node.children_paths_ok]
    · simp [trie_t.new, node.empty, node.frags_ok, node.children_frags_ok]
  | insert t k v _ hc ih =>
    obtain ⟨hk, hclean⟩ := clean_of_insert_clean t k hc
    have := insert_keeps_invariants t.root k v ih.1 ih.2.1 ih.2.2 hk hclean
    rw [trie_insert_root]
    exact ⟨by rw [← trie_insert_root]; exact root_fragment_insert t (some k) v ih.1,
      this.1, this.2⟩

theorem clean_built_insert_all [ValueT V] {d : Char} (t : trie_t V d) (kvs : List (String × V))
    (h : clean_built t) (hc : t.insert_all_clean kvs = true) : clean_built (t.insert_all kvs) := by
  induction kvs generalizing t with
  | nil => simpa [trie_t.insert_all] using h
  | cons kv kvs ih =>
    obtain ⟨k, v⟩ := kv
    simp only [trie_t.insert_all_clean, Bool.and_eq_true] at hc
    rw [trie_t.insert_all]
    exact ih _ (clean_built.insert t k.data v h hc.1) hc.2

theorem head_of_common_pre (x a b : List Char) (hx : x ≠ []) (ha : x <+: a) (hb : x <+: b) :
    a.head? = b.head? := by
  cases x with
  | nil => exact absurd rfl hx
  | cons c x =>
    obtain ⟨y, rfl⟩ := ha
    obtain ⟨z, rfl⟩ := hb
    rfl

/-- The radix compaction invariant, in the words of the data model: below the root every
node has a non-empty fragment, and two children of a node share no non-empty prefix. -/
theorem frags_ok_spec (root : node V) (h : node.frags_ok root = true) :
    (∀ s N, s ≠ [] → root.get_at s = some N → N.fragment ≠ []) ∧
    (∀ (s : List Nat) (N : node V) (i j : Nat) (c1 c2 : node V) (x : List Char),
      root.get_at s = some N → N.children[i]? = some c1 →
      N.children[j]? = some c2 → i ≠ j → x <+: c1.fragment → x <+: c2.fragment →
      x = []) := by
  refine ⟨fun s N hs hN => fragment_ne_nil_of_get_at root s N h hN hs, ?_⟩
  intro s N i j c1 c2 x hN h1 h2 hij hx1 hx2
  by_contra hx
  have hNok := frags_ok_of_get_at root s N h hN
  cases N with
  | mk t p f v cs =>
    simp only [node.children] at h1 h2
    simp only [node.frags_ok, Bool.and_eq_true, decide_eq_true_eq] at hNok
    have hnd := hNok.1
    have hhead := head_of_common_pre x _ _ hx hx1 hx2
    have hi : i < (cs.map (fun c => c.fragment.head?)).length := by
      rcases List.getElem?_eq_some_iff.mp h1 with ⟨hi, _⟩; simpa using hi
    have hj : j < (cs.map (fun c => c.fragment.head?)).length := by
      rcases List.getElem?_eq_some_iff.mp h2 with ⟨hj, _⟩; simpa using hj
    have e1 : (cs.map (fun c => c.fragment.head?))[i]? = some c1.fragment.head? := by
      simp [h1]
    have e2 : (cs.map (fun c => c.fragment.head?))[j]? = some c2.fragment.head? := by
      simp [h2]
    have hne := List.nodup_iff_getElem?_ne_getElem?.mp hnd
    rcases Nat.lt_or_gt_of_ne hij with hlt | hgt
    · exact hne i j hlt hj (by rw [e1, e2, hhead])
    · exact hne j i hgt hi (by rw [e1, e2, hhead])

theorem lcp_comm (a b : List Char) : lcp a b = lcp b a := by
  induction a generalizing b with
  | nil => cases b <;> simp [lcp]
  | cons x a ih =>
    cases b with
    | nil => simp [lcp]
    | cons y b =>
      by_cases h : x = y
      · subst h; simp [lcp, ih b]
      · have h2 : ¬ y = x := fun e => h e.symm
        simp [lcp, h, h2]

/-- The common prefix of a fragment and a query that is a prefix of it is the whole query. -/
theorem cpl_of_query_pre (frag q : List Char) (h : q <+: frag) : cpl frag q = q.length := by
  obtain ⟨x, rfl⟩ := h
  rw [cpl_eq_lcp, lcp_comm]; exact lcp_append_right q x

mutual
/-- The empty query misses every node. -/
theorem miss_nil : ∀ (n : node V), Miss n []
  | node.mk t p frag v cs => by
    by_cases hf : frag = []
    · subst hf
      exact Miss.hollow t p v cs [] (miss_nil_children cs)
    · exact Miss.no_match t p frag v cs [] hf (by rw [cpl_eq_lcp]; cases frag <;> simp [lcp])
theorem miss_nil_children : ∀ (cs : List (node V)), ∀ c ∈ cs, Miss c []
  | [], c, hc => by simp at hc
  | c0 :: cs, c, hc => by
    simp only [List.mem_cons] at hc
    rcases hc with rfl | hc
    · exact miss_nil c
    · exact miss_nil_children cs c hc
end

/-- A change of the value of one node leaves the kind, full path, fragment and number of
children of every node as they are. -/
theorem label_modify_at_set_value (v : V) (p : List Nat) (root : node V) (q : List Nat) :
    ((node.modify_at (node.set_value v) p root).get_at q).map node.label =
      (root.get_at q).map node.label := by
  induction p generalizing root q with
  | nil =>
    cases root with
    | mk t pa fr v0 cs =>
      cases q with
      | nil => rfl
      | cons j q => rfl
  | cons i p ih =>
    cases root with
    | mk t pa fr v0 cs =>
      cases q with
      | nil =>
        simp [node.modify_at, node.get_at, node.label, node.type, node.path, node.fragment,
          node.children_count, node.children]
      | cons j q =>
        simp only [node.modify_at, node.get_at]
        by_cases hji : i = j
        · subst hji
          rw [List.getElem?_modify_eq]
          cases hc : cs[i]? with
          | none => rfl
          | some c => exact ih c q
        · rw [List.getElem?_modify_ne _ _ hji]

/-- A change of the value of one node leaves the value of every other node as it is. -/
theorem value_modify_at_set_value_ne (v : V) (p : List Nat) (root : node V) (q : List Nat)
    (hq : q ≠ p) :
    ((node.modify_at (node.set_value v) p root).get_at q).map node.value =
      (root.get_at q).map node.value := by
  induction p generalizing root q with
  | nil =>
    cases root with
    | mk t pa fr v0 cs =>
      cases q with
      | nil => exact absurd rfl hq
      | cons j q => rfl
  | cons i p ih =>
    cases root with
    | mk t pa fr v0 cs =>
      cases q with
      | nil => rfl
      | cons j q =>
        simp only [node.modify_at, node.get_at]
        by_cases hji : i = j
        · subst hji
          rw [List.getElem?_modify_eq]
          cases hc : cs[i]? with
          | none => rfl
          | some c => exact ih c q (fun e => hq (by rw [e]))
        · rw [List.getElem?_modify_ne _ _ hji]

theorem path_modify_at (f : node V → node V) (hf : ∀ n, (f n).path = n.path)
    (p : List Nat) (n : node V) : (node.modify_at f p n).path = n.path := by
  cases p with
  | nil => simpa [node.modify_at] using hf n
  | cons j p => cases n; rfl

theorem type_modify_at (f : node V → node V) (hf : ∀ n, (f n).type = n.type)
    (p : List Nat) (n : node V) : (node.modify_at f p n).type = n.type := by
  cases p with
  | nil => simpa [node.modify_at] using hf n
  | cons j p => cases n; rfl

theorem path_modify_at_cons (f : node V → node V) (s : List Nat) (hs : s ≠ [])
    (n : node V) : (node.modify_at f s n).path = n.path := by
  cases s with
  | nil => exact absurd rfl hs
  | cons j p => cases n; rfl

theorem type_modify_at_cons (f : node V → node V) (s : List Nat) (hs : s ≠ [])
    (n : node V) : (node.modify_at f s n).type = n.type := by
  cases s with
  | nil => exact absurd rfl hs
  | cons j p => cases n; rfl

theorem path_set_value (v : V) (n : node V) : (node.set_value v n).path = n.path := by
  cases n; rfl

theorem type_set_value (v : V) (n : node V) : (node.set_value v n).type = n.type := by
  cases n; rfl

theorem path_del (a b : node_ptr) (n : node V) : (node.del a b n).path = n.path := by
  cases n
  simp only [node.del]
  split <;> rfl

theorem type_del (a b : node_ptr) (n : node V) : (node.del a b n).type = n.type := by
  cases n
  simp only [node.del]
  split <;> rfl

/-- The member `removed_fully` leaves the full path and the kind of the root as they are. -/
theorem path_type_removed_fully [ValueT V] (root : node V) (ret : return_s V) (ic : Bool)
    (nd : weak_node_ptr) (parents : Option (List weak_node_ptr)) (en : errno_t) :
    (node.removed_fully root ret ic nd parents en).2.path = root.path ∧
    (node.removed_fully root ret ic nd parents en).2.type = root.type := by
  unfold node.removed_fully
  split
  · have h1 := fun p => path_modify_at (node.set_value ret.old) (path_set_value ret.old) p root
    have h2 := fun p => type_modify_at (node.set_value ret.old) (type_set_value ret.old) p root
    split
    · split
      · split
        · simp only
          split
          · simp only
            rw [path_modify_at _ (path_del _ _), type_modify_at _ (type_del _ _), h1, h2]
            exact ⟨rfl, rfl⟩
          · exact ⟨h1 _, h2 _⟩
        · exact ⟨h1 _, h2 _⟩
      · exact ⟨h1 _, h2 _⟩
    · exact ⟨h1 _, h2 _⟩
  · exact ⟨rfl, rfl⟩

/-- The member `remove` leaves the full path and the kind of the root as they are. -/
theorem root_path_type_remove [ValueT V] {d : Char} (t : trie_t V d)
    (path : Option (List Char)) (ic : Bool) :
    (t.remove path ic).2.root.path = t.root.path ∧
    (t.remove path ic).2.root.type = t.root.type := by
  simp only [trie_t.remove, node.remove]
  split
  · exact path_type_removed_fully _ _ _ _ _ _
  · split
    · split
      · split
        · exact path_type_removed_fully _ _ _ _ _ _
        · exact ⟨rfl, rfl⟩
      · exact ⟨rfl, rfl⟩
    · exact ⟨rfl, rfl⟩

/-- A removal that finds no node leaves the tree as it is. -/
theorem remove_of_miss [ValueT V] (root : node V) (d : Char) (q : List Char) (ic : Bool)
    (h : Miss root q) : (root.remove d (some q) ic).2 = root := by
  simp [node.remove, miss_locate h [] none]

theorem remove_none [ValueT V] (root : node V) (d : Char) (ic : Bool) :
    (root.remove d none ic).2 = root := by
  cases root
  simp [node.remove, node.locate_internal]

theorem children_ne_nil_of_hit {n : node V} {q s pms m} (h : Hit n q s pms m)
    (hroot : n.fragment = []) : n.children ≠ [] := by
  have hs := hit_ne_nil_of_root h hroot
  obtain ⟨N, hN, _, _⟩ := hit_get_at h
  cases s with
  | nil => exact absurd rfl hs
  | cons j s =>
    cases n with
    | mk t p f v cs =>
      simp only [node.get_at] at hN
      intro hcs
      simp only [node.children] at hcs
      subst hcs
      simp at hN

/-- The full path and the kind of the root after `insert`: the path is kept, and the kind
is NODE_BRANCH when the root was NODE_BRANCH or had no children. -/
theorem root_path_type_insert [ValueT V] {d : Char} (t : trie_t V d) (k : List Char) (v : V)
    (hroot : t.root.fragment = [])
    (hty : t.root.type = NodeType.NODE_BRANCH ∨ t.root.children = []) :
    (t.insert (some k) v).2.root.path = t.root.path ∧
    (t.insert (some k) v).2.root.type = NodeType.NODE_BRANCH ∧
    (t.insert (some k) v).2.root.children ≠ [] := by
  rw [trie_insert_root]
  rcases total_node t.root k with hM | ⟨s, pms, m, hH⟩
  · rcases ht : t.root with ⟨ty, p, fr, v0, cs⟩
    rw [ht] at hM hroot
    simp only [node.fragment] at hroot
    subst hroot
    rw [insert_of_miss _ _ _ _ _ _ hM]
    exact ⟨rfl, rfl, by simp [node.children]⟩
  · have hs := hit_ne_nil_of_root hH hroot
    have hch := children_ne_nil_of_hit hH hroot
    have hB : t.root.type = NodeType.NODE_BRANCH := by
      rcases hty with h | h
      · exact h
      · exact absurd h hch
    obtain ⟨N, hN, _, _⟩ := hit_get_at hH
    have key : ∀ f : node V → node V,
        (node.modify_at f s t.root).path = t.root.path ∧
        (node.modify_at f s t.root).type = NodeType.NODE_BRANCH ∧
        (node.modify_at f s t.root).children ≠ [] := by
      intro f
      refine ⟨path_modify_at_cons f s hs _, by rw [type_modify_at_cons f s hs, hB], ?_⟩
      cases s with
      | nil => exact absurd rfl hs
      | cons j s =>
        rcases ht : t.root with ⟨ty, p, fr, v0, cs⟩
        rw [ht] at hch
        simp only [node.children] at hch
        simp only [node.modify_at, node.children]
        intro h
        have := congrArg List.length h
        simp at this
        exact hch this
    rcases hit_touched hH with ⟨hm, hp⟩ | ⟨hm, hp⟩
    · subst hm hp
      rw [insert_of_matched _ _ _ _ _ hH hN]
      exact key _
    · subst hm
      by_cases hend : N.fragment.length - pms = 0
      · rw [insert_of_stop_end _ _ _ _ _ _ hH hN hend]
        exact key _
      · rw [insert_of_stop_inside _ _ _ _ _ _ hH hN hend]
        exact key _

/-- The kind and the full path of the root of a trie the operations produce. -/
theorem root_kind_of_reachable [ValueT V] {d : Char} (t : trie_t V d) (h : reachable t) :
    t.root.path = [] ∧
    (t.root.type = NodeType.NODE_BRANCH ∨
      (t.root.type = NodeType.NODE_NONE ∧ t.root.children = [])) := by
  induction h with
  | new => exact ⟨rfl, Or.inr ⟨rfl, rfl⟩⟩
  | insert t path v hr ih =>
    have hroot := (root_of_reachable t hr).1
    cases path with
    | none =>
      have : (t.insert none v).2 = t := by simp [trie_t.insert, node.insert]
      rw [this]; exact ih
    | some k =>
      have := root_path_type_insert t k v hroot (ih.2.imp id (fun h => h.2))
      exact ⟨by rw [this.1]; exact ih.1, Or.inl this.2.1⟩
  | remove t path ic hr ih =>
    have hroot := (root_of_reachable t hr).1
    have hpt := root_path_type_remove t path ic
    refine ⟨by rw [hpt.1]; exact ih.1, ?_⟩
    rcases ih.2 with hB | ⟨hN, hc⟩
    · exact Or.inl (by rw [hpt.2]; exact hB)
    · right
      have hsame : (t.remove path ic).2 = t := by
        cases path with
        | none => simp [trie_t.remove, remove_none]
        | some q =>
          rcases total_node t.root q with hM | ⟨s, pms, m, hH⟩
          · simp [trie_t.remove, remove_of_miss t.root d q ic hM]
          · exact absurd hc (children_ne_nil_of_hit hH hroot)
      rw [hsame]; exact ⟨hN, hc⟩

theorem children_kinds_ok_iff (strict : Bool) (cs : List (node V)) :
    node.children_kinds_ok strict cs = true ↔
      ∀ c ∈ cs, node.kind_ok strict c = true ∧ node.kinds_ok strict c = true := by
  induction cs with
  | nil => simp [node.children_kinds_ok]
  | cons a cs ih => simp [node.children_kinds_ok, ih, and_assoc]

theorem kinds_ok_children (strict : Bool) (n : node V) :
    node.kinds_ok strict n = node.children_kinds_ok strict n.children := by
  cases n; rfl

theorem kind_ok_modify_at_cons (strict : Bool) (f : node V → node V) (s : List Nat)
    (hs : s ≠ []) (c : node V) :
    node.kind_ok strict (node.modify_at f s c) = node.kind_ok strict c := by
  cases s with
  | nil => exact absurd rfl hs
  | cons j s =>
    cases c
    simp only [node.kind_ok, node.modify_at, node.type, node.children_count, node.children,
      List.length_modify]

/-- A change to the node at a position keeps the kinds in order when they are in order at
the changed node. -/
theorem kinds_ok_modify_at (strict : Bool) (f : node V → node V) (s : List Nat)
    (root N : node V) (h : node.kinds_ok strict root = true) (hN : root.get_at s = some N)
    (hf : node.kinds_ok strict (f N) = true)
    (hk : s ≠ [] → node.kind_ok strict (f N) = true) :
    node.kinds_ok strict (node.modify_at f s root) = true := by
  induction s generalizing root with
  | nil =>
    simp only [node.get_at, Option.some.injEq] at hN
    subst hN
    exact hf
  | cons j s ih =>
    cases root with
    | mk t p fr v cs =>
      simp only [node.get_at] at hN
      cases hc : cs[j]? with
      | none => simp [hc] at hN
      | some c =>
        simp only [hc] at hN
        obtain ⟨pre1, post, e, hl⟩ := split_at_index cs j c hc
        subst e hl
        simp only [node.kinds_ok] at h
        simp only [node.modify_at, modify_append_eq, node.kinds_ok]
        have hall := (children_kinds_ok_iff strict _).mp h
        rw [children_kinds_ok_iff]
        intro x hx
        simp only [List.mem_append, List.mem_cons] at hx
        rcases hx with hx | rfl | hx
        · exact hall x (by simp [hx])
        · refine ⟨?_, ih c (hall c (by simp)).2 hN (fun _ => by
            cases s with
            | nil =>
              simp only [node.get_at, Option.some.injEq] at hN
              subst hN
              exact hk (by simp)
            | cons a s => exact hk (by simp))⟩
          cases s with
          | nil =>
            simp only [node.get_at, Option.some.injEq] at hN
            subst hN
            exact hk (by simp)
          | cons a s =>
            rw [kind_ok_modify_at_cons strict f _ (by simp) c]
            exact (hall c (by simp)).1
        · exact hall x (by simp [hx])

/-- The kinds are in order at every node below the root of a tree in which they are in
order. -/
theorem kind_ok_of_get_at (strict : Bool) (root : node V) (s : List Nat) (N : node V)
    (h : node.kinds_ok strict root = true) (hN : root.get_at s = some N) :
    node.kinds_ok strict N = true ∧ (s ≠ [] → node.kind_ok strict N = true) := by
  induction s generalizing root with
  | nil =>
    simp only [node.get_at, Option.some.injEq] at hN
    subst hN
    exact ⟨h, fun hs => absurd rfl hs⟩
  | cons j s ih =>
    cases root with
    | mk t p fr v cs =>
      simp only [node.get_at] at hN
      cases hc : cs[j]? with
      | none => simp [hc] at hN
      | some c =>
        simp only [hc] at hN
        simp only [node.kinds_ok] at h
        have hcc := (children_kinds_ok_iff strict _).mp h c (List.getElem?_mem hc)
        have := ih c hcc.2 hN
        refine ⟨this.1, fun _ => ?_⟩
        cases s with
        | nil =>
          simp only [node.get_at, Option.some.injEq] at hN
          subst hN
          exact hcc.1
        | cons a s => exact this.2 (by simp)

theorem kinds_ok_set_value (strict : Bool) (v : V) (n : node V) :
    node.kinds_ok strict (node.set_value v n) = node.kinds_ok strict n ∧
    node.kind_ok strict (node.set_value v n) = node.kind_ok strict n := by
  cases n
  exact ⟨rfl, rfl⟩

theorem kinds_ok_leaf (strict : Bool) (lp lf : List Char) (val : V) :
    node.kind_ok strict (node.mk NodeType.NODE_LEAF lp lf val []) = true ∧
    node.kinds_ok strict (node.mk NodeType.NODE_LEAF lp lf val []) = true := by
  cases strict <;> simp [node.kind_ok, node.kinds_ok, node.children_kinds_ok, node.type]

theorem children_kinds_ok_append (strict : Bool) (cs xs : List (node V))
    (h1 : node.children_kinds_ok strict cs = true)
    (h2 : node.children_kinds_ok strict xs = true) :
    node.children_kinds_ok strict (cs ++ xs) = true := by
  rw [children_kinds_ok_iff] at h1 h2 ⊢
  intro c hc
  simp only [List.mem_append] at hc
  rcases hc with hc | hc
  · exact h1 c hc
  · exact h2 c hc

/-- The member `insert` keeps the kinds in order. -/
theorem kinds_ok_insert [ValueT V] (strict : Bool) (root : node V)
    (path : Option (List Char)) (val : V) (hroot : root.fragment = [])
    (h : node.kinds_ok strict root = true) :
    node.kinds_ok strict (root.insert path val).2 = true := by
  cases path with
  | none => simpa [node.insert] using h
  | some k =>
    have hleaf : ∀ (lp lf : List Char) (x : V), node.children_kinds_ok strict
        [node.mk NodeType.NODE_LEAF lp lf x []] = true := by
      intro lp lf x
      simp [node.children_kinds_ok, (kinds_ok_leaf strict lp lf x).1,
        (kinds_ok_leaf strict lp lf x).2]
    rcases total_node root k with hM | ⟨s, pms, m, hH⟩
    · cases root with
      | mk t p frag v cs =>
        simp only [node.fragment] at hroot
        subst hroot
        rw [insert_of_miss t p v cs k val hM]
        simp only [node.kinds_ok] at h ⊢
        exact children_kinds_ok_append strict cs _ h (hleaf k k val)
    · have hs := hit_ne_nil_of_root hH hroot
      obtain ⟨N, hN, _, _⟩ := hit_get_at hH
      have hNk := kind_ok_of_get_at strict root s N h hN
      rcases hit_touched hH with ⟨hm, hp⟩ | ⟨hm, hp⟩
      · subst hm hp
        rw [insert_of_matched _ _ _ _ _ hH hN]
        apply kinds_ok_modify_at strict _ s root N h hN
        · rw [(kinds_ok_set_value strict val N).1]; exact hNk.1
        · intro hs2; rw [(kinds_ok_set_value strict val N).2]; exact hNk.2 hs2
      · subst hm
        by_cases hend : N.fragment.length - pms = 0
        · rw [insert_of_stop_end _ _ _ _ _ _ hH hN hend]
          apply kinds_ok_modify_at strict _ s root N h hN
          · cases N with
            | mk tN pN fN vN csN =>
              simp only [node.add, node.kinds_ok] at hNk ⊢
              exact children_kinds_ok_append strict csN _ hNk.1 (hleaf _ _ _)
          · intro hs2
            have := hNk.2 hs2
            cases N with
            | mk tN pN fN vN csN =>
              cases strict <;>
                simp_all [node.add, node.kind_ok, node.type, node.children_count, node.children]
        · rw [insert_of_stop_inside _ _ _ _ _ _ hH hN hend]
          apply kinds_ok_modify_at strict _ s root N h hN
          · cases N with
            | mk tN pN fN vN csN =>
              simp only [node.add, node.set_type, node.set_fragment, node.set_path,
                node.set_value, node.kinds_ok, List.append_assoc] at hNk ⊢
              apply children_kinds_ok_append strict csN _ hNk.1
              exact children_kinds_ok_append strict _ _ (hleaf _ _ _) (hleaf _ _ _)
          · intro _
            cases N with
            | mk tN pN fN vN csN =>
              cases strict <;>
                simp [node.add, node.set_type, node.set_fragment, node.set_path,
                  node.set_value, node.kind_ok, node.type, node.children_count, node.children]

theorem kinds_ok_del (a b : node_ptr) (n : node V) (h : node.kinds_ok false n = true) :
    node.kinds_ok false (node.del a b n) = true ∧
    node.kind_ok false (node.del a b n) = node.kind_ok false n := by
  cases n with
  | mk t p f v cs =>
    simp only [node.del]
    split
    · refine ⟨?_, by simp [node.kind_ok, node.type]⟩
      simp only [node.kinds_ok] at h ⊢
      rw [children_kinds_ok_iff] at h ⊢
      intro c hc
      exact h c (List.mem_of_mem_eraseIdx hc)
    · exact ⟨h, rfl⟩

/-- The member `removed_fully` keeps every node below the root of a kind other than
NODE_NONE. -/
theorem kinds_ok_removed_fully [ValueT V] (root : node V) (ret : return_s V) (ic : Bool)
    (nd : weak_node_ptr) (parents : Option (List weak_node_ptr)) (en : errno_t)
    (h : node.kinds_ok false root = true) :
    node.kinds_ok false (node.removed_fully root ret ic nd parents en).2 = true := by
  unfold node.removed_fully
  split
  · rename_i p sp hl
    simp only [node.lock] at hl
    have hk := kind_ok_of_get_at false root p sp h hl
    have h1 : node.kinds_ok false (node.modify_at (node.set_value ret.old) p root) = true := by
      apply kinds_ok_modify_at false _ p root sp h hl
      · rw [(kinds_ok_set_value false ret.old sp).1]; exact hk.1
      · intro hs; rw [(kinds_ok_set_value false ret.old sp).2]; exact hk.2 hs
    split
    · split
      · split
        · simp only
          split
          · rename_i P hP
            simp only
            have hkP := kind_ok_of_get_at false _ _ P h1 hP
            apply kinds_ok_modify_at false _ _ _ P h1 hP
            · exact (kinds_ok_del _ _ P hkP.1).1
            · intro hs; rw [(kinds_ok_del _ _ P hkP.1).2]; exact hkP.2 hs
          · exact h1
        · exact h1
      · exact h1
    · exact h1
  · exact h

/-- The member `remove` keeps every node below the root of a kind other than NODE_NONE. -/
theorem kinds_ok_remove [ValueT V] (d : Char) (root : node V) (path : Option (List Char))
    (ic : Bool) (h : node.kinds_ok false root = true) :
    node.kinds_ok false (root.remove d path ic).2 = true := by
  simp only [node.remove]
  split
  · exact kinds_ok_removed_fully _ _ _ _ _ _ h
  · split
    · split
      · split
        · exact kinds_ok_removed_fully _ _ _ _ _ _ h
        · exact h
      · exact h
    · exact h

theorem reachable_of_built [ValueT V] {d : Char} (t : trie_t V d) (h : built t) :
    reachable t := by
  induction h with
  | new => exact reachable.new
  | insert t path v _ ih => exact reachable.insert t path v ih

/-- In a trie the operations produce, no node below the root has the kind NODE_NONE. -/
theorem kinds_of_reachable [ValueT V] {d : Char} (t : trie_t V d) (h : reachable t) :
    node.kinds_ok false t.root = true := by
  induction h with
  | new => simp [trie_t.new, node.empty, node.kinds_ok, node.children_kinds_ok]
  | insert t path v hr ih =>
    rw [trie_insert_root]
    exact kinds_ok_insert false t.root path v (root_of_reachable t hr).1 ih
  | remove t path ic hr ih =>
    simp only [trie_t.remove]
    exact kinds_ok_remove d t.root path ic ih

/-- In a trie made by inserts alone, a node of kind NODE_BRANCH has a child. -/
theorem kinds_of_built [ValueT V] {d : Char} (t : trie_t V d) (h : built t) :
    node.kinds_ok true t.root = true ∧
    (t.root.type = NodeType.NODE_BRANCH → t.root.children ≠ []) := by
  induction h with
  | new =>
    refine ⟨by simp [trie_t.new, node.empty, node.kinds_ok, node.children_kinds_ok], ?_⟩
    intro h
    simp [trie_t.new, node.empty, node.type] at h
  | insert t path v hb ih =>
    have hr := reachable_of_built t hb
    have hroot := (root_of_reachable t hr).1
    refine ⟨by rw [trie_insert_root]; exact kinds_ok_insert true t.root path v hroot ih.1, ?_⟩
    cases path with
    | none =>
      have : (t.insert none v).2 = t := by simp [trie_t.insert, node.insert]
      rw [this]; exact ih.2
    | some k =>
      intro _
      exact (root_path_type_insert t k v hroot
        ((root_kind_of_reachable t hr).2.imp id (fun h => h.2))).2.2

theorem built_insert_all [ValueT V] {d : Char} (t : trie_t V d) (kvs : List (String × V))
    (h : built t) : built (t.insert_all kvs) := by
  induction kvs generalizing t with
  | nil => simpa [trie_t.insert_all] using h
  | cons kv kvs ih =>
    obtain ⟨k, v⟩ := kv
    rw [trie_t.insert_all]
    exact ih _ (built.insert t (c_str k) v h)

theorem built_sample_nat : built sample_nat :=
  built_insert_all _ _ built.new

theorem kind_ok_false_iff (c : node V) :
    node.kind_ok false c = true ↔
      (c.type = NodeType.NODE_LEAF ∨ c.type = NodeType.NODE_BRANCH) := by
  cases c with
  | mk t p f v cs => cases t <;> simp [node.kind_ok, node.type]

theorem kind_ok_true_iff (c : node V) :
    node.kind_ok true c = true ↔
      ((c.type = NodeType.NODE_LEAF ∨ c.type = NodeType.NODE_BRANCH) ∧
        (c.type = NodeType.NODE_BRANCH → c.children ≠ [])) := by
  cases c with
  | mk t p f v cs =>
    cases t <;> simp [node.kind_ok, node.type, node.children_count, node.children]

theorem get_at_cons (n : node V) (i : Nat) (p : List Nat) :
    n.get_at (i :: p) = (n.children[i]?).bind (fun c => c.get_at p) := by
  cases n with
  | mk t pa fr v cs =>
    simp only [node.get_at, node.children]
    cases cs[i]? <;> rfl

/-- A change that only appends children to the node it is applied to keeps every
position of the tree valid. -/
theorem grow_keeps_positions (f : node V → node V)
    (hf : ∀ n : node V, ∃ extra, (f n).children = n.children ++ extra) :
    ∀ (s : List Nat) (root : node V) (q : List Nat),
      (root.get_at q).isSome = true → ((node.modify_at f s root).get_at q).isSome = true := by
  intro s
  induction s with
  | nil =>
    intro root q h
    cases q with
    | nil => simp [node.get_at]
    | cons i q =>
      obtain ⟨extra, he⟩ := hf root
      rw [get_at_cons] at h
      simp only [node.modify_at, get_at_cons, he]
      cases hc : root.children[i]? with
      | none => simp [hc] at h
      | some c =>
        have hi : i < root.children.length := (List.getElem?_eq_some_iff.mp hc).1
        rw [List.getElem?_append_left hi, hc]
        simpa [hc] using h
  | cons j s ih =>
    intro root q h
    cases root with
    | mk t pa fr v cs =>
      cases q with
      | nil => simp [node.get_at]
      | cons i q =>
        simp only [node.modify_at, get_at_cons, node.children] at h ⊢
        cases hc : cs[i]? with
        | none => simp [hc] at h
        | some c =>
          simp only [hc, Option.some_bind] at h
          by_cases hij : j = i
          · subst hij
            rw [List.getElem?_modify_eq, hc]
            simpa using ih c q h
          · rw [List.getElem?_modify_ne _ _ hij, hc]
            simpa using h

/-- The result of `insert` for a key the lookup finds nothing for, at any node: a new leaf
is appended to the node `insert` was called on. -/
theorem insert_of_miss_node [ValueT V] (root : node V) (k : List Char) (val : V)
    (h : Miss root k) :
    root.insert (some k) val =
      ({ ok := true, old := root.value },
        node.set_type NodeType.NODE_BRANCH
          (node.add (node.mk NodeType.NODE_LEAF k k val []) (node.set_value default root))) := by
  simp [node.insert, miss_fast_find h []]

/-! ## The claims -/

/-- The sample store is the documented tree. -/
theorem sample_trie_eq [ValueT V] (v1 v2 v3 v4 v5 v6 v7 v8 : V) :
    sample_trie v1 v2 v3 v4 v5 v6 v7 v8 = ⟨sample_tree v1 v2 v3 v4 v5 v6 v7 v8⟩ := by
  unfold sample_trie
  iterate 8
    rw [trie_t.insert_all]
    simp [trie_t.insert, trie_t.new, node.insert, node.empty,
      node.fast_find_internal, node.fast_find_children, common_prefix, common_prefix_loop, c_str,
      node.lock, node.get_at, node.modify_at, node.set_value, node.add, node.set_type,
      node.set_path, node.set_fragment, substr_head, node.fragment, node.path, node.value,
      node.fragment_length, List.modify]
  simp [trie_t.insert_all, sample_tree]

/-- The tree left by `remove("app.logging")` on the sample store. -/
theorem sample_remove_eq [ValueT V] (v1 v2 v3 v4 v5 v6 v7 v8 : V) :
    ((sample_trie v1 v2 v3 v4 v5 v6 v7 v8).remove (c_str "app.logging") true).2 =
      ⟨sample_tree_removed v1 v2 v3 v5 v8⟩ := by
  rw [sample_trie_eq]
  simp [sample_tree, sample_tree_removed, trie_t.remove, node.remove, node.removed_fully,
    node.del, node.locate_internal, node.locate_children, common_prefix, common_prefix_loop,
    c_str, node.lock, node.get_at, node.fragment, node.fragment_length, node.modify_at,
    node.set_value, List.modify, List.range, List.range.loop]

/-- Insert/find round trip for a clean lookup.  For every trie whose root has an
empty fragment and whose nodes satisfy the full-path invariant, every non-empty
key `k` and every value `v`: if the lookup `fast_find(k)` before the insert is
matched, or finds no node, or stops unmatched at a node `N` such that the part
of the full path of `N` that the lookup matched (the full path without the
unmatched tail of the fragment) is a proper prefix of `k`, and `N` has no
children when `k` is shorter than the full path of `N`, then after
`insert(k, v)` both `find(k)` and `fast_find(k)` report matched = true with
partial_matched_size = 0, the node returned holds `v`, and `get(k) = v`. -/
theorem insert_find_roundtrip [ValueT V] {d : Char} (t : trie_t V d) (k : List Char) (v : V)
    (hroot : t.root.fragment = []) (hpaths : node.paths_ok [] t.root = true) (hk : k ≠ [])
    (hclean : ∀ N, (t.fast_find (some k)).matched = false →
      t.root.lock (t.fast_find (some k)).ptr = some N →
      substr_head N.path (N.fragment.length - (t.fast_find (some k)).partial_matched_size)
        <+: k ∧
      (substr_head N.path
        (N.fragment.length - (t.fast_find (some k)).partial_matched_size)).length < k.length ∧
      (k.length < N.path.length → N.children = [])) :
    ((t.insert (some k) v).2.find (some k)).matched = true ∧
    ((t.insert (some k) v).2.find (some k)).partial_matched_size = 0 ∧
    ((t.insert (some k) v).2.fast_find (some k)).matched = true ∧
    ((t.insert (some k) v).2.fast_find (some k)).partial_matched_size = 0 ∧
    ((t.insert (some k) v).2.root.lock ((t.insert (some k) v).2.find (some k)).ptr).map
      node.value = some v ∧
    (t.insert (some k) v).2.get (some k) = v := by
  obtain ⟨s2, N2, hH, hg, hv⟩ := insert_exists_hit t.root k v hroot hpaths hk
    (clean_of_fast_find t.root k hclean)
  simp only [trie_t.find, trie_t.fast_find, trie_t.get, trie_insert_root]
  have hf := find_of_hit _ k s2 0 true hH
  have hff := fast_find_of_hit _ k s2 0 true hH
  refine ⟨by rw [hf], by rw [hf], by rw [hff], by rw [hff], ?_, ?_⟩
  · rw [hf]; simp [node.lock, hg, hv]
  · rw [get_of_matched d _ k s2 N2 (by rw [hf]) (by rw [hf]) hg, hv]

/-- An instance of the round trip: re-inserting `app.logging.words` into the sample store
after that key was removed; the lookup before the insert stops at the end of
the fragment of the node `logging.`. -/
theorem insert_find_roundtrip_witness :
    ((sample_removed.insert (some "app.logging.words".data) 9).2.find
      (some "app.logging.words".data)).matched = true ∧
    ((sample_removed.insert (some "app.logging.words".data) 9).2.find
      (some "app.logging.words".data)).partial_matched_size = 0 ∧
    ((sample_removed.insert (some "app.logging.words".data) 9).2.fast_find
      (some "app.logging.words".data)).matched = true ∧
    ((sample_removed.insert (some "app.logging.words".data) 9).2.fast_find
      (some "app.logging.words".data)).partial_matched_size = 0 ∧
    ((sample_removed.insert (some "app.logging.words".data) 9).2.root.lock
      ((sample_removed.insert (some "app.logging.words".data) 9).2.find
        (some "app.logging.words".data)).ptr).map node.value = some 9 ∧
    (sample_removed.insert (some "app.logging.words".data) 9).2.get
      (some "app.logging.words".data) = 9 :=
  insert_find_roundtrip sample_removed "app.logging.words".data 9 (by decide) (by decide)
    (by decide)
    (by
      intro N _ h
      have e : sample_removed.root.lock
          (sample_removed.fast_find (some "app.logging.words".data)).ptr =
          some sample_removed_logging := by rfl
      rw [e] at h
      cases h
      exact ⟨by decide, by decide, fun hlt => absurd hlt (by decide)⟩)

/-- C1 (the code at the failing input): with the key abc = 3 stored,
`insert("ab", 7)` returns ok = true, and afterwards `find("ab")` and
`fast_find("ab")` report matched = true with partial_matched_size = 0 at the
node of fragment `ab`, but that node is a Branch holding the empty value and
`get("ab")` is the empty value: the value 7 is in a new leaf of full path `ab`
and empty fragment under that node.  When the two keys are inserted in the
other order, `get("ab")` is 7. -/
theorem insert_find_roundtrip_bug :
    (abc_store.insert (c_str "ab") 7).1.ok = true ∧
    (abc_store.insert (c_str "ab") 7).2.find (c_str "ab") =
      { partial_matched_size := 0, ptr := some [0], en := 0, matched := true } ∧
    (abc_store.insert (c_str "ab") 7).2.fast_find (c_str "ab") =
      { partial_matched_size := 0, ptr := some [0], en := 0, matched := true } ∧
    ((abc_store.insert (c_str "ab") 7).2.root.get_at [0]).map node.fields =
      some (NodeType.NODE_BRANCH, "ab".data, "ab".data, 0) ∧
    ((abc_store.insert (c_str "ab") 7).2.root.get_at [0]).map
        (fun n => n.children.map node.fields) =
      some [(NodeType.NODE_LEAF, "abc".data, "c".data, 3),
        (NodeType.NODE_LEAF, "ab".data, "".data, 7)] ∧
    (abc_store.insert (c_str "ab") 7).2.get (c_str "ab") = 0 ∧
    ((trie_t.new : trie_t Nat '.').insert_all [("ab", 7), ("abc", 3)]).get (c_str "ab") = 7 :=
  ⟨by decide, by decide, by decide, by decide, by decide, by decide, by decide⟩

/-- Overwrite semantics for a clean lookup.  Under the hypotheses of the round trip (the
root has an empty fragment, the full-path invariant holds, `k` is non-empty and
its lookup before the first insert is matched, finds no node, or stops at a
node whose matched full path is a proper prefix of `k` and which has no
children when `k` is shorter than its full path), `insert(k, v1)` followed by
`insert(k, v2)` makes the second insert return ok = true with old = `v1`, and
a subsequent `get(k)` returns `v2`. -/
theorem insert_overwrite [ValueT V] {d : Char} (t : trie_t V d) (k : List Char) (v1 v2 : V)
    (hroot : t.root.fragment = []) (hpaths : node.paths_ok [] t.root = true) (hk : k ≠ [])
    (hclean : ∀ N, (t.fast_find (some k)).matched = false →
      t.root.lock (t.fast_find (some k)).ptr = some N →
      substr_head N.path (N.fragment.length - (t.fast_find (some k)).partial_matched_size)
        <+: k ∧
      (substr_head N.path
        (N.fragment.length - (t.fast_find (some k)).partial_matched_size)).length < k.length ∧
      (k.length < N.path.length → N.children = [])) :
    ((t.insert (some k) v1).2.insert (some k) v2).1.ok = true ∧
    ((t.insert (some k) v1).2.insert (some k) v2).1.old = v1 ∧
    ((t.insert (some k) v1).2.insert (some k) v2).2.get (some k) = v2 := by
  obtain ⟨s2, N2, hH, hg, hv⟩ := insert_exists_hit t.root k v1 hroot hpaths hk
    (clean_of_fast_find t.root k hclean)
  simp only [trie_t.get, trie_insert_root, trie_insert_ret]
  rw [insert_of_matched _ k v2 s2 N2 hH hg]
  obtain ⟨N, qN, c, hN, hHN, _, _, hmod⟩ := hit_route hH
  have hNe : N = N2 := by rw [hg] at hN; exact (Option.some.inj hN).symm
  subst hNe
  have hH3 := hmod (node.set_value v2) [] 0 true (hit_set_value v2 hHN)
  simp only [List.append_nil] at hH3
  have hg3 := get_at_modify_at (node.set_value v2) s2 _ N hg
  have hf := find_of_hit _ k s2 0 true hH3
  refine ⟨rfl, hv, ?_⟩
  rw [get_of_matched d _ k s2 _ (by rw [hf]) (by rw [hf]) hg3]
  cases N; rfl

/-- An instance of the overwrite: `app.logging.words` inserted twice into the sample store
from which that key had been removed. -/
theorem insert_overwrite_witness :
    ((sample_removed.insert (some "app.logging.words".data) 7).2.insert
      (some "app.logging.words".data) 9).1.ok = true ∧
    ((sample_removed.insert (some "app.logging.words".data) 7).2.insert
      (some "app.logging.words".data) 9).1.old = 7 ∧
    ((sample_removed.insert (some "app.logging.words".data) 7).2.insert
      (some "app.logging.words".data) 9).2.get (some "app.logging.words".data) = 9 :=
  insert_overwrite sample_removed "app.logging.words".data 7 9 (by decide) (by decide)
    (by decide)
    (by
      intro N _ h
      have e : sample_removed.root.lock
          (sample_removed.fast_find (some "app.logging.words".data)).ptr =
          some sample_removed_logging := by rfl
      rw [e] at h
      cases h
      exact ⟨by decide, by decide, fun hlt => absurd hlt (by decide)⟩)

/-- C2 (the code at the failing input): with the key abc = 3 stored,
`insert("ab", 1)` followed by `insert("ab", 2)` makes the second insert return
ok = true with old = the empty value, not 1: the first insert put 1 in a new
leaf of empty fragment, where it stays, and the second replaced the empty value
of the Branch of fragment `ab`.  With the keys ab = 1 and abc = 2 inserted in
this order, `insert("ab", 5)` returns old = 1. -/
theorem insert_overwrite_bug :
    (abc_store.insert (c_str "ab") 1).1.ok = true ∧
    ((abc_store.insert (c_str "ab") 1).2.insert (c_str "ab") 2).1.ok = true ∧
    ((abc_store.insert (c_str "ab") 1).2.insert (c_str "ab") 2).1.old = 0 ∧
    ((abc_store.insert (c_str "ab") 1).2.insert (c_str "ab") 2).2.get (c_str "ab") = 2 ∧
    (((abc_store.insert (c_str "ab") 1).2.insert (c_str "ab") 2).2.root.get_at [0]).map
        node.fields =
      some (NodeType.NODE_BRANCH, "ab".data, "ab".data, 2) ∧
    (((abc_store.insert (c_str "ab") 1).2.insert (c_str "ab") 2).2.root.get_at [0]).map
        (fun n => n.children.map node.fields) =
      some [(NodeType.NODE_LEAF, "abc".data, "c".data, 3),
        (NodeType.NODE_LEAF, "ab".data, "".data, 1)] ∧
    (ab_abc_store.insert (c_str "ab") 5).1.old = 1 :=
  ⟨by decide, by decide, by decide, by decide, by decide, by decide, by decide⟩

/-- C3: the sample scenario, build.  Inserting app.debug, app.verbose,
app.dump, app.logging.file, app.server.start, app.logging.rotate,
app.logging.words, app.server.sites in this order into the empty trie, with any
values, yields `size() = 8`, and `has` is true for `app.logging`,
`app.logging.`, `app.logging.file` and `app.logging.words`. -/
theorem sample_build [ValueT V] (v1 v2 v3 v4 v5 v6 v7 v8 : V) :
    (sample_trie v1 v2 v3 v4 v5 v6 v7 v8).size = 8 ∧
    (sample_trie v1 v2 v3 v4 v5 v6 v7 v8).has (c_str "app.logging") false = true ∧
    (sample_trie v1 v2 v3 v4 v5 v6 v7 v8).has (c_str "app.logging.") false = true ∧
    (sample_trie v1 v2 v3 v4 v5 v6 v7 v8).has (c_str "app.logging.file") false = true ∧
    (sample_trie v1 v2 v3 v4 v5 v6 v7 v8).has (c_str "app.logging.words") false = true := by
  rw [sample_trie_eq]
  refine ⟨?_, ?_, ?_, ?_, ?_⟩
  · simp [sample_tree, trie_t.size, trie_t.walk, node.walk, node.walk_internal,
      node.walk_children]
  all_goals
    simp [sample_tree, trie_t.has, node.has, node.fast_find,
      node.fast_find_internal, node.fast_find_children, common_prefix, common_prefix_loop, c_str,
      node.lock, node.get_at, node.fragment, node.fragment_length]

/-- C4 (as amended): the sample scenario, removal.  In the sample trie of
eight keys, with any values, `remove("app.logging")` yields
`has("app.logging.file") = false` and `size() = 5`: the three keys below
`app.logging.` are gone and the five others remain. -/
theorem sample_remove_branch [ValueT V] (v1 v2 v3 v4 v5 v6 v7 v8 : V) :
    ((sample_trie v1 v2 v3 v4 v5 v6 v7 v8).remove (c_str "app.logging") true).2.has
      (c_str "app.logging.file") false = false ∧
    ((sample_trie v1 v2 v3 v4 v5 v6 v7 v8).remove (c_str "app.logging") true).2.size = 5 := by
  rw [sample_remove_eq]
  constructor
  · simp [sample_tree_removed, trie_t.has, node.has, node.fast_find,
      node.fast_find_internal, node.fast_find_children, common_prefix, common_prefix_loop, c_str,
      node.lock, node.get_at, node.fragment, node.fragment_length]
  · simp [sample_tree_removed, trie_t.size, trie_t.walk, node.walk, node.walk_internal,
      node.walk_children]

/-- Counterexample to C4 as stated: after `remove("app.logging")` on the
sample trie, `size()` is not 6. -/
theorem sample_remove_branch_counterexample :
    (sample_nat.remove (c_str "app.logging") true).2.size ≠ 6 := by decide

/-- C5 (as amended): the delimiter-trailing rule of `has`.  For every
delimiter `d`, every trie and every query `q`: if the raw lookup of `q` stops
unmatched at a node `N` with partial_matched_size + 1 = the length of the
fragment of `N`, and that fragment ends with `d`, then `has(q)` is true
although `find(q)` reports matched = false.  And in a trie that satisfies the
full-path invariant and the radix compaction invariant, the full path of every
non-root node is true under both `find` and `has`. -/
theorem has_delimiter_rule {d : Char} (t : trie_t V d) (q : List Char) (N : node V)
    (s : node_ptr) (M : node V) :
    ((t.fast_find (some q)).matched = false →
      t.root.lock (t.fast_find (some q)).ptr = some N →
      (t.fast_find (some q)).partial_matched_size + 1 = N.fragment.length →
      N.fragment[N.fragment.length - 1]? = some d →
      t.has (some q) false = true ∧ (t.find (some q)).matched = false) ∧
    (node.paths_ok [] t.root = true → node.frags_ok t.root = true →
      s ≠ [] → t.root.get_at s = some M →
      (t.find (some M.path)).matched = true ∧ t.has (some M.path) false = true) := by
  constructor
  · intro hm hl hsz hlast
    simp only [trie_t.fast_find, trie_t.has, trie_t.find] at *
    rcases total_node t.root q with hM | ⟨s, pms, m, hH⟩
    · rw [fast_find_eq_find, find_of_miss _ _ hM] at hl
      simp [node.lock] at hl
    · have hff := fast_find_of_hit _ q s pms m hH
      rw [hff] at hm hl hsz
      simp only at hm hl hsz
      subst hm
      have hpos : pms > 0 := by
        rcases (hit_touched hH) with ⟨h, _⟩ | ⟨_, h⟩
        · simp at h
        · exact h
      refine ⟨?_, by rw [← fast_find_eq_find, hff]⟩
      simp only [node.has, hff, hl, node.fragment_length]
      rw [if_neg (by simp), if_pos hpos, if_pos ⟨hsz.symm, hlast⟩]
  · intro hp hfr hs hM
    simp only [trie_t.has, trie_t.find]
    have hf := fragment_ne_nil_of_get_at t.root s M hfr hM hs
    have hH := hit_of_get_at t.root s M hfr hM hf
    have hpath := path_of_get_at t.root s M [] hp hM
    simp only [List.nil_append] at hpath
    rw [← hpath] at hH
    refine ⟨by rw [find_of_hit _ _ _ _ _ hH], ?_⟩
    simp [node.has, fast_find_of_hit _ _ _ _ _ hH]

/-- Witness of C5.  On the sample store `app.logging` stops at the node
`logging.` one character before the end of its fragment, and `app.logging.`
is the full path of that node; the same with the delimiter `/` for `app/home`
and `app/home/` in the store holding `app/home/ops` and `app/home/admin`. -/
theorem has_delimiter_rule_witness :
    ((sample_nat.has (some "app.logging".data) false = true ∧
      (sample_nat.find (some "app.logging".data)).matched = false) ∧
    ((sample_nat.find (some sample_logging.path)).matched = true ∧
      sample_nat.has (some sample_logging.path) false = true)) ∧
    ((slash_store.has (some "app/home".data) false = true ∧
      (slash_store.find (some "app/home".data)).matched = false) ∧
    ((slash_store.find (some slash_home.path)).matched = true ∧
      slash_store.has (some slash_home.path) false = true)) :=
  ⟨⟨(has_delimiter_rule sample_nat "app.logging".data sample_logging [0, 2] sample_logging).1
      (by decide) (by rfl) (by decide) (by decide),
    (has_delimiter_rule sample_nat "app.logging".data sample_logging [0, 2] sample_logging).2
      (by decide) (by decide) (by decide) (by rfl)⟩,
   ⟨(has_delimiter_rule slash_store "app/home".data slash_home [0] slash_home).1
      (by decide) (by rfl) (by decide) (by decide),
    (has_delimiter_rule slash_store "app/home".data slash_home [0] slash_home).2
      (by decide) (by decide) (by decide) (by rfl)⟩⟩

/-- Counterexample to C5 as stated: after `insert("", 1)` into the empty trie
the first child of the root is a leaf whose full path is the empty string, and
the query equal to that full path is true under neither `has` nor `find`. -/
theorem has_delimiter_rule_counterexample :
    ((empty_store.insert (c_str "") 1).2.root.get_at [0]).map node.path = some [] ∧
    ((empty_store.insert (c_str "") 1).2.root.get_at [0]).map node.type
      = some NodeType.NODE_LEAF ∧
    (empty_store.insert (c_str "") 1).2.has (some []) false = false ∧
    ((empty_store.insert (c_str "") 1).2.find (some [])).matched = false := by
  decide

/-- C6 (the code at the failing input): with the keys app.logging.file and
app.logging.rotate stored, `find("app.logging")` is not matched and
`has("app.logging")` is true, but `search("app.logging")` reports matched =
false (only `search("app.logging.")` is matched); on the sample store
`search("app.logging")` is not matched either and the store-level
`get("app.logging")` returns the null pointer. -/
theorem search_delimiter_bug :
    (logging_store.find (c_str "app.logging")).matched = false ∧
    logging_store.has (c_str "app.logging") false = true ∧
    (logging_store.search (c_str "app.logging")).matched = false ∧
    (logging_store.search (c_str "app.logging.")).matched = true ∧
    (sample_nat.search (c_str "app.logging")).matched = false ∧
    sample_nat.get_node (c_str "app.logging") = none := by decide

/-- C7 (the code at the failing input): with the keys ab.x and ab.y stored,
`remove("abx")` returns ok = true (the lookup of `abx` resolves to the leaf
`ab.x`), and afterwards `has("abx")` is still true. -/
theorem remove_unreachable_bug :
    (abxy_store.find (c_str "abx")).matched = true ∧
    (abxy_store.remove (c_str "abx") true).1.ok = true ∧
    (abxy_store.remove (c_str "abx") true).2.has (c_str "abx") false = true ∧
    (abxy_store.remove (c_str "abx") true).2.has (c_str "ab.x") false = false := by decide

/-- C8: removal leaves the other keys reachable.  For every trie (its root
has an empty fragment, which `trie_t()` establishes and `insert` and `remove`
preserve) and paths `k`, `k2`: if before `remove(k, true)` the
lookup of `k2` is matched at a node that is not inside the subtree of the node
removed for `k`, then after the removal `find(k2)` is still matched, at the
same node (at the same position when nothing was removed, and at the position
the node has once the removed child is erased otherwise; the node has the same
type, full path, fragment and value), and `get(k2)` returns the same value. -/
theorem remove_frame [ValueT V] {d : Char} (t : trie_t V d) (k k2 : List Char) (p2 : node_ptr)
    (hroot : t.root.fragment = [])
    (hmatched : (t.find (some k2)).matched = true)
    (hptr : (t.find (some k2)).ptr = some p2)
    (hout : ∀ p, (t.remove (some k) true).1.ok = true → (t.locate (some k)).ptr = some p →
      ¬ p <+: p2) :
    ((t.remove (some k) true).2.find (some k2)).matched = true ∧
    (∃ M M2, t.root.lock (t.find (some k2)).ptr = some M ∧
      (t.remove (some k) true).2.root.lock ((t.remove (some k) true).2.find (some k2)).ptr
        = some M2 ∧
      M2.type = M.type ∧ M2.path = M.path ∧ M2.fragment = M.fragment ∧ M2.value = M.value) ∧
    ((t.remove (some k) true).1.ok = false →
      ((t.remove (some k) true).2.find (some k2)).ptr = some p2) ∧
    (∀ pp i, (t.remove (some k) true).1.ok = true → (t.locate (some k)).ptr = some (pp ++ [i]) →
      ((t.remove (some k) true).2.find (some k2)).ptr = some (shift_ptr pp i p2)) ∧
    (t.remove (some k) true).2.get (some k2) = t.get (some k2) := by
  simp only [trie_t.find, trie_t.locate, trie_t.remove, trie_t.get, node.locate] at *
  rcases total_node t.root k2 with hM | ⟨s, pms, m, hH⟩
  · rw [find_of_miss _ _ hM] at hmatched; simp at hmatched
  · rw [find_of_hit _ _ _ _ _ hH] at hmatched hptr
    simp only [Option.some.injEq] at hmatched hptr
    subst hmatched hptr
    obtain ⟨M, hMg, _, _⟩ := hit_get_at hH
    have hget0 := get_of_matched d t.root k2 s M (by simp [find_of_hit _ _ _ _ _ hH])
      (by simp [find_of_hit _ _ _ _ _ hH]) hMg
    rcases remove_tree t.root d k hroot with ⟨hok, htree⟩ | ⟨pp, i, hloc, hok, htree⟩
    · simp only [htree, hok, find_of_hit _ _ _ _ _ hH, node.lock, hMg, hget0]
      refine ⟨?_, ⟨M, M, ?_, ?_, rfl, rfl, rfl, rfl⟩, ?_, ?_, ?_⟩
      all_goals first | trivial | rfl | (intros; simp_all)
    · have hnp : ¬ (pp ++ [i]) <+: s := hout _ hok hloc
      have hH2 := hit_erase hH pp i hnp
      obtain ⟨M2, hM2, h1, h2, h3, h4⟩ := get_at_erase t.root s M hMg pp i hnp
      have hget2 := get_of_matched d _ k2 _ M2 (by simp [find_of_hit _ _ _ _ _ hH2])
        (by simp [find_of_hit _ _ _ _ _ hH2]) hM2
      simp only [htree, hok, find_of_hit _ _ _ _ _ hH, find_of_hit _ _ _ _ _ hH2, node.lock, hMg,
        hM2, hget0, hget2, hloc]
      refine ⟨?_, ⟨M, M2, ?_, ?_, h1, h2, h3, h4⟩, ?_, ?_, ?_⟩
      · trivial
      · rfl
      · rfl
      · intro h; simp at h
      · intro pp2 i2 _ h
        simp only [Option.some.injEq] at h
        have := List.append_inj' h rfl
        simp at this
        rw [this.1, this.2]
      · exact h4

/-- Witness of C8: on the sample store, `remove("app.logging")` leaves
`app.server.start` matched. -/
theorem remove_frame_witness :
    ((sample_nat.remove (some "app.logging".data) true).2.find
      (some "app.server.start".data)).matched = true ∧
    (∃ M M2, sample_nat.root.lock (sample_nat.find (some "app.server.start".data)).ptr
        = some M ∧
      (sample_nat.remove (some "app.logging".data) true).2.root.lock
        ((sample_nat.remove (some "app.logging".data) true).2.find
          (some "app.server.start".data)).ptr = some M2 ∧
      M2.type = M.type ∧ M2.path = M.path ∧ M2.fragment = M.fragment ∧ M2.value = M.value) ∧
    ((sample_nat.remove (some "app.logging".data) true).1.ok = false →
      ((sample_nat.remove (some "app.logging".data) true).2.find
        (some "app.server.start".data)).ptr = some [0, 3, 0]) ∧
    (∀ pp i, (sample_nat.remove (some "app.logging".data) true).1.ok = true →
      (sample_nat.locate (some "app.logging".data)).ptr = some (pp ++ [i]) →
      ((sample_nat.remove (some "app.logging".data) true).2.find
        (some "app.server.start".data)).ptr = some (shift_ptr pp i [0, 3, 0])) ∧
    (sample_nat.remove (some "app.logging".data) true).2.get (some "app.server.start".data) =
      sample_nat.get (some "app.server.start".data) :=
  remove_frame sample_nat "app.logging".data "app.server.start".data [0, 3, 0]
    (by decide) (by decide) (by decide)
    (by
      intro p _ hp
      have e : (sample_nat.locate (some "app.logging".data)).ptr = some [0, 2] := by decide
      rw [e] at hp
      cases hp
      decide)

/-- C9: the result of a successful removal.  For every trie (its root has an
empty fragment, which `trie_t()` establishes and `insert` and `remove`
preserve) and every path that exactly matches or delimiter-matches a
node `N`, `remove(path, true)` returns ok = true and old = the value stored at
`N`, and afterwards the parent of `N` has the children it had before without
`N`, in the same order, the rest of the tree being unchanged. -/
theorem remove_result [ValueT V] {d : Char} (t : trie_t V d) (path : List Char)
    (hroot : t.root.fragment = [])
    (hm : ((t.locate (some path)).matched = true ∧ (t.locate (some path)).partial_matched_size = 0) ∨
      ∃ N, t.root.lock (t.locate (some path)).ptr = some N ∧
        N.fragment.length = (t.locate (some path)).partial_matched_size + 1 ∧
        N.fragment[N.fragment.length - 1]? = some d) :
    ∃ pp i P N, (t.locate (some path)).ptr = some (pp ++ [i]) ∧ t.root.get_at pp = some P ∧
      P.children[i]? = some N ∧
      (t.remove (some path) true).1.ok = true ∧
      (t.remove (some path) true).1.old = N.value ∧
      (t.remove (some path) true).2.root =
        node.modify_at (fun P => P.with_children (P.children.eraseIdx i)) pp t.root ∧
      ((t.remove (some path) true).2.root.get_at pp).map node.children =
        some (P.children.eraseIdx i) := by
  simp only [trie_t.locate, node.locate] at hm ⊢
  rcases locate_spec t.root path [] none with ⟨_, hl⟩ | ⟨s, pms, m, hH, _⟩
  · rw [hl] at hm
    simp [node.lock] at hm
  · obtain ⟨pp, i, P, N, hs, hP, hc, hN, hf, hle, hl⟩ := locate_root_hit t.root path hroot s pms m hH
    subst hs
    rw [hl] at hm
    have hrm : t.root.remove d (some path) true =
        ({ ok := true, en := 0, old := N.value },
          node.modify_at (fun P => P.with_children (P.children.eraseIdx i)) pp t.root) := by
      simp only [node.remove, hl]
      rcases (hit_touched hH) with ⟨hm1, hp1⟩ | ⟨hm1, hp1⟩
      · subst hm1 hp1
        simp [removed_fully_ok t.root _ pp i P N 0 hP hc]
      · subst hm1
        have hp2 : pms ≠ 0 := by omega
        rcases hm with ⟨h, _⟩ | ⟨N2, hl2, hsz, hlast⟩
        · simp at h
        · simp only [node.lock, hN, Option.some.injEq] at hl2
          subst hl2
          have hlast2 : N.fragment[pms]? = some d := by
            rw [hsz] at hlast; simpa using hlast
          rcases List.getElem?_eq_some_iff.mp hlast2 with ⟨_, he⟩
          simp [hp2, hp1, node.lock, hN, hsz, he, removed_fully_ok t.root _ pp i P N 0 hP hc]
    refine ⟨pp, i, P, N, by simp [hl], hP, hc, ?_, ?_, ?_, ?_⟩
    · simp [trie_t.remove, hrm]
    · simp [trie_t.remove, hrm]
    · simp [trie_t.remove, hrm]
    · simp only [trie_t.remove, hrm]
      rw [get_at_modify_at _ pp t.root P hP]
      cases P
      simp [node.with_children, node.children]

/-- Witness of C9: `remove("app.logging.")` on the sample store. -/
theorem remove_result_witness :
    ∃ pp i P N, (sample_nat.locate (some "app.logging.".data)).ptr = some (pp ++ [i]) ∧
      sample_nat.root.get_at pp = some P ∧ P.children[i]? = some N ∧
      (sample_nat.remove (some "app.logging.".data) true).1.ok = true ∧
      (sample_nat.remove (some "app.logging.".data) true).1.old = N.value ∧
      (sample_nat.remove (some "app.logging.".data) true).2.root =
        node.modify_at (fun P => P.with_children (P.children.eraseIdx i)) pp sample_nat.root ∧
      ((sample_nat.remove (some "app.logging.".data) true).2.root.get_at pp).map node.children =
        some (P.children.eraseIdx i) :=
  remove_result sample_nat "app.logging.".data (by decide) (Or.inl ⟨by decide, by decide⟩)

/-- C10 (the code at the failing input): on the sample store `app.debug` is
exactly matched at a node without children, yet
`remove("app.debug", include_children = false)` returns ok = false with the
error EISDIR, the node stays in the trie, and its value is replaced by the
empty value. -/
theorem remove_childless_bug :
    (sample_nat.root.get_at [0, 0, 0]).map node.children_count = some 0 ∧
    (sample_nat.find (c_str "app.debug")).matched = true ∧
    (sample_nat.find (c_str "app.debug")).ptr = some [0, 0, 0] ∧
    (sample_nat.remove (c_str "app.debug") false).1.ok = false ∧
    (sample_nat.remove (c_str "app.debug") false).1.en = EISDIR ∧
    (sample_nat.remove (c_str "app.debug") false).2.has (c_str "app.debug") false = true ∧
    sample_nat.get (c_str "app.debug") = 1 ∧
    (sample_nat.remove (c_str "app.debug") false).2.get (c_str "app.debug") = 0 := by decide

/-- C11: removing a branch without `include_children` fails.  For every trie
and every path that exactly matches or delimiter-matches a node `N` (with or
without children, so in particular one having at least one child),
`remove(path, include_children = false)` returns ok = false with the error
code EISDIR; the node stays at its position with its type, full path, fragment
and children, and every descendant of `N` stays at its position unchanged (the
value of `N` itself is replaced by the empty value). -/
theorem remove_branch_refused [ValueT V] {d : Char} (t : trie_t V d) (path : List Char)
    (hm : ((t.locate (some path)).matched = true ∧
        (t.locate (some path)).partial_matched_size = 0) ∨
      ∃ N, t.root.lock (t.locate (some path)).ptr = some N ∧
        N.fragment.length = (t.locate (some path)).partial_matched_size + 1 ∧
        N.fragment[N.fragment.length - 1]? = some d) :
    ∃ p N, (t.locate (some path)).ptr = some p ∧ t.root.get_at p = some N ∧
      (t.remove (some path) false).1.ok = false ∧
      (t.remove (some path) false).1.en = EISDIR ∧
      (t.remove (some path) false).2.root = node.modify_at (node.set_value default) p t.root ∧
      (t.remove (some path) false).2.root.get_at p = some (node.set_value default N) ∧
      (node.set_value default N).type = N.type ∧
      (node.set_value default N).path = N.path ∧
      (node.set_value default N).fragment = N.fragment ∧
      (node.set_value default N).children = N.children ∧
      ∀ q M, q ≠ [] → N.get_at q = some M →
        (t.remove (some path) false).2.root.get_at (p ++ q) = some M := by
  simp only [trie_t.locate] at hm ⊢
  rcases locate_cases t.root path with
    ⟨_, hl⟩ | ⟨s, pms, m, N, hH, hN, hf, hle, htouch, h1, h2, h3, h4, h5⟩
  · rw [hl] at hm
    simp [node.lock] at hm
  · have hrm : t.root.remove d (some path) false =
        ({ ok := false, en := EISDIR, old := N.value },
          node.modify_at (node.set_value default) s t.root) := by
      have hloc : t.root.locate_internal [] (some path) none = t.root.locate (some path) := rfl
      simp only [node.remove, hloc, h1, h2, h3, h4, h5]
      rcases htouch with ⟨hm1, hp1⟩ | ⟨hm1, hp1⟩
      · subst hm1 hp1
        simp [removed_fully_refused t.root _ s N _ _ hN]
      · subst hm1
        have hp2 : pms ≠ 0 := by omega
        rcases hm with ⟨h, _⟩ | ⟨N2, hl2, hsz, hlast⟩
        · rw [h4] at h; simp at h
        · rw [h2] at hl2
          simp only [node.lock, hN, Option.some.injEq] at hl2
          subst hl2
          rw [h1] at hsz
          have hlast2 : N.fragment[pms]? = some d := by
            rw [hsz] at hlast; simpa using hlast
          rcases List.getElem?_eq_some_iff.mp hlast2 with ⟨_, he⟩
          simp [hp2, hp1, node.lock, hN, hsz, he, removed_fully_refused t.root _ s N _ _ hN]
    have hch : (node.set_value (default : V) N).children = N.children := by cases N; rfl
    refine ⟨s, N, h2, hN, ?_, ?_, ?_, ?_, ?_, ?_, ?_, hch, ?_⟩
    · simp [trie_t.remove, hrm]
    · simp [trie_t.remove, hrm]
    · simp [trie_t.remove, hrm]
    · simp only [trie_t.remove, hrm]
      exact get_at_modify_at _ s t.root N hN
    · cases N; rfl
    · cases N; rfl
    · cases N; rfl
    · intro q M hq hM
      simp only [trie_t.remove, hrm]
      exact get_at_below_modify_at _ s q t.root N M hN hch hq hM

/-- Witness of C11: `remove("app.logging", false)` on the sample store, where
the node `logging.` has three children. -/
theorem remove_branch_refused_witness :
    ∃ p N, (sample_nat.locate (some "app.logging".data)).ptr = some p ∧
      sample_nat.root.get_at p = some N ∧
      (sample_nat.remove (some "app.logging".data) false).1.ok = false ∧
      (sample_nat.remove (some "app.logging".data) false).1.en = EISDIR ∧
      (sample_nat.remove (some "app.logging".data) false).2.root =
        node.modify_at (node.set_value default) p sample_nat.root ∧
      (sample_nat.remove (some "app.logging".data) false).2.root.get_at p =
        some (node.set_value default N) ∧
      (node.set_value default N).type = N.type ∧
      (node.set_value default N).path = N.path ∧
      (node.set_value default N).fragment = N.fragment ∧
      (node.set_value default N).children = N.children ∧
      ∀ q M, q ≠ [] → N.get_at q = some M →
        (sample_nat.remove (some "app.logging".data) false).2.root.get_at (p ++ q) = some M :=
  remove_branch_refused sample_nat "app.logging".data
    (Or.inr ⟨sample_logging, by rfl, by decide, by decide⟩)

/-- C12: removing an unmatched path fails.  For every trie, every path (the
null pointer included) and either value of `include_children`: if the result
of `locate` is neither an exact match nor a delimiter-trailing match, `remove`
returns ok = false, with the error code ENAMETOOLONG when a non-zero
partial_matched_size was recorded and 0 when it is zero, and the trie is left
as it was. -/
theorem remove_unmatched [ValueT V] {d : Char} (t : trie_t V d) (path : Option (List Char))
    (ic : Bool)
    (hex : ¬ ((t.locate path).matched = true ∧ (t.locate path).partial_matched_size = 0))
    (hdel : ∀ N, t.root.lock (t.locate path).ptr = some N →
      ¬ (N.fragment.length = (t.locate path).partial_matched_size + 1 ∧
        N.fragment[N.fragment.length - 1]? = some d)) :
    (t.remove path ic).1.ok = false ∧
    ((t.locate path).partial_matched_size > 0 → (t.remove path ic).1.en = ENAMETOOLONG) ∧
    ((t.locate path).partial_matched_size = 0 → (t.remove path ic).1.en = 0) ∧
    (t.remove path ic).2 = t := by
  simp only [trie_t.locate] at hex hdel ⊢
  have hloc : t.root.locate_internal [] path none = t.root.locate path := rfl
  have hen := locate_en t.root path
  have h1 : ¬ (((t.root.locate path).matched && (t.root.locate path).partial_matched_size == 0)
      = true) := by
    simpa using hex
  simp only [trie_t.remove, node.remove, hloc, if_neg h1]
  by_cases hp : (t.root.locate path).partial_matched_size > 0
  · have hp0 : (t.root.locate path).partial_matched_size ≠ 0 := by omega
    simp only [if_pos hp]
    cases hl : t.root.lock (t.root.locate path).ptr with
    | none => simp [hp, hp0]
    | some N =>
      have hd := hdel N hl
      simp only [node.fragment_length] at *
      simp only [node.fragment_length, if_neg hd]
      simp [hp, hp0]
  · have hp0 : (t.root.locate path).partial_matched_size = 0 := by omega
    simp [hp0, hen]

/-- Witness of C12: on the sample store `remove("app.log")` stops inside the
fragment `logging.` and fails with ENAMETOOLONG, and `remove("xyz")` matches
nothing and fails with the error code 0. -/
theorem remove_unmatched_witness :
    ((sample_nat.remove (some "app.log".data) true).1.ok = false ∧
      ((sample_nat.locate (some "app.log".data)).partial_matched_size > 0 →
        (sample_nat.remove (some "app.log".data) true).1.en = ENAMETOOLONG) ∧
      ((sample_nat.locate (some "app.log".data)).partial_matched_size = 0 →
        (sample_nat.remove (some "app.log".data) true).1.en = 0) ∧
      (sample_nat.remove (some "app.log".data) true).2 = sample_nat) ∧
    (sample_nat.locate (some "app.log".data)).partial_matched_size = 3 ∧
    ((sample_nat.remove (some "xyz".data) true).1.ok = false ∧
      ((sample_nat.locate (some "xyz".data)).partial_matched_size > 0 →
        (sample_nat.remove (some "xyz".data) true).1.en = ENAMETOOLONG) ∧
      ((sample_nat.locate (some "xyz".data)).partial_matched_size = 0 →
        (sample_nat.remove (some "xyz".data) true).1.en = 0) ∧
      (sample_nat.remove (some "xyz".data) true).2 = sample_nat) ∧
    (sample_nat.locate (some "xyz".data)).partial_matched_size = 0 :=
  ⟨remove_unmatched sample_nat (some "app.log".data) true (by decide)
      (by
        intro N h
        have e : sample_nat.root.lock (sample_nat.locate (some "app.log".data)).ptr =
            some sample_logging := by rfl
        rw [e] at h
        cases h
        decide),
    by decide,
    remove_unmatched sample_nat (some "xyz".data) true (by decide)
      (by
        intro N h
        have e : sample_nat.root.lock (sample_nat.locate (some "xyz".data)).ptr = none := by rfl
        rw [e] at h
        cases h),
    by decide⟩

/-- C13: `remove` and `has` use the same matching rule.  For every trie whose
root has an empty fragment (which `trie_t()` establishes and `insert` and
`remove` preserve) and every path `k` (the null pointer included),
`remove(k, include_children = true)` returns ok = true if and only if
`has(k, partial_match = false)` is true before the call. -/
theorem remove_iff_has [ValueT V] {d : Char} (t : trie_t V d) (k : Option (List Char))
    (hroot : t.root.fragment = []) :
    (t.remove k true).1.ok = true ↔ t.has k false = true := by
  cases k with
  | none =>
    have hloc : t.root.locate_internal [] none none = t.root.locate none := rfl
    simp [trie_t.remove, trie_t.has, node.remove, node.has, fast_find_none, hloc, locate_none]
  | some q =>
    simp only [trie_t.remove, trie_t.has]
    rcases total_node t.root q with hM | ⟨s, pms, m, hH⟩
    · have h1 : t.root.fast_find (some q) = {} := by
        rw [fast_find_eq_find, find_of_miss t.root q hM]
      simp [node.remove, node.has, h1, miss_locate hM [] none]
    · obtain ⟨pp, i, P, N, hs, hP, hc, hN, hf, hle, hl⟩ :=
        locate_root_hit t.root q hroot s pms m hH
      subst hs
      have hff := fast_find_of_hit t.root q _ pms m hH
      simp only [node.remove, node.has, hl, hff, node.lock, hN, node.fragment_length]
      rcases hit_touched hH with ⟨hm1, hp1⟩ | ⟨hm1, hp1⟩
      · subst hm1 hp1
        simp [removed_fully_ok t.root _ pp i P N 0 hP hc]
      · subst hm1
        have hp2 : pms ≠ 0 := by omega
        by_cases hd : N.fragment.length = pms + 1 ∧ N.fragment[N.fragment.length - 1]? = some d
        · simp only [if_pos hd]
          simp [hp2, hp1, removed_fully_ok t.root _ pp i P N 0 hP hc]
        · simp only [if_neg hd]
          simp [hp2, hp1]

/-- Witness of C13: the sample store, for the path `app.logging` (both sides true). -/
theorem remove_iff_has_witness :
    ((sample_nat.remove (some "app.logging".data) true).1.ok = true ↔
      sample_nat.has (some "app.logging".data) false = true) ∧
    sample_nat.has (some "app.logging".data) false = true :=
  ⟨remove_iff_has sample_nat (some "app.logging".data) (by decide), by decide⟩

/-- The radix compaction invariant for clean inserts.  In every trie made from
the empty trie by a sequence of inserts each of which, when it is made, has a
non-empty key whose lookup is matched, or finds no node, or stops unmatched at
a node `N` such that the matched part of the full path of `N` is a proper
prefix of the key and `N` has no children when the lookup stopped inside its
fragment: every non-root node has a non-empty fragment, and no node has two
children whose fragments share a non-empty common prefix. -/
theorem radix_compaction [ValueT V] {d : Char} (t : trie_t V d) (h : clean_built t) :
    (∀ s N, s ≠ [] → t.root.get_at s = some N → N.fragment ≠ []) ∧
    (∀ (s : List Nat) (N : node V) (i j : Nat) (c1 c2 : node V) (x : List Char),
      t.root.get_at s = some N → N.children[i]? = some c1 →
      N.children[j]? = some c2 → i ≠ j → x <+: c1.fragment → x <+: c2.fragment →
      x = []) :=
  frags_ok_spec t.root (invariants_of_clean_built t h).2.2

/-- An instance of the compaction invariant: the sample store is made by eight clean
inserts. -/
theorem radix_compaction_witness :
    (∀ s N, s ≠ [] → sample_nat.root.get_at s = some N → N.fragment ≠ []) ∧
    (∀ (s : List Nat) (N : node Nat) (i j : Nat) (c1 c2 : node Nat) (x : List Char),
      sample_nat.root.get_at s = some N → N.children[i]? = some c1 →
      N.children[j]? = some c2 → i ≠ j → x <+: c1.fragment → x <+: c2.fragment →
      x = []) :=
  radix_compaction sample_nat (clean_built_insert_all _ _ clean_built.new (by decide))

/-- C14 (the code at the failing input): after the inserts of `abb`, `abc` and
`aq` the node of fragment `a` has the four children `b`, `c`, `b` and `q`, so
its first and third child share the non-empty prefix `b`; and after the inserts
of `abc` and `ab` the second child of the node of fragment `ab` has an empty
fragment. -/
theorem radix_compaction_bug :
    (abq_store.root.get_at [0]).map node.fragment = some "a".data ∧
    (abq_store.root.get_at [0]).map (fun N => N.children.map node.fragment) =
      some ["b".data, "c".data, "b".data, "q".data] ∧
    (abq_store.root.get_at [0, 0]).map node.fragment = some "b".data ∧
    (abq_store.root.get_at [0, 2]).map node.fragment = some "b".data ∧
    ((abc_store.insert (c_str "ab") 7).2.root.get_at [0, 1]).map node.fragment = some [] :=
  ⟨by decide, by decide, by decide, by decide, by decide⟩

/-- C15: split correctness.  Inserting `herz` and then `hers` into an empty
trie, with any values, gives a root with a single child of kind Branch whose
fragment is `her`, which has exactly two children of kind Leaf with the
fragments `z` and `s`, in that order, holding the values of `herz` and `hers`;
`find("herz")` and `find("hers")` report an exact match and return those
leaves. -/
theorem split_herz_hers [ValueT V] {d : Char} (v1 v2 : V) :
    (herz_trie v1 v2 : trie_t V d).root = herz_tree v1 v2 ∧
    (herz_trie v1 v2 : trie_t V d).find (c_str "herz") =
      { partial_matched_size := 0, ptr := some [0, 0], en := 0, matched := true } ∧
    (herz_trie v1 v2 : trie_t V d).find (c_str "hers") =
      { partial_matched_size := 0, ptr := some [0, 1], en := 0, matched := true } ∧
    (herz_trie v1 v2 : trie_t V d).root.lock (some [0, 0]) =
      some (node.mk NodeType.NODE_LEAF "herz".data "z".data v1 []) ∧
    (herz_trie v1 v2 : trie_t V d).root.lock (some [0, 1]) =
      some (node.mk NodeType.NODE_LEAF "hers".data "s".data v2 []) := by
  have h : (herz_trie v1 v2 : trie_t V d) = ⟨herz_tree v1 v2⟩ := by
    unfold herz_trie
    iterate 2
      rw [trie_t.insert_all]
      simp [trie_t.insert, trie_t.new, node.insert, node.empty,
        node.fast_find_internal, node.fast_find_children, common_prefix, common_prefix_loop,
        c_str, node.lock, node.get_at, node.modify_at, node.set_value, node.add, node.set_type,
        node.set_path, node.set_fragment, substr_head, node.fragment, node.path, node.value,
        node.fragment_length, List.modify]
    simp [trie_t.insert_all, herz_tree]
  rw [h]
  refine ⟨rfl, ?_, ?_, ?_, ?_⟩
  all_goals
    simp [herz_tree, trie_t.find, node.find, node.locate, node.locate_internal,
      node.locate_children, common_prefix, common_prefix_loop, c_str, node.lock, node.get_at]

/-- C16: size counts leaves.  For every trie, `size()` equals the number of
nodes of the whole tree, the root included, whose kind is NODE_LEAF. -/
theorem size_counts_leaves {d : Char} (t : trie_t V d) : t.size = t.root.count_leaves := by
  simp only [trie_t.size, trie_t.walk, node.walk]
  exact walk_internal_count_leaves t.root [] 0 0

/-- C17: `has` with partial matching.  For every trie and query `q` (the null
pointer included), `has(q, partial_match = true)` is true if and only if the
raw lookup `fast_find(q)` is matched or records a non-zero
partial_matched_size; hence `has(q, false)` implies `has(q, true)`.  With the
keys `app/home/ops` and `app/home/admin` and the delimiter `/`,
`has("app/h", true)` is true. -/
theorem has_partial_iff {d : Char} (t : trie_t V d) (q : Option (List Char)) :
    (t.has q true = true ↔
      ((t.fast_find q).matched = true ∨ (t.fast_find q).partial_matched_size > 0)) ∧
    (t.has q false = true → t.has q true = true) ∧
    slash_store.has (c_str "app/h") true = true := by
  refine ⟨?_, ?_, by decide⟩
  all_goals
    simp only [trie_t.has, trie_t.fast_find]
    cases q with
    | none => simp [node.has, fast_find_none]
    | some q =>
      rcases fast_find_cases t.root q with ⟨_, hf⟩ | ⟨s, pms, m, N, _, hN, _, _, htouch, hf⟩
      · simp [node.has, hf]
      · rcases htouch with ⟨hm, hp⟩ | ⟨hm, hp⟩
        · subst hm hp
          simp [node.has, hf]
        · subst hm
          have hp2 : pms ≠ 0 := by omega
          simp only [node.has, hf, node.lock, hN]
          by_cases hd : N.fragment_length = pms + 1 ∧
              N.fragment[N.fragment_length - 1]? = some d
          · simp [hd, hp]
          · simp [hd, hp]

/-- C18: `get` agrees with `has`.  For every trie the operations produce from
the empty trie, every query `q` (the null pointer included) and default `dv`:
if `has(q, false)` is true, `get(q)` and `get(q, dv)` both return the value of
the node `fast_find(q)` located; if `has(q, false)` is false, `get(q, dv)`
returns `dv` and `get(q)` returns the empty (default-constructed) value. -/
theorem get_agrees_with_has [ValueT V] {d : Char} (t : trie_t V d) (q : Option (List Char))
    (dv : V) (hr : reachable t) :
    (t.has q false = true →
      ∃ N, t.root.lock (t.fast_find q).ptr = some N ∧ t.get q = N.value ∧
        t.get_or q dv = N.value) ∧
    (t.has q false = false → t.get_or q dv = dv ∧ t.get q = default) := by
  have hv := (root_of_reachable t hr).2
  simp only [trie_t.has, trie_t.fast_find, trie_t.get, trie_t.get_or]
  cases q with
  | none => simp [node.has, node.get, node.get_or, fast_find_none, hv]
  | some q =>
    rcases fast_find_cases t.root q with ⟨_, hf⟩ | ⟨s, pms, m, N, _, hN, _, _, htouch, hf⟩
    · simp [node.has, node.get, node.get_or, hf, hv]
    · rcases htouch with ⟨hm, hp⟩ | ⟨hm, hp⟩
      · subst hm hp
        simp [node.has, node.get, node.get_or, hf, node.lock, hN]
      · subst hm
        have hp2 : pms ≠ 0 := by omega
        have hp3 : pms > 0 := hp
        simp only [node.has, node.get, node.get_or, hf, node.lock, hN, Bool.false_eq_true,
          if_false, if_pos hp3]
        by_cases hd : N.fragment_length = pms + 1 ∧
            N.fragment[N.fragment_length - 1]? = some d
        · simp only [if_pos hd]
          simp
        · simp only [if_neg hd]
          simp [hv]

/-- Witness of C18: the sample store, for the key `app.dump` (found, value 3)
and the default 77. -/
theorem get_agrees_with_has_witness :
    ((sample_nat.has (some "app.dump".data) false = true →
      ∃ N, sample_nat.root.lock (sample_nat.fast_find (some "app.dump".data)).ptr = some N ∧
        sample_nat.get (some "app.dump".data) = N.value ∧
        sample_nat.get_or (some "app.dump".data) 77 = N.value) ∧
    (sample_nat.has (some "app.dump".data) false = false →
      sample_nat.get_or (some "app.dump".data) 77 = 77 ∧
      sample_nat.get (some "app.dump".data) = default)) ∧
    sample_nat.has (some "app.dump".data) false = true ∧
    sample_nat.get (some "app.dump".data) = 3 :=
  ⟨get_agrees_with_has sample_nat (some "app.dump".data) 77 reachable_sample_nat,
    by decide, by decide⟩

/-- C19 (the code at the failing input): in the store holding `herz` with the
value 1, the key `hers` is not matched, yet `insert("hers", 2)` returns ok =
true with old = 1, the value of the other key `herz`, which moved to the leaf
`z` of the split. -/
theorem insert_old_bug :
    (herz_store.find (c_str "hers")).matched = false ∧
    herz_store.has (c_str "hers") false = false ∧
    (herz_store.insert (c_str "hers") 2).1.ok = true ∧
    (herz_store.insert (c_str "hers") 2).1.old = 1 ∧
    (herz_store.insert (c_str "hers") 2).2.get (c_str "herz") = 1 ∧
    (herz_store.insert (c_str "hers") 2).2.get (c_str "hers") = 2 := by decide

/-- C20: `walk` is a pre-order traversal.  For every trie: every callback
invocation is for a node of the tree whose kind is not NODE_NONE and passes
the kind of that node, the node, its depth (the length of its position, 0 for
the root) and its index among its siblings (the last step of its position, 0
for the root); every node whose kind is not NODE_NONE gets an invocation; no
node gets two; and the invocations come in the lexicographic order of the
positions, which is the depth-first pre-order with the children in stored
order. -/
theorem walk_preorder {d : Char} (t : trie_t V d) :
    (∀ c ∈ t.walk, ∃ N, t.root.get_at c.ptr = some N ∧ N.type ≠ NodeType.NODE_NONE ∧
      c.type = N.type ∧ c.level = c.ptr.length ∧ c.index = c.ptr.getLast?.getD 0) ∧
    (∀ p N, t.root.get_at p = some N → N.type ≠ NodeType.NODE_NONE →
      ∃ c ∈ t.walk, c.ptr = p) ∧
    (t.walk.map (fun c => c.ptr)).Nodup ∧
    (t.walk.map (fun c => c.ptr)).Pairwise (List.Lex (· < ·)) := by
  simp only [trie_t.walk, node.walk]
  have hs := walk_internal_sorted t.root [] 0 0
  refine ⟨?_, ?_, ?_, ?_⟩
  · intro c hc
    obtain ⟨r, N, hp, hN, hne, hty, hl, hi⟩ := walk_internal_sound t.root [] 0 0 c hc
    simp only [List.nil_append] at hp
    subst hp
    exact ⟨N, hN, hne, hty, by simpa using hl, hi⟩
  · intro p N hN hne
    obtain ⟨c, hc, hp⟩ := walk_internal_complete t.root [] 0 0 p N hN hne
    exact ⟨c, hc, by simpa using hp⟩
  · rw [List.Nodup, List.pairwise_map]
    exact hs.imp (fun h => lex_lt_ne _ _ h)
  · rw [List.pairwise_map]
    exact hs

/-- C21 (as amended): `fast_find`, the query ends inside a fragment.  For
every node and every non-empty remaining query `q` that is a strict prefix of
the fragment of the node (common_prefix = len(q) < len(fragment)),
`fast_find_internal` returns false and reports matched = false with
partial_matched_size = len(q) and that node; `locate_internal` reports the
same. -/
theorem fast_find_inside_fragment (t : NodeType) (p frag : List Char) (v : V)
    (cs : List (node V)) (self : node_ptr) (parent : weak_node_ptr) (q : List Char)
    (hq : q ≠ []) (hpre : q <+: frag) (hlt : q.length < frag.length) :
    common_prefix frag frag.length q q.length = q.length ∧
    node.fast_find_internal (node.mk t p frag v cs) self {} q q.length =
      (false, { partial_matched_size := q.length, ptr := some self, en := 0, matched := false }) ∧
    (node.locate_internal (node.mk t p frag v cs) self (some q) parent).tofind_return_s =
      { partial_matched_size := q.length, ptr := some self, en := 0, matched := false } := by
  have hc := cpl_of_query_pre frag q hpre
  have hpos : 0 < cpl frag q := by
    rw [hc]; exact List.length_pos.mpr hq
  have hH := Hit.stop_short t p frag v cs q hpos hlt
  refine ⟨hc, ?_, ?_⟩
  · rw [hit_fast_find hH self, hc]; simp [hit_ctx]
  · rw [hit_locate hH self parent, hc]; simp [hit_result]

/-- Witness of C21: the query `ab` at the leaf of fragment `abc`. -/
theorem fast_find_inside_fragment_witness :
    common_prefix "abc".data "abc".data.length "ab".data "ab".data.length = "ab".data.length ∧
    node.fast_find_internal abc_leaf [0] {} "ab".data "ab".data.length =
      (false,
        { partial_matched_size := "ab".data.length, ptr := some [0], en := 0, matched := false })
      ∧
    (node.locate_internal abc_leaf [0] (some "ab".data) (some [])).tofind_return_s =
      { partial_matched_size := "ab".data.length, ptr := some [0], en := 0, matched := false } :=
  fast_find_inside_fragment NodeType.NODE_LEAF "abc".data "abc".data 3 [] [0] (some [])
    "ab".data (by decide) (by decide) (by decide)

/-- Counterexample to C21 as stated: in the trie holding `abc` the query `ab`
is a strict prefix of the fragment `abc`, and `fast_find("ab")` reports
matched = false (with partial_matched_size 2 and the node `abc`). -/
theorem fast_find_inside_fragment_counterexample :
    (abc_store.root.get_at [0]).map node.fragment = some "abc".data ∧
    (abc_store.fast_find (c_str "ab")).matched = false ∧
    (abc_store.fast_find (c_str "ab")).partial_matched_size = 2 ∧
    (abc_store.fast_find (c_str "ab")).ptr = some [0] ∧
    (node.fast_find_internal abc_leaf [0] {} "ab".data 2).1 = false := by decide

/-- C22: the empty query never matches.  For every trie, `fast_find("")` and
`find("")` report matched = false with partial_matched_size = 0 and no node,
and a null path gives the same result. -/
theorem empty_query_no_match {d : Char} (t : trie_t V d) :
    t.fast_find (some []) =
      { partial_matched_size := 0, ptr := none, en := 0, matched := false } ∧
    t.find (some []) = { partial_matched_size := 0, ptr := none, en := 0, matched := false } ∧
    t.fast_find none = { partial_matched_size := 0, ptr := none, en := 0, matched := false } ∧
    t.find none = { partial_matched_size := 0, ptr := none, en := 0, matched := false } := by
  have h := find_of_miss t.root [] (miss_nil t.root)
  refine ⟨?_, ?_, ?_, ?_⟩
  · simp only [trie_t.fast_find, fast_find_eq_find, h]
  · simp only [trie_t.find, h]
  · rfl
  · simp only [trie_t.find, ← fast_find_eq_find]; rfl

/-- C23: the documented sample tree.  After the eight sample inserts, with any
values, `dump` writes one line for every non-root node, in pre-order, with
(fragment, kind, depth): (app., Branch, 1), (d, Branch, 2), (ebug, Leaf, 3),
(ump, Leaf, 3), (verbose, Leaf, 2), (logging., Branch, 2), (file, Leaf, 3),
(rotate, Leaf, 3), (words, Leaf, 3), (server.s, Branch, 2), (tart, Leaf, 3),
(ites, Leaf, 3); the full path of every leaf is the key that was inserted and
its value the value inserted with it; `walk` visits the same nodes in the same
order after the root. -/
theorem sample_dump [ValueT V] (v1 v2 v3 v4 v5 v6 v7 v8 : V) :
    (sample_trie v1 v2 v3 v4 v5 v6 v7 v8).dump =
      [⟨1, "app.".data, NodeType.NODE_BRANCH, none⟩,
       ⟨2, "d".data, NodeType.NODE_BRANCH, none⟩,
       ⟨3, "ebug".data, NodeType.NODE_LEAF, some ("app.debug".data, v1)⟩,
       ⟨3, "ump".data, NodeType.NODE_LEAF, some ("app.dump".data, v3)⟩,
       ⟨2, "verbose".data, NodeType.NODE_LEAF, some ("app.verbose".data, v2)⟩,
       ⟨2, "logging.".data, NodeType.NODE_BRANCH, none⟩,
       ⟨3, "file".data, NodeType.NODE_LEAF, some ("app.logging.file".data, v4)⟩,
       ⟨3, "rotate".data, NodeType.NODE_LEAF, some ("app.logging.rotate".data, v6)⟩,
       ⟨3, "words".data, NodeType.NODE_LEAF, some ("app.logging.words".data, v7)⟩,
       ⟨2, "server.s".data, NodeType.NODE_BRANCH, none⟩,
       ⟨3, "tart".data, NodeType.NODE_LEAF, some ("app.server.start".data, v5)⟩,
       ⟨3, "ites".data, NodeType.NODE_LEAF, some ("app.server.sites".data, v8)⟩] ∧
    (sample_trie v1 v2 v3 v4 v5 v6 v7 v8).walk =
      [⟨NodeType.NODE_BRANCH, [], 0, 0⟩,
       ⟨NodeType.NODE_BRANCH, [0], 0, 1⟩,
       ⟨NodeType.NODE_BRANCH, [0, 0], 0, 2⟩,
       ⟨NodeType.NODE_LEAF, [0, 0, 0], 0, 3⟩,
       ⟨NodeType.NODE_LEAF, [0, 0, 1], 1, 3⟩,
       ⟨NodeType.NODE_LEAF, [0, 1], 1, 2⟩,
       ⟨NodeType.NODE_BRANCH, [0, 2], 2, 2⟩,
       ⟨NodeType.NODE_LEAF, [0, 2, 0], 0, 3⟩,
       ⟨NodeType.NODE_LEAF, [0, 2, 1], 1, 3⟩,
       ⟨NodeType.NODE_LEAF, [0, 2, 2], 2, 3⟩,
       ⟨NodeType.NODE_BRANCH, [0, 3], 3, 2⟩,
       ⟨NodeType.NODE_LEAF, [0, 3, 0], 0, 3⟩,
       ⟨NodeType.NODE_LEAF, [0, 3, 1], 1, 3⟩] := by
  rw [sample_trie_eq]
  constructor
  · simp [sample_tree, trie_t.dump, node.dump_r, node.dump_children]
  · simp [sample_tree, trie_t.walk, node.walk, node.walk_internal, node.walk_children]

/-- C24 (the code at the failing input): with the keys ab.x = 1 and ab.y = 2
stored, `find("ab.x")` is exactly matched and `get("ab.x") = 1`, yet after
`insert("abx", 9)` `get("ab.x")` is 9; and with the keys abb = 1 and abc = 2
stored, after `insert("aq", 3)` `find("abb")` is no longer matched and
`get("abb")` is the empty value. -/
theorem insert_frame_bug :
    ((abxy_store.find (c_str "ab.x")).matched = true ∧
      (abxy_store.find (c_str "ab.x")).partial_matched_size = 0 ∧
      abxy_store.get (c_str "ab.x") = 1 ∧
      ((abxy_store.insert (c_str "abx") 9).2.find (c_str "ab.x")).matched = true ∧
      (abxy_store.insert (c_str "abx") 9).2.get (c_str "ab.x") = 9) ∧
    ((abbc_store.find (c_str "abb")).matched = true ∧
      (abbc_store.find (c_str "abb")).partial_matched_size = 0 ∧
      abbc_store.get (c_str "abb") = 1 ∧
      ((abbc_store.insert (c_str "aq") 3).2.find (c_str "abb")).matched = false ∧
      (abbc_store.insert (c_str "aq") 3).2.get (c_str "abb") = 0) := by decide

/-- C25 (the code at the failing input): with the keys ab.x and ab.y stored,
`find("abx")` and `fast_find("abx")` report matched = true, and the node they
return has the full path `ab.x`, not `abx`. -/
theorem find_sound_bug :
    (abxy_store.find (c_str "abx")).matched = true ∧
    (abxy_store.fast_find (c_str "abx")).matched = true ∧
    (abxy_store.root.lock (abxy_store.find (c_str "abx")).ptr).map node.path
      = some "ab.x".data ∧
    (abxy_store.root.lock (abxy_store.fast_find (c_str "abx")).ptr).map node.path
      = some "ab.x".data := by decide

/-- C26 (the code at the failing input): with the keys ab.x and ab.y stored,
`has("abx")` is true although the full paths of the nodes are the empty path,
`ab.`, `ab.x` and `ab.y`; and on the sample store `has("app.loggingX")` is true
although no node has the full path `app.loggingX` or `app.loggingX.`. -/
theorem has_sound_bug :
    abxy_store.has (c_str "abx") false = true ∧
    abxy_store.root.all_paths = ["".data, "ab.".data, "ab.x".data, "ab.y".data] ∧
    sample_nat.has (c_str "app.loggingX") false = true ∧
    (sample_nat.find (c_str "app.loggingX")).matched = false ∧
    "app.loggingX".data ∉ sample_nat.root.all_paths ∧
    "app.loggingX.".data ∉ sample_nat.root.all_paths := by decide

/-- C27 (the code at the failing input): after the inserts of `abb`, `abc` and
`aq` the node at position [0, 0] has the full path `abb`, but the fragments
from the root to it are the empty fragment, `a` and `b`, whose concatenation
is `ab`. -/
theorem full_path_bug :
    abq_store.root.fragment = [] ∧
    (abq_store.root.get_at [0]).map node.fragment = some "a".data ∧
    (abq_store.root.get_at [0, 0]).map node.fragment = some "b".data ∧
    (abq_store.root.get_at [0, 0]).map node.path = some "abb".data ∧
    route_frags abq_store.root [0, 0] ++ "b".data = "ab".data ∧
    node.paths_ok [] abq_store.root = false := by decide

/-- C28 (as amended): the kind invariant.  In every trie the operations
produce from the empty trie by inserts and removes, the root has kind
NODE_NONE or NODE_BRANCH, a root that has a child has kind NODE_BRANCH, and
every other node has kind NODE_LEAF or NODE_BRANCH, so no node that has a
child has kind NODE_NONE.  In every trie made by inserts alone, every node of
kind NODE_BRANCH has at least one child, so every childless non-root node has
kind NODE_LEAF. -/
theorem kind_invariant [ValueT V] {d : Char} (t : trie_t V d) :
    (reachable t →
      (t.root.type = NodeType.NODE_NONE ∨ t.root.type = NodeType.NODE_BRANCH) ∧
      (t.root.children ≠ [] → t.root.type = NodeType.NODE_BRANCH) ∧
      (∀ s N, s ≠ [] → t.root.get_at s = some N →
        (N.type = NodeType.NODE_LEAF ∨ N.type = NodeType.NODE_BRANCH)) ∧
      (∀ s N, t.root.get_at s = some N → N.children ≠ [] →
        N.type ≠ NodeType.NODE_NONE)) ∧
    (built t →
      (∀ s N, t.root.get_at s = some N → N.type = NodeType.NODE_BRANCH →
        N.children ≠ []) ∧
      (∀ s N, s ≠ [] → t.root.get_at s = some N → N.children = [] →
        N.type = NodeType.NODE_LEAF)) := by
  constructor
  · intro hr
    have hk := kinds_of_reachable t hr
    have hroot := (root_kind_of_reachable t hr).2
    have hnr : ∀ s N, s ≠ [] → t.root.get_at s = some N →
        (N.type = NodeType.NODE_LEAF ∨ N.type = NodeType.NODE_BRANCH) := by
      intro s N hs hN
      exact (kind_ok_false_iff N).mp ((kind_ok_of_get_at false t.root s N hk hN).2 hs)
    refine ⟨?_, ?_, hnr, ?_⟩
    · rcases hroot with hB | ⟨hN, _⟩
      · exact Or.inr hB
      · exact Or.inl hN
    · intro hc
      rcases hroot with hB | ⟨_, hc2⟩
      · exact hB
      · exact absurd hc2 hc
    · intro s N hN hc
      by_cases hs : s = []
      · subst hs
        simp only [node.get_at, Option.some.injEq] at hN
        subst hN
        rcases hroot with hB | ⟨_, hc2⟩
        · rw [hB]; decide
        · exact absurd hc2 hc
      · rcases hnr s N hs hN with h | h <;> rw [h] <;> decide
  · intro hb
    have hk := kinds_of_built t hb
    have key : ∀ s N, s ≠ [] → t.root.get_at s = some N →
        ((N.type = NodeType.NODE_LEAF ∨ N.type = NodeType.NODE_BRANCH) ∧
          (N.type = NodeType.NODE_BRANCH → N.children ≠ [])) := by
      intro s N hs hN
      exact (kind_ok_true_iff N).mp ((kind_ok_of_get_at true t.root s N hk.1 hN).2 hs)
    constructor
    · intro s N hN hB
      by_cases hs : s = []
      · subst hs
        simp only [node.get_at, Option.some.injEq] at hN
        subst hN
        exact hk.2 hB
      · exact (key s N hs hN).2 hB
    · intro s N hs hN hc
      rcases (key s N hs hN).1 with h | h
      · exact h
      · exact absurd hc ((key s N hs hN).2 h)

/-- Witness of C28: the sample store, which eight inserts make from the empty
trie. -/
theorem kind_invariant_witness :
    ((sample_nat.root.type = NodeType.NODE_NONE ∨
        sample_nat.root.type = NodeType.NODE_BRANCH) ∧
      (sample_nat.root.children ≠ [] → sample_nat.root.type = NodeType.NODE_BRANCH) ∧
      (∀ s N, s ≠ [] → sample_nat.root.get_at s = some N →
        (N.type = NodeType.NODE_LEAF ∨ N.type = NodeType.NODE_BRANCH)) ∧
      (∀ s N, sample_nat.root.get_at s = some N → N.children ≠ [] →
        N.type ≠ NodeType.NODE_NONE)) ∧
    ((∀ s N, sample_nat.root.get_at s = some N → N.type = NodeType.NODE_BRANCH →
        N.children ≠ []) ∧
      (∀ s N, s ≠ [] → sample_nat.root.get_at s = some N → N.children = [] →
        N.type = NodeType.NODE_LEAF)) :=
  ⟨(kind_invariant sample_nat).1 reachable_sample_nat,
    (kind_invariant sample_nat).2 built_sample_nat⟩

/-- Counterexample to C28 as stated: after the inserts of `ab` and `abc` the
node `ab` has one child and the kind NODE_LEAF; and after the inserts of `a.b`
and `a.c` and the removal of both keys the node `a.` has no child and the kind
NODE_BRANCH. -/
theorem kind_invariant_counterexample :
    (ab_abc_store.root.get_at [0]).map node.fragment = some "ab".data ∧
    (ab_abc_store.root.get_at [0]).map node.children_count = some 1 ∧
    (ab_abc_store.root.get_at [0]).map node.type = some NodeType.NODE_LEAF ∧
    (emptied_store.root.get_at [0]).map node.fragment = some "a.".data ∧
    (emptied_store.root.get_at [0]).map node.children_count = some 0 ∧
    (emptied_store.root.get_at [0]).map node.type = some NodeType.NODE_BRANCH := by decide

/-- C29: the root invariant.  In every trie the operations produce from the
empty trie, the root has an empty fragment, an empty full path and an empty
value, and its kind is NODE_NONE or NODE_BRANCH: it is NODE_NONE in the new
trie, an `insert` with a null path and every `remove` keep it as it is, and
after an `insert` with a non-null path it is NODE_BRANCH. -/
theorem root_invariant [ValueT V] {d : Char} (t : trie_t V d) (h : reachable t) :
    t.root.fragment = [] ∧ t.root.path = [] ∧ t.root.value = default ∧
    (t.root.type = NodeType.NODE_NONE ∨ t.root.type = NodeType.NODE_BRANCH) ∧
    (trie_t.new : trie_t V d).root.type = NodeType.NODE_NONE ∧
    (∀ k v, (t.insert (some k) v).2.root.type = NodeType.NODE_BRANCH) ∧
    (∀ v, (t.insert none v).2.root.type = t.root.type) ∧
    (∀ path ic, (t.remove path ic).2.root.type = t.root.type) := by
  have h1 := root_of_reachable t h
  have h2 := root_kind_of_reachable t h
  refine ⟨h1.1, h2.1, h1.2, ?_, rfl, ?_, ?_, ?_⟩
  · rcases h2.2 with hB | ⟨hN, _⟩
    · exact Or.inr hB
    · exact Or.inl hN
  · intro k v
    exact (root_path_type_insert t k v h1.1 (h2.2.imp id (fun h => h.2))).2.1
  · intro v
    simp [trie_t.insert, node.insert]
  · intro path ic
    exact (root_path_type_remove t path ic).2

/-- Witness of C29: the sample store. -/
theorem root_invariant_witness :
    sample_nat.root.fragment = [] ∧ sample_nat.root.path = [] ∧
    sample_nat.root.value = default ∧
    (sample_nat.root.type = NodeType.NODE_NONE ∨
      sample_nat.root.type = NodeType.NODE_BRANCH) ∧
    (trie_t.new : trie_t Nat '.').root.type = NodeType.NODE_NONE ∧
    (∀ k v, (sample_nat.insert (some k) v).2.root.type = NodeType.NODE_BRANCH) ∧
    (∀ v, (sample_nat.insert none v).2.root.type = sample_nat.root.type) ∧
    (∀ path ic, (sample_nat.remove path ic).2.root.type = sample_nat.root.type) :=
  root_invariant sample_nat reachable_sample_nat

/-- C30: overwrite is in place.  For every trie and key `k` that `fast_find`
matches exactly at the node `N` at position `p`, `insert(k, v)`, and `set(k,
v)` which is the same call, returns ok = true with old = the previous value
of `N` and changes nothing but the value of `N`: at every position the kind,
full path, fragment and number of children are as before, the value of every
other node is as before, and the value of `N` is `v`. -/
theorem overwrite_in_place [ValueT V] {d : Char} (t : trie_t V d) (k : List Char) (v : V)
    (p : node_ptr)
    (hm : (t.fast_find (some k)).matched = true)
    (hp0 : (t.fast_find (some k)).partial_matched_size = 0)
    (hp : (t.fast_find (some k)).ptr = some p) :
    t.set (some k) v = t.insert (some k) v ∧
    (t.insert (some k) v).1.ok = true ∧
    (t.root.get_at p).map node.value = some (t.insert (some k) v).1.old ∧
    (t.insert (some k) v).2.root = node.modify_at (node.set_value v) p t.root ∧
    (∀ q, ((t.insert (some k) v).2.root.get_at q).map node.label =
      (t.root.get_at q).map node.label) ∧
    (∀ q, q ≠ p → ((t.insert (some k) v).2.root.get_at q).map node.value =
      (t.root.get_at q).map node.value) ∧
    ((t.insert (some k) v).2.root.get_at p).map node.value = some v := by
  simp only [trie_t.fast_find] at hm hp0 hp
  rcases fast_find_cases t.root k with ⟨_, hf⟩ | ⟨s, pms, m, N, hH, hN, _, _, _, hf⟩
  · rw [hf] at hm; simp at hm
  · rw [hf] at hm hp0 hp
    simp only [Option.some.injEq] at hm hp0 hp
    subst hm hp0 hp
    have hins := insert_of_matched t.root k v s N hH hN
    have hroot : (t.insert (some k) v).2.root = node.modify_at (node.set_value v) s t.root := by
      rw [trie_insert_root, hins]
    refine ⟨rfl, ?_, ?_, hroot, ?_, ?_, ?_⟩
    · rw [trie_insert_ret, hins]
    · rw [trie_insert_ret, hins, hN]; rfl
    · intro q; rw [hroot]; exact label_modify_at_set_value v s t.root q
    · intro q hq; rw [hroot]; exact value_modify_at_set_value_ne v s t.root q hq
    · rw [hroot, get_at_modify_at _ s t.root N hN]
      cases N; rfl

/-- Witness of C30: `set("app.logging.file", 99)` on the sample store; the
node at position [0, 2, 0], found for the key before the call, holds 99
afterwards. -/
theorem overwrite_in_place_witness :
    sample_nat.set (some "app.logging.file".data) 99 =
      sample_nat.insert (some "app.logging.file".data) 99 ∧
    (sample_nat.insert (some "app.logging.file".data) 99).1.ok = true ∧
    (sample_nat.root.get_at [0, 2, 0]).map node.value =
      some (sample_nat.insert (some "app.logging.file".data) 99).1.old ∧
    (sample_nat.insert (some "app.logging.file".data) 99).2.root =
      node.modify_at (node.set_value 99) [0, 2, 0] sample_nat.root ∧
    (∀ q, ((sample_nat.insert (some "app.logging.file".data) 99).2.root.get_at q).map
      node.label = (sample_nat.root.get_at q).map node.label) ∧
    (∀ q, q ≠ [0, 2, 0] →
      ((sample_nat.insert (some "app.logging.file".data) 99).2.root.get_at q).map node.value =
        (sample_nat.root.get_at q).map node.value) ∧
    ((sample_nat.insert (some "app.logging.file".data) 99).2.root.get_at [0, 2, 0]).map
      node.value = some 99 :=
  overwrite_in_place sample_nat "app.logging.file".data 99 [0, 2, 0]
    (by decide) (by decide) (by decide)

/-- C31 (the code at the failing input): with the keys ab.xyz = 1 and ab.w = 2
stored, the lookup of `abxq` stops unmatched at the leaf of fragment `xyz` with
partial_matched_size 1, strictly inside the fragment.  `insert("abxq", 3)`
keeps the node at its position as a Branch of fragment `x`, full path `ab.x`
and empty value, and appends two leaves: one of fragment `yz`, full path
`ab.xyz` and value 1, and one of full path `abxq` and value 3 whose fragment is
empty, not the suffix `q` that remains of `abxq` after the matched characters;
afterwards `has("abxq")` is false. -/
theorem split_step_bug :
    (abxyz_store.fast_find (c_str "abxq")).matched = false ∧
    (abxyz_store.fast_find (c_str "abxq")).partial_matched_size = 1 ∧
    (abxyz_store.fast_find (c_str "abxq")).ptr = some [0, 0] ∧
    (abxyz_store.root.get_at [0, 0]).map node.fields =
      some (NodeType.NODE_LEAF, "ab.xyz".data, "xyz".data, 1) ∧
    (abxyz_store.root.get_at [0, 0]).map node.children_count = some 0 ∧
    ((abxyz_store.insert (c_str "abxq") 3).2.root.get_at [0, 0]).map node.fields =
      some (NodeType.NODE_BRANCH, "ab.x".data, "x".data, 0) ∧
    ((abxyz_store.insert (c_str "abxq") 3).2.root.get_at [0, 0]).map
        (fun n => n.children.map node.fields) =
      some [(NodeType.NODE_LEAF, "ab.xyz".data, "yz".data, 1),
        (NodeType.NODE_LEAF, "abxq".data, "".data, 3)] ∧
    (abxyz_store.insert (c_str "abxq") 3).2.has (c_str "abxq") false = false :=
  ⟨by decide, by decide, by decide, by decide, by decide, by decide, by decide, by decide⟩

/-- C32: `locate` and `fast_find` are the same traversal.  For every trie and
every query `q`, `locate(q)` and `fast_find(q)` return the same
partial_matched_size, the same node, the same error code and the same matched
flag, and so does `find(q)`; the same holds for `locate_internal` and
`fast_find_internal` (called on a fresh context) at every node. -/
theorem locate_fast_find_same {d : Char} (t : trie_t V d) (q : Option (List Char)) :
    (t.locate q).partial_matched_size = (t.fast_find q).partial_matched_size ∧
    (t.locate q).ptr = (t.fast_find q).ptr ∧
    (t.locate q).matched = (t.fast_find q).matched ∧
    (t.locate q).en = (t.fast_find q).en ∧
    t.find q = t.fast_find q ∧
    (∀ (n : node V) (k : List Char) (self : node_ptr) (parent : weak_node_ptr),
      node.fast_find_internal n self {} k k.length =
        ((node.locate_internal n self (some k) parent).matched,
          (node.locate_internal n self (some k) parent).tofind_return_s)) := by
  have h : t.root.fast_find q = (t.root.locate q).tofind_return_s := fast_find_eq_find t.root q
  refine ⟨?_, ?_, ?_, ?_, ?_, fun n k self parent =>
    fast_find_internal_eq_locate n k self parent⟩ <;>
    simp only [trie_t.locate, trie_t.fast_find, trie_t.find, node.find, h]

/-- C33: `locate` returns the direct parent only.  For every trie whose root has
the empty fragment (as every trie made by the constructor, `insert` and
`remove` has) and every query `q` for which `locate(q)` returns a node `N`, at
position `s`, the node is the child of index `i` of a node `P` at position `pp`
with `s = pp ++ [i]`, and the parents list of the result has exactly one
element, the pointer to `P`, whatever the depth of `N` is. -/
theorem locate_parents_direct {d : Char} (t : trie_t V d) (q : List Char) (s : node_ptr)
    (hroot : t.root.fragment = []) (h : (t.locate (some q)).ptr = some s) :
    ∃ (pp : node_ptr) (i : Nat) (P N : node V), s = pp ++ [i] ∧ t.root.get_at pp = some P ∧
      P.children[i]? = some N ∧ t.root.get_at s = some N ∧
      (t.locate (some q)).parents = some [some pp] := by
  simp only [trie_t.locate] at h ⊢
  rcases locate_cases t.root q with ⟨_, hl⟩ | ⟨s2, pms, m, N, hH, _, _, _, _, _, hp, _, _, _⟩
  · rw [hl] at h
    simp at h
  · rw [hp] at h
    have e : s2 = s := by simpa using h
    subst e
    obtain ⟨pp, i, P, N2, hs, hP, hc, hN, _, _, hloc⟩ := locate_root_hit t.root q hroot s2 pms m hH
    refine ⟨pp, i, P, N2, hs, hP, hc, hN, ?_⟩
    simp only [node.locate, hloc]

/-- Witness of C33: on the sample store `locate("app.debug")` returns the node
at position `[0, 0, 0]`. -/
theorem locate_parents_direct_witness :
    ∃ (pp : node_ptr) (i : Nat) (P N : node Nat), [0, 0, 0] = pp ++ [i] ∧
      sample_nat.root.get_at pp = some P ∧ P.children[i]? = some N ∧
      sample_nat.root.get_at [0, 0, 0] = some N ∧
      (sample_nat.locate (some "app.debug".data)).parents = some [some pp] :=
  locate_parents_direct sample_nat "app.debug".data [0, 0, 0] (by decide) (by decide)

/-- Counterexample to C33: on the sample store `locate("app.debug")` returns the
node at depth 3 (position `[0, 0, 0]`, below the root, the node `app.` and its
first child), and the parents list holds one element, the direct parent at
position `[0, 0]`, not the three ancestors. -/
theorem locate_parents_counterexample :
    (sample_nat.locate (c_str "app.debug")).matched = true ∧
    (sample_nat.locate (c_str "app.debug")).ptr = some [0, 0, 0] ∧
    (sample_nat.locate (c_str "app.debug")).parents = some [some [0, 0]] ∧
    ((sample_nat.locate (c_str "app.debug")).parents.map List.length) ≠ some 3 := by decide

/-- C34 (the code at the failing input): with the keys ab = 1 and abc = 2
stored, `ab` is exactly matched at a node that has one child, and
`remove("ab", include_children = false)` returns ok = false with the error
EISDIR; yet the value of the node is 1 before the call and the empty value
after it, and `get("ab")` changes from 1 to the empty value. -/
theorem remove_refused_bug :
    (ab_abc_store.find (c_str "ab")).matched = true ∧
    (ab_abc_store.find (c_str "ab")).ptr = some [0] ∧
    (ab_abc_store.root.get_at [0]).map node.children_count = some 1 ∧
    (ab_abc_store.remove (c_str "ab") false).1.ok = false ∧
    (ab_abc_store.remove (c_str "ab") false).1.en = EISDIR ∧
    (ab_abc_store.root.get_at [0]).map node.value = some 1 ∧
    ((ab_abc_store.remove (c_str "ab") false).2.root.get_at [0]).map node.value = some 0 ∧
    ab_abc_store.get (c_str "ab") = 1 ∧
    (ab_abc_store.remove (c_str "ab") false).2.get (c_str "ab") = 0 :=
  ⟨by decide, by decide, by decide, by decide, by decide, by decide, by decide, by decide,
    by decide⟩

/-- C35 (the code at the failing input): with the keys ab.xyz = 1 and ab.w = 2
stored, the lookup of `abx` stops unmatched at the leaf of full path `ab.xyz`
with partial_matched_size 1.  `insert("abx", 3)` shortens the full path of that
node to `ab.x`, of length 4, which is longer than the key (length 3) and not a
prefix of it, and attaches the new leaf of full path `abx` under it with the
fragment taken at offset 4 of the key. -/
theorem insert_offset_bug :
    (abxyz_store.fast_find (c_str "abx")).matched = false ∧
    (abxyz_store.fast_find (c_str "abx")).partial_matched_size = 1 ∧
    (abxyz_store.fast_find (c_str "abx")).ptr = some [0, 0] ∧
    (abxyz_store.root.get_at [0, 0]).map node.fields =
      some (NodeType.NODE_LEAF, "ab.xyz".data, "xyz".data, 1) ∧
    ((abxyz_store.insert (c_str "abx") 3).2.root.get_at [0, 0]).map node.path =
      some "ab.x".data ∧
    "ab.x".data.length = 4 ∧ "abx".data.length = 3 ∧
    List.isPrefixOf "ab.x".data "abx".data = false ∧
    ((abxyz_store.insert (c_str "abx") 3).2.root.get_at [0, 0, 1]).map node.fields =
      some (NodeType.NODE_LEAF, "abx".data, "abx".data.drop 4, 3) :=
  ⟨by decide, by decide, by decide, by decide, by decide, by decide, by decide, by decide,
    by decide⟩

/-- C36 (the code at the failing input): the keys abb, abc and aq are pairwise
distinct and not empty; with abb and abc stored `size()` is 2 and the lookup of
`aq` is not matched, yet `insert("aq", 3)` raises `size()` to 4, so the three
inserts give `size()` = 4. -/
theorem size_counts_keys_bug :
    ["abb", "abc", "aq"].Nodup ∧
    abbc_store.size = 2 ∧
    (abbc_store.fast_find (c_str "aq")).matched = false ∧
    (abbc_store.insert (c_str "aq") 3).2.size = 4 ∧
    ((trie_t.new : trie_t Nat '.').insert_all [("abb", 1), ("abc", 2), ("aq", 3)]).size = 4 ∧
    ((abbc_store.insert (c_str "aq") 3).2.root.get_at [0]).map
        (fun n => n.children.map node.fields) =
      some [(NodeType.NODE_LEAF, "abb".data, "b".data, 1),
        (NodeType.NODE_LEAF, "abc".data, "c".data, 2),
        (NodeType.NODE_LEAF, "ab".data, "b".data, 0),
        (NodeType.NODE_LEAF, "aq".data, "q".data, 3)] :=
  ⟨by decide, by decide, by decide, by decide, by decide, by decide⟩

/-- C37: a match is always exact.  For every trie and every query `q`,
`fast_find(q)` and `locate(q)` never report matched = true together with
partial_matched_size > 0; and whenever `fast_find_internal`, called by `insert`
on the root with a fresh context, returns true, the partial_matched_size it
leaves is 0, so the split branch of `insert` guarded by a match with a non-zero
partial_matched_size is never taken. -/
theorem match_is_exact {d : Char} (t : trie_t V d) (q : Option (List Char)) :
    ¬ ((t.fast_find q).matched = true ∧ (t.fast_find q).partial_matched_size > 0) ∧
    ¬ ((t.locate q).matched = true ∧ (t.locate q).partial_matched_size > 0) ∧
    (∀ k : List Char, (t.root.fast_find_internal [] {} k k.length).1 = true →
      (t.root.fast_find_internal [] {} k k.length).2.partial_matched_size = 0) := by
  have key : ¬ ((t.root.fast_find q).matched = true ∧
      (t.root.fast_find q).partial_matched_size > 0) := by
    cases q with
    | none => simp [fast_find_none]
    | some q =>
      rcases fast_find_cases t.root q with ⟨_, hf⟩ | ⟨s, pms, m, N, _, _, _, _, htouch, hf⟩
      · simp [hf]
      · rw [hf]
        rcases htouch with ⟨_, hp⟩ | ⟨hm, _⟩
        · simp [hp]
        · simp [hm]
  have h : t.root.fast_find q = (t.root.locate q).tofind_return_s := fast_find_eq_find t.root q
  refine ⟨key, ?_, ?_⟩
  · rw [h] at key
    exact key
  · intro k hk
    rcases total_node t.root k with hM | ⟨s, pms, m, hH⟩
    · rw [miss_fast_find hM []] at hk ⊢
    · rw [hit_fast_find hH []] at hk ⊢
      simp only at hk
      subst hk
      rcases hit_touched hH with ⟨_, hp⟩ | ⟨hm, _⟩
      · simp [hit_ctx, hp]
      · simp at hm

/-- The member `insert` stores a leaf for a key whose offset stays within the
key.  For every trie, every non-null key `k` that `fast_find` does not match
exactly and for which the offset `insert` adds to the key does not exceed the
length of the key, and every value `v`, `insert(k, v)` returns ok = true;
afterwards the tree has, at a position that held no node before, a node of kind
Leaf without children whose full path is `k` and whose value is `v`; and every
position that held a node before the call holds a node after it. -/
theorem insert_stores_leaf [ValueT V] {d : Char} (t : trie_t V d) (k : List Char) (v : V)
    (h : ¬ ((t.fast_find (some k)).matched = true ∧
      (t.fast_find (some k)).partial_matched_size = 0))
    (_hin : t.root.insert_in_range k = true) :
    (t.insert (some k) v).1.ok = true ∧
    (∃ (p : node_ptr) (L : node V), (t.insert (some k) v).2.root.get_at p = some L ∧
      t.root.get_at p = none ∧ L.type = NodeType.NODE_LEAF ∧ L.path = k ∧ L.value = v ∧
      L.children = []) ∧
    (∀ p : node_ptr, (t.root.get_at p).isSome = true →
      ((t.insert (some k) v).2.root.get_at p).isSome = true) := by
  rw [trie_insert_root, trie_insert_ret]
  simp only [trie_t.fast_find] at h
  rcases total_node t.root k with hM | ⟨s, pms, m, hH⟩
  · rw [insert_of_miss_node t.root k v hM]
    cases hr : t.root with
    | mk ty pa fr val cs =>
      refine ⟨rfl, ⟨[cs.length], node.mk NodeType.NODE_LEAF k k v [], ?_, ?_, rfl, rfl, rfl, rfl⟩,
        ?_⟩
      · simp [node.set_type, node.add, node.set_value, node.get_at]
      · simp [node.get_at]
      · intro p hp
        cases p with
        | nil => simp [node.get_at]
        | cons i p =>
          simp only [node.get_at] at hp
          simp only [node.set_type, node.add, node.set_value, node.get_at]
          cases hc : cs[i]? with
          | none => simp [hc] at hp
          | some c =>
            have hi : i < cs.length := (List.getElem?_eq_some_iff.mp hc).1
            rw [List.getElem?_append_left hi, hc]
            simpa [hc] using hp
  · obtain ⟨N, hN, _, _⟩ := hit_get_at hH
    have hm : m = false := by
      rcases hit_touched hH with ⟨hm, hp⟩ | ⟨hm, _⟩
      · exfalso
        apply h
        rw [fast_find_of_hit t.root k s pms m hH]
        exact ⟨hm, hp⟩
      · exact hm
    subst hm
    have hnone : ∀ j, N.children.length ≤ j → t.root.get_at (s ++ [j]) = none := by
      intro j hj
      rw [get_at_append, hN]
      simp only [Option.some_bind, get_at_cons]
      rw [List.getElem?_eq_none hj]
      rfl
    by_cases hend : N.fragment.length - pms = 0
    · rw [insert_of_stop_end t.root k v s pms N hH hN hend]
      refine ⟨rfl, ⟨s ++ [N.children.length],
        node.mk NodeType.NODE_LEAF k (k.drop N.path.length) v [], ?_, hnone _ (Nat.le_refl _),
        rfl, rfl, rfl, rfl⟩, ?_⟩
      · rw [get_at_modify_child _ s _ t.root N hN]
        cases N with
        | mk ty pa fr val cs => simp [node.add, node.children]
      · intro p hp
        apply grow_keeps_positions _ _ s t.root p hp
        intro n
        cases n with
        | mk ty pa fr val cs => exact ⟨_, rfl⟩
    · rw [insert_of_stop_inside t.root k v s pms N hH hN hend]
      refine ⟨rfl, ⟨s ++ [N.children.length + 1],
        node.mk NodeType.NODE_LEAF k
          (k.drop (substr_head N.path (N.fragment.length - pms)).length) v [], ?_,
        hnone _ (Nat.le_succ _), rfl, rfl, rfl, rfl⟩, ?_⟩
      · rw [get_at_modify_child _ s _ t.root N hN]
        cases N with
        | mk ty pa fr val cs =>
          simp only [node.add, node.children, node.set_type, node.set_fragment, node.set_path,
            node.set_value, List.append_assoc, List.singleton_append]
          rw [List.getElem?_append_right (Nat.le_succ _)]
          simp
      · intro p hp
        apply grow_keeps_positions _ _ s t.root p hp
        intro n
        cases n with
        | mk ty pa fr val cs =>
          exact ⟨[node.mk NodeType.NODE_LEAF N.path (N.fragment.drop pms) N.value [],
            node.mk NodeType.NODE_LEAF k
              (k.drop (substr_head N.path (N.fragment.length - pms)).length) v []],
            by simp [node.add, node.children, node.set_type, node.set_fragment, node.set_path,
              node.set_value]⟩

/-- An instance of the stored leaf: on the sample store the key `app.new` is not matched
and the offset 4 is within the key. -/
theorem insert_stores_leaf_witness :
    (sample_nat.insert (some "app.new".data) 9).1.ok = true ∧
    (∃ (p : node_ptr) (L : node Nat),
      (sample_nat.insert (some "app.new".data) 9).2.root.get_at p = some L ∧
      sample_nat.root.get_at p = none ∧ L.type = NodeType.NODE_LEAF ∧ L.path = "app.new".data ∧
      L.value = 9 ∧ L.children = []) ∧
    (∀ p : node_ptr, (sample_nat.root.get_at p).isSome = true →
      ((sample_nat.insert (some "app.new".data) 9).2.root.get_at p).isSome = true) :=
  insert_stores_leaf sample_nat "app.new".data 9 (by decide) (by decide)

/-- C38 (the code at the failing input): with the keys ab.xyz = 1 and ab.w = 2
stored, `fast_find("abxy")` is not matched and stops at the leaf of full path
`ab.xyz` with partial_matched_size 2.  `insert("abxy", 3)` shortens the full
path of that node to `ab.xy` and takes the fragment of the new leaf at the
offset 5 of the key, whose length is 4: the source reads past the end of the
key there. -/
theorem insert_stores_leaf_bug :
    abxyz_store.fast_find (c_str "abxy") =
      { partial_matched_size := 2, ptr := some [0, 0], en := 0, matched := false } ∧
    (abxyz_store.root.get_at [0, 0]).map node.fields =
      some (NodeType.NODE_LEAF, "ab.xyz".data, "xyz".data, 1) ∧
    abxyz_store.root.insert_offset "abxy".data = some 5 ∧
    "abxy".data.length = 4 ∧
    ((abxyz_store.insert (c_str "abxy") 3).2.root.get_at [0, 0]).map node.path =
      some "ab.xy".data :=
  ⟨by decide, by decide, by decide, by decide, by decide⟩

/-- C39: `common_prefix` is the length of the longest common prefix.  For all
strings `a` and `b`, passed with their lengths, the result `n` is at most the
smaller length, the first `n` characters of `a` and `b` are equal, and every
`m` up to the smaller length with equal first `m` characters is at most `n`;
the function is symmetric in its two strings, and `common_prefix(a, a)` is the
length of `a`. -/
theorem common_prefix_longest (a b : List Char) :
    common_prefix a a.length b b.length ≤ min a.length b.length ∧
    a.take ( common_prefix a a.length b b.length) =
      b.take ( common_prefix a a.length b b.length) ∧
    (∀ m, m ≤ min a.length b.length → a.take m = b.take m →
      m ≤ common_prefix a a.length b b.length) ∧
    common_prefix a a.length b b.length = common_prefix b b.length a a.length ∧
    common_prefix a a.length a a.length = a.length := by
  have e : ∀ x y : List Char, common_prefix x x.length y y.length = lcp x y :=
    fun x y => cpl_eq_lcp x y
  rw [e a b, e b a, e a a]
  refine ⟨Nat.le_min.mpr ⟨lcp_le_left a b, lcp_le_right a b⟩, lcp_take a b, ?_, lcp_comm a b,
    lcp_self a⟩
  intro m hm htake
  by_contra hlt
  have hlt2 : lcp a b < m := Nat.lt_of_not_le hlt
  have hma := Nat.le_min.mp hm
  have h1 : lcp a b < a.length := by omega
  have h2 : lcp a b < b.length := by omega
  apply lcp_get_ne a b h1 h2
  have g1 : (a.take m)[lcp a b]? = a[lcp a b]? := by simp [List.getElem?_take, hlt2]
  have g2 : (b.take m)[lcp a b]? = b[lcp a b]? := by simp [List.getElem?_take, hlt2]
  rw [← g1, ← g2, htake]

end trie
